import Mathlib

/-!
A verification development for the Verona runtime's trace region
(`src/rt/region/region_trace.h`).

The C++ code is shallowly embedded: the heap is a total map from object
identifiers (`Nat`) to object headers, the per-region scalar fields
(`next_not_root`, `last_not_root`, the memory counters) form a `Region`
record, and every region operation is a Lean function on this state.
Loops that walk rings or worklists take explicit fuel and return `Option`
(`none` = the walk did not terminate within the fuel, which never happens
on well-formed rings).

The object header operations (`object.h`) and the snmalloc size-class
helpers are not part of the embedded file; they are modelled from the
specification, as marked on each definition.
-/

namespace VeronaRT

/-- Modelled from the spec: snmalloc's `sizeclass_to_size` decodes a compact
size class back to a byte count.  The exact snmalloc table is external to
the runtime; we model size classes as powers of two.  No theorem below
depends on the concrete encoding. -/
def sizeclass_to_size (c : Nat) : Nat := 2 ^ c

/-- Modelled from the spec: snmalloc's `size_to_sizeclass` encodes a byte
count as a compact size class (smallest class whose size covers it). -/
def size_to_sizeclass (n : Nat) : Nat := Nat.clog 2 n

/-- The class tag of an object header (`Object::RegionMD`): the 2-bit ring
tag {ISO, MARKED, UNMARKED, SCC_PTR} plus the RC/COWN variants.
Modelled from the spec, §4.1. -/
inductive RegionMD where
  | ISO
  | MARKED
  | UNMARKED
  | SCC_PTR
  | RC
  | COWN
deriving DecidableEq

/-- An object header together with the descriptor data the region code
reads through it.  `next` is the ring link (for the iso it holds the
region back-reference, spec §3); `cls` is the class tag stored in the low
bits of `next`; `size`, `trivial` and `fields` come from the descriptor
(`fields` is what the descriptor's trace function enumerates);
`hasExtRef` is the "has external handle" bit.
Modelled from the spec, §3 and §4.1. -/
structure Obj where
  next : Nat
  cls : RegionMD
  size : Nat
  trivial : Bool
  fields : List Nat
  hasExtRef : Bool
deriving DecidableEq

/-- The heap: a total map from object identifiers to headers. -/
def Heap := Nat → Obj

/-- Update one heap cell. -/
def hupd (h : Heap) (i : Nat) (o : Obj) : Heap :=
  fun j => if j = i then o else h j

/-- The scalar fields of a `RegionTrace` metadata object: its own id in
the heap (`meta`; the primary-ring anchor is the `next` slot of that heap
cell), the secondary-ring anchor and tail, and the two memory counters. -/
structure Region where
  meta : Nat
  next_not_root : Nat
  last_not_root : Nat
  current_memory_used : Nat
  previous_memory_used : Nat
deriving DecidableEq

/-- A trace-region state: the heap plus the region's scalar fields. -/
structure RState where
  heap : Heap
  reg : Region

/-- `Object::get_next` / `get_next_any_mark`: the ring link.
Modelled from the spec, §4.1. -/
def get_next_obj (h : Heap) (p : Nat) : Nat := (h p).next

/-- `Object::init_next(q)`: store a plain (untagged) pointer in the next
slot; since the class tag lives in the low bits, the class becomes
UNMARKED.  Modelled from the spec, §4.1 and §4.3 step 3. -/
def init_next (s : RState) (p q : Nat) : RState :=
  { s with heap := hupd s.heap p { s.heap p with next := q, cls := RegionMD.UNMARKED } }

/-- `Object::set_next(q)`: rewrite the pointer part of the next slot,
keeping the class tag.  Modelled from the spec, §4.1. -/
def set_next_of (s : RState) (p q : Nat) : RState :=
  { s with heap := hupd s.heap p { s.heap p with next := q } }

/-- `RegionTrace::get_next()`: the primary-ring anchor, i.e. the next slot
of the region metadata object. -/
def get_next (s : RState) : Nat := (s.heap s.reg.meta).next

/-- `RegionTrace::set_next(q)`. -/
def set_next (s : RState) (q : Nat) : RState := set_next_of s s.reg.meta q

/-- `Object::init_iso()`: stamp the ISO tag (the next slot points at the
object itself until `set_region` overwrites it).
Modelled from the spec, §4.2 (create) and §4.3 step 3. -/
def init_iso (s : RState) (p : Nat) : RState :=
  { s with heap := hupd s.heap p { s.heap p with next := p, cls := RegionMD.ISO } }

/-- `Object::set_region(r)`: store the region back-reference in the next
slot, keeping the ISO tag.  Modelled from the spec, §3. -/
def set_region (s : RState) (p r : Nat) : RState := set_next_of s p r

/-- `Object::mark()`: UNMARKED → MARKED in place.
Modelled from the spec, §4.1. -/
def mark_obj (s : RState) (p : Nat) : RState :=
  { s with heap := hupd s.heap p { s.heap p with cls := RegionMD.MARKED } }

/-- `Object::unmark()`: MARKED → UNMARKED in place.
Modelled from the spec, §4.1. -/
def unmark_obj (s : RState) (p : Nat) : RState :=
  { s with heap := hupd s.heap p { s.heap p with cls := RegionMD.UNMARKED } }

/-- A descriptor as far as `create`/`alloc` read it: size and the static
triviality bit (no finaliser, no destructor, no subregions). -/
structure Descriptor where
  size : Nat
  trivial : Bool

/-- The header of a freshly constructed `RegionTrace` metadata object: the
constructor runs `set_descriptor(desc())` (the singleton descriptor of
size `sizeof(RegionTrace)` with no finaliser/destructor/trace, hence
trivial) and `init_next(o)`.  The metadata's own byte size is never read
by the embedded code, so we record it as 0. -/
def metaObj (o : Nat) : Obj :=
  { next := o
    cls := RegionMD.UNMARKED
    size := 0
    trivial := true
    fields := []
    hasExtRef := false }

/-- `RegionTrace::create(alloc, desc)`: allocate the iso object `oId` and
the region metadata `metaId` (both fresh), initialise the primary ring as
`[o]` and the secondary ring as empty, count `desc->size` bytes, stamp the
iso tag and the region back-reference. -/
def create (h : Heap) (oId metaId : Nat) (desc : Descriptor) : RState :=
  -- RegionTrace constructor: next_not_root = last_not_root = this; init_next(o)
  let h := hupd h metaId (metaObj oId)
  let reg : Region :=
    { meta := metaId, next_not_root := metaId, last_not_root := metaId,
      current_memory_used := 0, previous_memory_used := 0 }
  let s : RState := { heap := h, reg := reg }
  -- reg->use_memory(desc->size)
  let s := { s with reg := { s.reg with current_memory_used := s.reg.current_memory_used + desc.size } }
  -- o->set_descriptor(desc)
  let o : Obj :=
    { s.heap oId with
      size := desc.size
      trivial := desc.trivial
      fields := []
      hasExtRef := false }
  let s : RState := { s with heap := hupd s.heap oId o }
  -- o->init_iso(); o->set_region(reg)
  let s := init_iso s oId
  set_region s oId metaId

/-- `RegionTrace::append(Object* hd, Object* tl)`: splice the chain
`[hd … tl]` immediately after the region metadata object, into the ring
whose triviality matches `hd`. -/
def append (s : RState) (hd tl : Nat) : RState :=
  let p := get_next s
  if (s.heap hd).trivial = (s.heap p).trivial then
    let s := init_next s tl p
    set_next s hd
  else
    let s := init_next s tl s.reg.next_not_root
    let s := { s with reg := { s.reg with next_not_root := hd } }
    if s.reg.last_not_root = s.reg.meta then
      { s with reg := { s.reg with last_not_root := tl } }
    else
      s

/-- `RegionTrace::append(Object* hd)` (single object). -/
def append1 (s : RState) (hd : Nat) : RState := append s hd hd

/-- `RegionTrace::alloc(alloc, in, desc)`: allocate a fresh object `oId`
with descriptor `desc`, append it to the matching ring, and count its
bytes. -/
def allocObj (s : RState) (oId : Nat) (desc : Descriptor) : RState :=
  -- o = alloc(desc->size); o->set_descriptor(desc)
  let o : Obj :=
    { next := oId
      cls := RegionMD.UNMARKED
      size := desc.size
      trivial := desc.trivial
      fields := []
      hasExtRef := false }
  let s : RState := { s with heap := hupd s.heap oId o }
  -- reg->append(o)
  let s := append1 s oId
  -- reg->use_memory(desc->size)
  { s with reg := { s.reg with current_memory_used := s.reg.current_memory_used + desc.size } }

/-- `RegionTrace::merge_internal(o, other)`: splice the donor's primary
ring (its terminal element is the donor iso `o`) and then its secondary
ring into this region, add the donor's `current_memory_used`, and combine
the `previous_memory_used` size classes exactly as the source does. -/
def merge_internal (s : RState) (o : Nat) (other : Region) : RState :=
  -- Merge the primary ring.
  let head := (s.heap other.meta).next
  let s := if head ≠ other.meta then append s head o else s
  -- Merge the secondary ring.
  let head := other.next_not_root
  let s := if head ≠ other.meta then append s head other.last_not_root else s
  -- Update memory usage.
  let s := { s with reg := { s.reg with
    current_memory_used := s.reg.current_memory_used + other.current_memory_used } }
  { s with reg := { s.reg with
    previous_memory_used := size_to_sizeclass
      (sizeclass_to_size other.previous_memory_used +
       sizeclass_to_size other.previous_memory_used) } }

/-- `RegionTrace::swap_root_internal(oroot, nroot)`. -/
def swap_root_internal (s : RState) (oroot nroot : Nat) : RState :=
  -- Swap the rings if necessary.
  let so :=
    if (s.heap oroot).trivial ≠ (s.heap nroot).trivial then
      let t := get_next s
      let s := set_next s s.reg.next_not_root
      let s := { s with reg := { s.reg with next_not_root := t } }
      let t := s.reg.last_not_root
      let s := { s with reg := { s.reg with last_not_root := oroot } }
      let s := init_next s oroot s.reg.meta
      (s, t)
    else
      (s, oroot)
  let s := so.1
  let oroot := so.2
  -- We can end up with oroot == nroot if the rings were swapped.
  let s :=
    if oroot ≠ nroot then
      let x := get_next s
      let y := (s.heap nroot).next
      let s := init_next s oroot x
      set_next s y
    else
      s
  let s := init_iso s nroot
  set_region s nroot s.reg.meta

/-- `RegionTrace::swap_root(prev, next)` (the preconditions in the source
are debug assertions; the state transformation is `swap_root_internal`). -/
def swap_root (s : RState) (prev next : Nat) : RState :=
  swap_root_internal s prev next

/-- `RegionTrace::use_memory(size)`. -/
def use_memory (s : RState) (n : Nat) : RState :=
  { s with reg := { s.reg with current_memory_used := s.reg.current_memory_used + n } }

/-- The two rings of a trace region (`RegionTrace::RingKind`). -/
inductive RingKind where
  | TrivialRing
  | NonTrivialRing
deriving DecidableEq

/-- Observable events of a GC cycle, in the order they are performed:
finaliser calls, `find_iso_fields` calls, destructor calls, deallocations,
external-reference-table erasures and the remembered-set sweep. -/
inductive Ev where
  | finalise (o : Nat)
  | destruct (o : Nat)
  | dealloc (o : Nat)
  | findIso (o : Nat)
  | extErase (o : Nat)
  | sweepSetEv (marked : Nat)
deriving DecidableEq

/-- The state threaded through a sweep: the region state, the event trace
so far, and the `collect` stack of unreachable subregion isos. -/
structure SweepCtx where
  s : RState
  events : List Ev
  collect : List Nat

/-- Modelled from the spec, §4.4 phase A: `p->find_iso_fields(o, f,
collect)` pushes every field of `p` that points at the iso of a
*different* region (the referent's region back-pointer, held in its next
slot, differs from this region's metadata). -/
def find_iso_fields (h : Heap) (regMeta p : Nat) : List Nat :=
  (h p).fields.filter
    (fun g => decide ((h g).cls = RegionMD.ISO ∧ (h g).next ≠ regMeta))

/-- `RegionTrace::sweep_object<ring>(alloc, p, &gc)`: a trivial-ring
object has its external-handle entry erased and is deallocated at once; a
non-trivial-ring object is finalised and pushed (via its next slot, which
is out of the ring) onto the pending-destruction list `gcl`.  The list is
carried explicitly; the heap write of `init_next` is still performed (with
a self link standing for the null end of the chain). -/
def sweep_object (ring : RingKind) (c : SweepCtx) (p : Nat) (gcl : List Nat) :
    SweepCtx × List Nat :=
  match ring with
  | RingKind.TrivialRing =>
    let ev := if (c.s.heap p).hasExtRef then [Ev.extErase p] else []
    ({ c with events := c.events ++ ev ++ [Ev.dealloc p] }, gcl)
  | RingKind.NonTrivialRing =>
    let c := { c with events := c.events ++ [Ev.finalise p] }
    let nxt := match gcl with | [] => p | q :: _ => q
    let c := { c with s := init_next c.s p nxt }
    (c, p :: gcl)

/-- The ring walk of `RegionTrace::sweep_ring` (the `while (p != this)`
loop): accounts marked objects and the iso, unlinks and sweeps unmarked
objects, maintaining the secondary-ring anchors.  Fuel-indexed; `none`
means the fuel ran out or an illegal class tag was met (`assert(0)`). -/
def sweepRingLoop (ring primary : RingKind) (sweepAll : Bool) :
    Nat → SweepCtx → Nat → Nat → List Nat → Option (SweepCtx × List Nat)
  | 0, _, _, _, _ => none
  | fuel + 1, c, prev, p, gcl =>
    if p = c.s.reg.meta then some (c, gcl)
    else
      match (c.s.heap p).cls with
      | RegionMD.ISO =>
        -- The ISO is considered marked, unless we are releasing the region.
        if sweepAll then
          let cg := sweep_object ring c p gcl
          sweepRingLoop ring primary sweepAll fuel cg.1 prev cg.1.s.reg.meta cg.2
        else
          let c := { c with s := use_memory c.s (c.s.heap p).size }
          sweepRingLoop ring primary sweepAll fuel c prev c.s.reg.meta gcl
      | RegionMD.MARKED =>
        let c := { c with s := use_memory c.s (c.s.heap p).size }
        let c := { c with s := unmark_obj c.s p }
        sweepRingLoop ring primary sweepAll fuel c p ((c.s.heap p).next) gcl
      | RegionMD.UNMARKED =>
        let q := (c.s.heap p).next
        let cg := sweep_object ring c p gcl
        let c := cg.1
        let c :=
          if ring ≠ primary ∧ prev = c.s.reg.meta then
            { c with s := { c.s with reg := { c.s.reg with next_not_root := q } } }
          else
            { c with s := set_next_of c.s prev q }
        let c :=
          if ring ≠ primary ∧ c.s.reg.last_not_root = p then
            { c with s := { c.s with reg := { c.s.reg with last_not_root := prev } } }
          else
            c
        sweepRingLoop ring primary sweepAll fuel c prev q cg.2
      | _ => none

/-- One step of phase A of the two-phase destruction: a `find_iso_fields`
call over one pending object. -/
def phaseAstep (c : SweepCtx) (p : Nat) : SweepCtx :=
  { c with
    events := c.events ++ [Ev.findIso p]
    collect := c.collect ++ find_iso_fields c.s.heap c.s.reg.meta p }

/-- One step of phase B: the destructor immediately followed by the
deallocation of the same object. -/
def phaseBstep (c : SweepCtx) (p : Nat) : SweepCtx :=
  { c with events := c.events ++ [Ev.destruct p, Ev.dealloc p] }

/-- The two-phase destruction after the non-trivial ring walk
(`RegionTrace::sweep_ring`, the `if constexpr (ring == NonTrivialRing)`
block): phase A runs `find_iso_fields` over the whole pending list, then
phase B runs each destructor immediately followed by the deallocation. -/
def sweepPhases (c : SweepCtx) (gcl : List Nat) : SweepCtx :=
  gcl.foldl phaseBstep (gcl.foldl phaseAstep c)

/-- `RegionTrace::sweep_ring<ring, sweep_all>(alloc, o, primary_ring, f,
collect)`: walk the designated ring starting from its anchor, then, for
the non-trivial ring, run the two destruction phases. -/
def sweep_ring (ring primary : RingKind) (sweepAll : Bool) (fuel : Nat)
    (c : SweepCtx) : Option SweepCtx :=
  match sweepRingLoop ring primary sweepAll fuel c c.s.reg.meta
      (if ring = primary then get_next c.s else c.s.reg.next_not_root) [] with
  | none => none
  | some cg =>
    if ring = RingKind.NonTrivialRing then some (sweepPhases cg.1 cg.2) else some cg.1

/-- The primary ring of the region whose iso is `o`
(`o->is_trivial() ? TrivialRing : NonTrivialRing`). -/
def primaryRingOf (s : RState) (o : Nat) : RingKind :=
  if (s.heap o).trivial then RingKind.TrivialRing else RingKind.NonTrivialRing

/-- The sweep context at the start of `sweep`: `current_memory_used = 0`,
no events, empty collect stack. -/
def initCtx (s : RState) : SweepCtx :=
  { s := { s with reg := { s.reg with current_memory_used := 0 } }
    events := []
    collect := [] }

/-- `RegionTrace::sweep<sweep_all>(alloc, o, f, collect, marked)`: reset
`current_memory_used`, sweep the non-trivial ring first and then the
trivial ring, ask the remembered set to drop unmarked entries
(`sweep_set`), and re-encode `previous_memory_used`. -/
def sweep (sweepAll : Bool) (fuel : Nat) (s : RState) (o : Nat) (marked : Nat) :
    Option SweepCtx :=
  match sweep_ring RingKind.NonTrivialRing (primaryRingOf s o) sweepAll fuel (initCtx s) with
  | none => none
  | some c =>
    match sweep_ring RingKind.TrivialRing (primaryRingOf s o) sweepAll fuel c with
    | none => none
    | some c =>
      some
        { s := { c.s with reg := { c.s.reg with
            previous_memory_used := size_to_sizeclass c.s.reg.current_memory_used } }
          events := c.events ++ [Ev.sweepSetEv marked]
          collect := c.collect }

/-- The worklist loop of `RegionTrace::mark`: pop an object; skip isos and
already-marked objects; mark an unmarked object and push what its trace
function enumerates; count SCC/RC/COWN targets into the remembered set's
per-cycle marked counter (`RememberedSet::mark`, modelled from the spec as
the counter increment). -/
def markLoop : Nat → RState → List Nat → Nat → Option (RState × Nat)
  | 0, _, _, _ => none
  | fuel + 1, s, dfs, marked =>
    match dfs with
    | [] => some (s, marked)
    | p :: rest =>
      match (s.heap p).cls with
      | RegionMD.ISO => markLoop fuel s rest marked
      | RegionMD.MARKED => markLoop fuel s rest marked
      | RegionMD.UNMARKED => markLoop fuel (mark_obj s p) ((s.heap p).fields ++ rest) marked
      | RegionMD.SCC_PTR => markLoop fuel s rest (marked + 1)
      | RegionMD.RC => markLoop fuel s rest (marked + 1)
      | RegionMD.COWN => markLoop fuel s rest (marked + 1)

/-- `RegionTrace::mark(alloc, o, dfs, marked)`: trace the iso and run the
worklist to exhaustion. -/
def markFn (fuel : Nat) (s : RState) (o : Nat) : Option (RState × Nat) :=
  markLoop fuel s (s.heap o).fields 0

/-- The mark-and-sweep portion of `RegionTrace::gc(alloc, o)`: mark from
the iso, then sweep with `sweep_all = No`.  The driver then drains the
returned `collect` stack, releasing the (foreign) unreachable subregions;
that drain only touches other regions' objects, never this region's
state. -/
def gcStep (fuel : Nat) (s : RState) (o : Nat) : Option SweepCtx :=
  match markFn fuel s o with
  | none => none
  | some sm => sweep false fuel sm.1 o sm.2

/-- `RegionTrace::release_internal(alloc, o, f, collect)`: sweep
everything including the iso, with a marked count of 0, then deallocate
the region metadata object itself. -/
def release_internal (fuel : Nat) (s : RState) (o : Nat) : Option SweepCtx :=
  match sweep true fuel s o 0 with
  | none => none
  | some c => some { c with events := c.events ++ [Ev.dealloc c.s.reg.meta] }

/-- Modelled from the spec, §4.4 and §6: `RememberedSet::sweep_set(alloc,
marked)` drops every entry not marked this cycle and clears the mark flags
of the kept entries.  An entry is a pair of the target and its per-cycle
mark flag. -/
def rs_sweep_set (rset : List (Nat × Bool)) : List (Nat × Bool) :=
  (rset.filter (fun e => e.2)).map (fun e => (e.1, false))

/-! ### Basic preservation lemmas -/

theorem sweep_object_meta (ring : RingKind) (c : SweepCtx) (p : Nat) (gcl : List Nat) :
    (sweep_object ring c p gcl).1.s.reg.meta = c.s.reg.meta := by
  cases ring <;> simp [sweep_object, init_next]

theorem sweepRingLoop_meta (ring primary : RingKind) (sweepAll : Bool) :
    ∀ (fuel : Nat) (c : SweepCtx) (prev p : Nat) (gcl : List Nat) (out : SweepCtx × List Nat),
      sweepRingLoop ring primary sweepAll fuel c prev p gcl = some out →
      out.1.s.reg.meta = c.s.reg.meta := by
  intro fuel
  induction fuel with
  | zero => intro c prev p gcl out h; simp [sweepRingLoop] at h
  | succ n ih =>
    intro c prev p gcl out h
    rw [sweepRingLoop] at h
    by_cases hp : p = c.s.reg.meta
    · simp [hp] at h; subst h; rfl
    · simp [hp] at h
      cases hcls : (c.s.heap p).cls <;> simp [hcls] at h
      -- ISO
      · by_cases hs : sweepAll = true
        · rw [if_pos hs] at h
          have hh : out.1.s.reg.meta = _ := ih _ _ _ _ _ h
          rwa [sweep_object_meta] at hh
        · rw [if_neg hs] at h
          have hh : out.1.s.reg.meta = _ := ih _ _ _ _ _ h
          exact hh
      -- MARKED
      · have hh : out.1.s.reg.meta = _ := ih _ _ _ _ _ h
        exact hh
      -- UNMARKED
      · have hh : out.1.s.reg.meta = _ := ih _ _ _ _ _ h
        rw [hh]
        split
        · split <;> simp [sweep_object_meta]
        · split <;> simp [set_next_of, sweep_object_meta]

theorem foldl_phaseA_s (gcl : List Nat) (c : SweepCtx) :
    (gcl.foldl phaseAstep c).s = c.s := by
  induction gcl generalizing c with
  | nil => rfl
  | cons a l ih => rw [List.foldl_cons, ih]; rfl

theorem foldl_phaseB_s (gcl : List Nat) (c : SweepCtx) :
    (gcl.foldl phaseBstep c).s = c.s := by
  induction gcl generalizing c with
  | nil => rfl
  | cons a l ih => rw [List.foldl_cons, ih]; rfl

theorem sweepPhases_s (c : SweepCtx) (gcl : List Nat) :
    (sweepPhases c gcl).s = c.s := by
  unfold sweepPhases
  rw [foldl_phaseB_s, foldl_phaseA_s]

theorem sweep_ring_meta (ring primary : RingKind) (sweepAll : Bool) (fuel : Nat)
    (c out : SweepCtx) (h : sweep_ring ring primary sweepAll fuel c = some out) :
    out.s.reg.meta = c.s.reg.meta := by
  unfold sweep_ring at h
  split at h
  · exact absurd h (by simp)
  · next cg hl =>
    have hm := sweepRingLoop_meta ring primary sweepAll fuel c _ _ _ _ hl
    split at h
    · cases h; rw [sweepPhases_s]; exact hm
    · cases h; exact hm

theorem sweep_meta (sweepAll : Bool) (fuel : Nat) (s : RState) (o marked : Nat)
    (out : SweepCtx) (h : sweep sweepAll fuel s o marked = some out) :
    out.s.reg.meta = s.reg.meta := by
  unfold sweep at h
  split at h
  · exact absurd h (by simp)
  · next c1 h1 =>
    split at h
    · exact absurd h (by simp)
    · next c2 h2 =>
      cases h
      have m1 := sweep_ring_meta _ _ _ _ _ _ h1
      have m2 := sweep_ring_meta _ _ _ _ _ _ h2
      simp [initCtx] at m1
      exact m2.trans m1

/-- The event trace of a completed `sweep` ends with the
`sweep_set(marked)` call. -/
theorem sweep_events_tail (sweepAll : Bool) (fuel : Nat) (s : RState) (o marked : Nat)
    (out : SweepCtx) (h : sweep sweepAll fuel s o marked = some out) :
    ∃ e, out.events = e ++ [Ev.sweepSetEv marked] := by
  unfold sweep at h
  split at h
  · exact absurd h (by simp)
  · split at h
    · exact absurd h (by simp)
    · next c2 h2 =>
      cases h
      exact ⟨c2.events, rfl⟩

/-! ### Event-shape lemmas for the sweep -/

/-- The non-trivial ring walk only emits finaliser events, one per swept
object (in ring order), and pushes exactly those objects, reversed, onto
the pending-destruction list. -/
theorem sweepRingLoop_nontrivial_events (primary : RingKind) (sweepAll : Bool) :
    ∀ (fuel : Nat) (c : SweepCtx) (prev p : Nat) (gcl : List Nat) (out : SweepCtx × List Nat),
      sweepRingLoop RingKind.NonTrivialRing primary sweepAll fuel c prev p gcl = some out →
      ∃ ds : List Nat,
        out.1.events = c.events ++ ds.map Ev.finalise ∧ out.2 = ds.reverse ++ gcl := by
  intro fuel
  induction fuel with
  | zero => intro c prev p gcl out h; simp [sweepRingLoop] at h
  | succ n ih =>
    intro c prev p gcl out h
    rw [sweepRingLoop] at h
    by_cases hp : p = c.s.reg.meta
    · simp [hp] at h; subst h; exact ⟨[], by simp⟩
    · simp [hp] at h
      cases hcls : (c.s.heap p).cls <;> simp [hcls] at h
      -- ISO
      · by_cases hs : sweepAll = true
        · rw [if_pos hs] at h
          obtain ⟨ds, he, hg⟩ := ih _ _ _ _ _ h
          refine ⟨p :: ds, ?_, ?_⟩
          · rw [he]; simp [sweep_object, init_next]
          · rw [hg]; simp [sweep_object, init_next]
        · rw [if_neg hs] at h
          obtain ⟨ds, he, hg⟩ := ih _ _ _ _ _ h
          exact ⟨ds, by rw [he], hg⟩
      -- MARKED
      · obtain ⟨ds, he, hg⟩ := ih _ _ _ _ _ h
        exact ⟨ds, by rw [he], hg⟩
      -- UNMARKED
      · obtain ⟨ds, he, hg⟩ := ih _ _ _ _ _ h
        refine ⟨p :: ds, ?_, ?_⟩
        · rw [he]
          split
          · split <;> simp [sweep_object, init_next]
          · split <;> simp [sweep_object, init_next, set_next_of]
        · rw [hg]; simp [sweep_object, init_next]

/-- The trivial ring walk emits only external-table erasures and
deallocations, and never touches the pending-destruction list. -/
theorem sweepRingLoop_trivial_events (primary : RingKind) (sweepAll : Bool) :
    ∀ (fuel : Nat) (c : SweepCtx) (prev p : Nat) (gcl : List Nat) (out : SweepCtx × List Nat),
      sweepRingLoop RingKind.TrivialRing primary sweepAll fuel c prev p gcl = some out →
      ∃ ev : List Ev,
        out.1.events = c.events ++ ev ∧ out.2 = gcl ∧
        ∀ e ∈ ev, ∃ x, e = Ev.extErase x ∨ e = Ev.dealloc x := by
  intro fuel
  induction fuel with
  | zero => intro c prev p gcl out h; simp [sweepRingLoop] at h
  | succ n ih =>
    intro c prev p gcl out h
    rw [sweepRingLoop] at h
    by_cases hp : p = c.s.reg.meta
    · simp [hp] at h; subst h; exact ⟨[], by simp, rfl, by simp⟩
    · simp [hp] at h
      cases hcls : (c.s.heap p).cls <;> simp [hcls] at h
      -- ISO
      · by_cases hs : sweepAll = true
        · rw [if_pos hs] at h
          obtain ⟨ev, he, hg, hall⟩ := ih _ _ _ _ _ h
          by_cases hx : (c.s.heap p).hasExtRef = true
          · refine ⟨[Ev.extErase p, Ev.dealloc p] ++ ev, ?_, hg, ?_⟩
            · rw [he]; simp [sweep_object, hx]
            · intro e hee
              rcases List.mem_append.1 hee with h1 | h2
              · simp at h1
                rcases h1 with h1 | h1
                · exact ⟨p, Or.inl h1⟩
                · exact ⟨p, Or.inr h1⟩
              · exact hall e h2
          · refine ⟨[Ev.dealloc p] ++ ev, ?_, hg, ?_⟩
            · rw [he]; simp [sweep_object, hx]
            · intro e hee
              rcases List.mem_append.1 hee with h1 | h2
              · simp at h1; subst h1; exact ⟨p, Or.inr rfl⟩
              · exact hall e h2
        · rw [if_neg hs] at h
          obtain ⟨ev, he, hg, hall⟩ := ih _ _ _ _ _ h
          exact ⟨ev, by rw [he], hg, hall⟩
      -- MARKED
      · obtain ⟨ev, he, hg, hall⟩ := ih _ _ _ _ _ h
        exact ⟨ev, by rw [he], hg, hall⟩
      -- UNMARKED
      · obtain ⟨ev, he, hg, hall⟩ := ih _ _ _ _ _ h
        by_cases hx : (c.s.heap p).hasExtRef = true
        · refine ⟨[Ev.extErase p, Ev.dealloc p] ++ ev, ?_, hg, ?_⟩
          · rw [he]
            split
            · split <;> simp [sweep_object, hx]
            · split <;> simp [sweep_object, hx, set_next_of]
          · intro e hee
            rcases List.mem_append.1 hee with h1 | h2
            · simp at h1
              rcases h1 with h1 | h1
              · exact ⟨p, Or.inl h1⟩
              · exact ⟨p, Or.inr h1⟩
            · exact hall e h2
        · refine ⟨[Ev.dealloc p] ++ ev, ?_, hg, ?_⟩
          · rw [he]
            split
            · split <;> simp [sweep_object, hx]
            · split <;> simp [sweep_object, hx, set_next_of]
          · intro e hee
            rcases List.mem_append.1 hee with h1 | h2
            · simp at h1; subst h1; exact ⟨p, Or.inr rfl⟩
            · exact hall e h2

/-- Phase A appends exactly one `find_iso_fields` event per pending
object, in list order. -/
theorem foldl_phaseA_events (gcl : List Nat) (c : SweepCtx) :
    (gcl.foldl phaseAstep c).events = c.events ++ gcl.map Ev.findIso := by
  induction gcl generalizing c with
  | nil => simp
  | cons a l ih => rw [List.foldl_cons, ih]; simp [phaseAstep]

/-- Phase B appends, per pending object in list order, the destructor
event immediately followed by the deallocation event. -/
theorem foldl_phaseB_events (gcl : List Nat) (c : SweepCtx) :
    (gcl.foldl phaseBstep c).events =
      c.events ++ gcl.flatMap (fun x => [Ev.destruct x, Ev.dealloc x]) := by
  induction gcl generalizing c with
  | nil => simp
  | cons a l ih => rw [List.foldl_cons, ih]; simp [phaseBstep]

/-- The non-trivial `sweep_ring` pass produces exactly: the finaliser
events of the swept objects in ring order, then one `find_iso_fields`
event per pending object, then destructor events each immediately
followed by the matching deallocation; and nothing else. -/
theorem sweep_ring_nontrivial_shape (primary : RingKind) (sweepAll : Bool) (fuel : Nat)
    (c out : SweepCtx)
    (h : sweep_ring RingKind.NonTrivialRing primary sweepAll fuel c = some out) :
    ∃ ds : List Nat,
      out.events = c.events ++ ds.map Ev.finalise ++ ds.reverse.map Ev.findIso ++
        ds.reverse.flatMap (fun x => [Ev.destruct x, Ev.dealloc x]) := by
  unfold sweep_ring at h
  split at h
  · exact absurd h (by simp)
  · next cg hl =>
    simp at h
    obtain ⟨ds, he, hg⟩ := sweepRingLoop_nontrivial_events primary sweepAll fuel _ _ _ _ _ hl
    refine ⟨ds, ?_⟩
    rw [← h]
    unfold sweepPhases
    rw [foldl_phaseB_events, foldl_phaseA_events, he, hg]
    simp [List.append_assoc]

/-- The trivial `sweep_ring` pass appends only external-table erasures
and deallocations. -/
theorem sweep_ring_trivial_shape (primary : RingKind) (sweepAll : Bool) (fuel : Nat)
    (c out : SweepCtx)
    (h : sweep_ring RingKind.TrivialRing primary sweepAll fuel c = some out) :
    ∃ ev : List Ev,
      out.events = c.events ++ ev ∧
      ∀ e ∈ ev, ∃ x, e = Ev.extErase x ∨ e = Ev.dealloc x := by
  unfold sweep_ring at h
  split at h
  · exact absurd h (by simp)
  · next cg hl =>
    simp at h
    obtain ⟨ev, he, _, hall⟩ := sweepRingLoop_trivial_events primary sweepAll fuel _ _ _ _ _ hl
    exact ⟨ev, by rw [← h, he], hall⟩

/-- C2: in one normal-mode gc sweep, the non-trivial ring is swept before
the trivial ring; within the non-trivial pass every collected object's
finaliser event comes during the ring walk, strictly before every
`find_iso_fields` event of phase A, all of which come strictly before
every destructor event of phase B; and each destructor event is
immediately followed by the deallocation event of the same object.  The
trivial pass that follows contains only erasure/deallocation events, and
the remembered-set sweep comes last. -/
theorem sweep_two_phase_order (fuel : Nat) (s : RState) (o marked : Nat)
    (out : SweepCtx) (h : sweep false fuel s o marked = some out) :
    ∃ (ds : List Nat) (evT : List Ev),
      out.events =
        (ds.map Ev.finalise ++ ds.reverse.map Ev.findIso ++
          ds.reverse.flatMap (fun x => [Ev.destruct x, Ev.dealloc x])) ++
        evT ++ [Ev.sweepSetEv marked] ∧
      ∀ e ∈ evT, ∃ x, e = Ev.extErase x ∨ e = Ev.dealloc x := by
  unfold sweep at h
  split at h
  · exact absurd h (by simp)
  · next c1 h1 =>
    split at h
    · exact absurd h (by simp)
    · next c2 h2 =>
      cases h
      obtain ⟨ds, hds⟩ := sweep_ring_nontrivial_shape _ false fuel _ _ h1
      obtain ⟨ev, hev, hall⟩ := sweep_ring_trivial_shape _ false fuel _ _ h2
      refine ⟨ds, ev, ?_, hall⟩
      show c2.events ++ [Ev.sweepSetEv marked] = _
      rw [hev, hds]
      simp [initCtx, List.append_assoc]

/-! ### Objects and states used by the concrete witnesses -/

/-- A blank heap cell. -/
def blankObj : Obj :=
  { next := 0
    cls := RegionMD.UNMARKED
    size := 0
    trivial := true
    fields := []
    hasExtRef := false }

/-- The all-blank heap. -/
def heap0 : Heap := fun _ => blankObj

/-- A one-object region used by the witnesses: iso `1` of size 16,
trivial, with metadata at `0`. -/
def sW : RState := create heap0 1 0 { size := 16, trivial := true }

/-! ### Computation lemmas for `swap_root_internal` -/

/-- `swap_root_internal` never changes the metadata identity field. -/
theorem swap_root_internal_meta (s : RState) (oroot nroot : Nat) :
    (swap_root_internal s oroot nroot).reg.meta = s.reg.meta := by
  unfold swap_root_internal
  split <;>
    simp only [init_next, set_next, set_next_of, init_iso, set_region, get_next] <;>
    split <;>
    simp [hupd]

/-- Whatever path `swap_root_internal` takes, its last two statements
stamp `nroot` with the ISO tag and the region back-reference. -/
theorem swap_root_internal_root (s : RState) (oroot nroot : Nat) :
    ((swap_root_internal s oroot nroot).heap nroot).cls = RegionMD.ISO ∧
    ((swap_root_internal s oroot nroot).heap nroot).next = s.reg.meta := by
  unfold swap_root_internal
  split <;>
    simp only [init_next, set_next, set_next_of, init_iso, set_region, get_next] <;>
    split <;>
    simp [hupd]

/-- The matching-triviality path of `swap_root_internal`, written out as
explicit heap updates: `oroot` takes the old primary anchor as successor
and is demoted to UNMARKED, the metadata's anchor becomes `nroot`'s old
successor, and `nroot` becomes the ISO terminator. -/
theorem swap_root_internal_noswap (s : RState) (a b : Nat)
    (htriv : (s.heap a).trivial = (s.heap b).trivial)
    (hab : a ≠ b) (ham : a ≠ s.reg.meta) (hbm : b ≠ s.reg.meta) :
    swap_root_internal s a b =
      { heap :=
          hupd
            (hupd
              (hupd s.heap a
                { s.heap a with next := (s.heap s.reg.meta).next, cls := RegionMD.UNMARKED })
              s.reg.meta { s.heap s.reg.meta with next := (s.heap b).next })
            b { s.heap b with next := s.reg.meta, cls := RegionMD.ISO }
        reg := s.reg } := by
  unfold swap_root_internal
  rw [if_neg (by simp [htriv])]
  simp only [init_next, set_next, set_next_of, init_iso, set_region, get_next]
  rw [if_pos hab]
  congr 1
  funext x
  by_cases hxb : x = b
  · subst hxb; simp [hupd, Ne.symm hbm, hbm, hab, Ne.symm hab]
  · by_cases hxm : x = s.reg.meta
    · subst hxm; simp [hupd, ham, Ne.symm ham, hbm, Ne.symm hbm, hxb, Ne.symm hxb]
    · by_cases hxa : x = a
      · subst hxa; simp [hupd, ham, Ne.symm ham, hab, Ne.symm hab, hxm, Ne.symm hxm]
      · simp [hupd, hxa, Ne.symm hxa, hxb, Ne.symm hxb, hxm, Ne.symm hxm]

attribute [ext] Obj Region RState

/-! ### Ring chains -/

/-- `chainTo h m x l`: starting at `x` and following `next` links in `h`
visits exactly the nodes of `l` (none of which is `m`) and then reaches
the region metadata `m`.  A well-formed ring anchored at the metadata is
exactly such a chain. -/
def chainTo (h : Heap) (m : Nat) : Nat → List Nat → Prop
  | x, [] => x = m
  | x, a :: l => x = a ∧ a ≠ m ∧ chainTo h m ((h a).next) l

instance chainToDec (h : Heap) (m : Nat) :
    (x : Nat) → (l : List Nat) → Decidable (chainTo h m x l)
  | x, [] => by unfold chainTo; infer_instance
  | x, a :: l => by
      unfold chainTo
      have := chainToDec h m ((h a).next) l
      infer_instance

/-- A chain only reads the heap at its own nodes. -/
theorem chainTo_congr (h h' : Heap) (m : Nat) :
    ∀ (x : Nat) (l : List Nat), chainTo h m x l → (∀ y ∈ l, h' y = h y) →
      chainTo h' m x l := by
  intro x l
  induction l generalizing x with
  | nil => intro hc _; exact hc
  | cons a t ih =>
    intro hc hs
    obtain ⟨hx, ha, hrest⟩ := hc
    refine ⟨hx, ha, ?_⟩
    rw [hs a (by simp)]
    exact ih _ hrest (fun y hy => hs y (by simp [hy]))

/-- Every node of a chain differs from the metadata. -/
theorem chainTo_ne_meta (h : Heap) (m : Nat) :
    ∀ (x : Nat) (l : List Nat), chainTo h m x l → ∀ y ∈ l, y ≠ m := by
  intro x l
  induction l generalizing x with
  | nil => intro _ y hy; cases hy
  | cons a t ih =>
    intro hc y hy
    obtain ⟨hx, ha, hrest⟩ := hc
    rcases List.mem_cons.1 hy with rfl | hy'
    · exact ha
    · exact ih _ hrest y hy'

/-- The total descriptor size of a list of objects. -/
def sizesum (h : Heap) (l : List Nat) : Nat := (l.map (fun x => (h x).size)).sum

theorem sizesum_congr (h h' : Heap) (l : List Nat)
    (hs : ∀ y ∈ l, h' y = h y) : sizesum h' l = sizesum h l := by
  unfold sizesum
  congr 1
  exact List.map_congr_left (fun y hy => by rw [hs y hy])

/-- The events emitted while sweeping the dead objects `ds` out of a ring
of the given kind: erasure+deallocation for the trivial ring, a finaliser
call for the non-trivial ring (whose deallocations happen in phase B). -/
def deadEvents (h : Heap) (ring : RingKind) (ds : List Nat) : List Ev :=
  match ring with
  | RingKind.TrivialRing =>
      ds.flatMap (fun x =>
        (if (h x).hasExtRef then [Ev.extErase x] else []) ++ [Ev.dealloc x])
  | RingKind.NonTrivialRing => ds.map Ev.finalise

/-- Objects kept by a normal-mode sweep: everything except UNMARKED. -/
def keepB (h : Heap) : Nat → Bool := fun x => !decide ((h x).cls = RegionMD.UNMARKED)

/-- Objects collected by a normal-mode sweep. -/
def deadB (h : Heap) : Nat → Bool := fun x => decide ((h x).cls = RegionMD.UNMARKED)

theorem deadEvents_congr (h h' : Heap) (ring : RingKind) (ds : List Nat)
    (hs : ∀ y ∈ ds, h' y = h y) : deadEvents h' ring ds = deadEvents h ring ds := by
  cases ring with
  | TrivialRing =>
    simp only [deadEvents]
    induction ds with
    | nil => rfl
    | cons a t ih =>
      simp only [List.flatMap_cons]
      rw [hs a (by simp), ih (fun y hy => hs y (by simp [hy]))]
  | NonTrivialRing => rfl

/-- The walk is a no-op once `p` reaches the metadata. -/
theorem sweepRingLoop_at_meta (ring primary : RingKind) (sweepAll : Bool)
    (fuel : Nat) (c : SweepCtx) (prev : Nat) (gcl : List Nat)
    (out : SweepCtx × List Nat)
    (h : sweepRingLoop ring primary sweepAll fuel c prev c.s.reg.meta gcl = some out) :
    out = (c, gcl) := by
  cases fuel with
  | zero => simp [sweepRingLoop] at h
  | succ n => simp [sweepRingLoop] at h; exact h.symm

theorem sizesum_nil (h : Heap) : sizesum h [] = 0 := rfl

theorem sizesum_cons (h : Heap) (x : Nat) (l : List Nat) :
    sizesum h (x :: l) = (h x).size + sizesum h l := by simp [sizesum]

theorem deadEvents_cons (h : Heap) (ring : RingKind) (x : Nat) (ds : List Nat) :
    deadEvents h ring (x :: ds) = deadEvents h ring [x] ++ deadEvents h ring ds := by
  cases ring <;> simp [deadEvents]

theorem sweep_object_s_reg (ring : RingKind) (c : SweepCtx) (p : Nat) (gcl : List Nat) :
    (sweep_object ring c p gcl).1.s.reg = c.s.reg := by
  cases ring <;> simp [sweep_object, init_next]

theorem sweep_object_s_heap (ring : RingKind) (c : SweepCtx) (p : Nat) (gcl : List Nat)
    (y : Nat) (hy : y ≠ p) : (sweep_object ring c p gcl).1.s.heap y = c.s.heap y := by
  cases ring <;> simp [sweep_object, init_next, hupd, hy]

theorem sweep_object_collect (ring : RingKind) (c : SweepCtx) (p : Nat) (gcl : List Nat) :
    (sweep_object ring c p gcl).1.collect = c.collect := by
  cases ring <;> simp [sweep_object, init_next]

theorem sweep_object_events (ring : RingKind) (c : SweepCtx) (p : Nat) (gcl : List Nat) :
    (sweep_object ring c p gcl).1.events = c.events ++ deadEvents c.s.heap ring [p] := by
  cases ring <;> simp [sweep_object, init_next, deadEvents]

theorem sweep_object_gcl (ring : RingKind) (c : SweepCtx) (p : Nat) (gcl : List Nat) :
    (sweep_object ring c p gcl).2 =
      if ring = RingKind.NonTrivialRing then p :: gcl else gcl := by
  cases ring <;> simp [sweep_object, init_next]

theorem chainTo_congr_next (h h' : Heap) (m : Nat) :
    ∀ (l : List Nat) (x : Nat), chainTo h m x l →
      (∀ y ∈ l, (h' y).next = (h y).next) → chainTo h' m x l := by
  intro l
  induction l with
  | nil => intro x hc _; exact hc
  | cons a t ih =>
    intro x hc hs
    obtain ⟨hx, ham, hrest⟩ := hc
    refine ⟨hx, ham, ?_⟩
    rw [hs a (by simp)]
    exact ih _ hrest (fun b hb => hs b (by simp [hb]))

theorem sizesum_congr_size (h h' : Heap) (l : List Nat)
    (hs : ∀ y ∈ l, (h' y).size = (h y).size) : sizesum h' l = sizesum h l := by
  unfold sizesum
  congr 1
  exact List.map_congr_left (fun y hy => hs y hy)


/-- Cell-evolution shape of one `sweep_object` call: only `next` and
`cls` change, and `cls` only to UNMARKED. -/
theorem sweep_object_cellEvo (ring : RingKind) (c : SweepCtx) (p : Nat) (gcl : List Nat)
    (x : Nat) :
    ∃ nx cl, (sweep_object ring c p gcl).1.s.heap x =
      { c.s.heap x with next := nx, cls := cl } ∧
      (cl = (c.s.heap x).cls ∨ cl = RegionMD.UNMARKED) := by
  cases ring with
  | TrivialRing =>
    exact ⟨(c.s.heap x).next, (c.s.heap x).cls, by simp [sweep_object], Or.inl rfl⟩
  | NonTrivialRing =>
    by_cases hxp : x = p
    · subst hxp
      cases gcl with
      | nil =>
        exact ⟨x, RegionMD.UNMARKED, by simp [sweep_object, init_next, hupd], Or.inr rfl⟩
      | cons q t =>
        exact ⟨q, RegionMD.UNMARKED, by simp [sweep_object, init_next, hupd], Or.inr rfl⟩
    · exact ⟨(c.s.heap x).next, (c.s.heap x).cls,
        by simp [sweep_object, init_next, hupd, hxp], Or.inl rfl⟩

theorem set_next_of_cellEvo (s : RState) (p q x : Nat) :
    ∃ nx cl, (set_next_of s p q).heap x = { s.heap x with next := nx, cls := cl } ∧
      (cl = (s.heap x).cls ∨ cl = RegionMD.UNMARKED) := by
  by_cases hxp : x = p
  · subst hxp
    exact ⟨q, (s.heap x).cls, by simp [set_next_of, hupd], Or.inl rfl⟩
  · exact ⟨(s.heap x).next, (s.heap x).cls, by simp [set_next_of, hupd, hxp], Or.inl rfl⟩

theorem cellEvo_trans (h1 h2 h3 : Heap) (x : Nat)
    (a : ∃ nx cl, h2 x = { h1 x with next := nx, cls := cl } ∧
      (cl = (h1 x).cls ∨ cl = RegionMD.UNMARKED))
    (b : ∃ nx cl, h3 x = { h2 x with next := nx, cls := cl } ∧
      (cl = (h2 x).cls ∨ cl = RegionMD.UNMARKED)) :
    ∃ nx cl, h3 x = { h1 x with next := nx, cls := cl } ∧
      (cl = (h1 x).cls ∨ cl = RegionMD.UNMARKED) := by
  obtain ⟨n1, c1, he1, ho1⟩ := a
  obtain ⟨n2, c2, he2, ho2⟩ := b
  refine ⟨n2, c2, ?_, ?_⟩
  · rw [he2, he1]
  · rcases ho2 with hh | hh
    · rw [hh, he1]
      show c1 = (h1 x).cls ∨ c1 = RegionMD.UNMARKED
      exact ho1
    · exact Or.inr hh

/-- Every cell evolution of the ring walk rewrites only the `next` and
`cls` slots, and a class is only ever overwritten with its old value or
with UNMARKED. -/
theorem sweepRingLoop_cellEvolution (ring primary : RingKind) (sweepAll : Bool) :
    ∀ (fuel : Nat) (c : SweepCtx) (prev p : Nat) (gcl : List Nat)
      (out : SweepCtx × List Nat),
      sweepRingLoop ring primary sweepAll fuel c prev p gcl = some out →
      ∀ x, ∃ nx cl, out.1.s.heap x = { c.s.heap x with next := nx, cls := cl } ∧
        (cl = (c.s.heap x).cls ∨ cl = RegionMD.UNMARKED) := by
  intro fuel
  induction fuel with
  | zero => intro c prev p gcl out h; simp [sweepRingLoop] at h
  | succ n ih =>
    intro c prev p gcl out h x
    rw [sweepRingLoop] at h
    by_cases hp : p = c.s.reg.meta
    · simp [hp] at h
      subst h
      exact ⟨(c.s.heap x).next, (c.s.heap x).cls, rfl, Or.inl rfl⟩
    · simp [hp] at h
      cases hcls : (c.s.heap p).cls <;> simp [hcls] at h
      · -- ISO
        by_cases hs : sweepAll = true
        · rw [if_pos hs] at h
          exact cellEvo_trans c.s.heap (sweep_object ring c p gcl).1.s.heap out.1.s.heap x
            (sweep_object_cellEvo ring c p gcl x) (ih _ _ _ _ _ h x)
        · rw [if_neg hs] at h
          exact ih _ _ _ _ _ h x
      · -- MARKED
        refine cellEvo_trans c.s.heap _ out.1.s.heap x ?_ (ih _ _ _ _ _ h x)
        by_cases hxp : x = p
        · subst hxp
          exact ⟨(c.s.heap x).next, RegionMD.UNMARKED,
            by simp [unmark_obj, use_memory, hupd], Or.inr rfl⟩
        · exact ⟨(c.s.heap x).next, (c.s.heap x).cls,
            by simp [unmark_obj, use_memory, hupd, hxp], Or.inl rfl⟩
      · -- UNMARKED
        split at h
        · split at h
          · exact cellEvo_trans c.s.heap (sweep_object ring c p gcl).1.s.heap
              out.1.s.heap x (sweep_object_cellEvo ring c p gcl x) (ih _ _ _ _ _ h x)
          · exact cellEvo_trans c.s.heap (sweep_object ring c p gcl).1.s.heap
              out.1.s.heap x (sweep_object_cellEvo ring c p gcl x) (ih _ _ _ _ _ h x)
        · split at h
          · exact cellEvo_trans c.s.heap
              (set_next_of (sweep_object ring c p gcl).1.s prev ((c.s.heap p).next)).heap
              out.1.s.heap x
              (cellEvo_trans c.s.heap (sweep_object ring c p gcl).1.s.heap
                (set_next_of (sweep_object ring c p gcl).1.s prev ((c.s.heap p).next)).heap
                x (sweep_object_cellEvo ring c p gcl x)
                (set_next_of_cellEvo (sweep_object ring c p gcl).1.s prev
                  ((c.s.heap p).next) x))
              (ih _ _ _ _ _ h x)
          · exact cellEvo_trans c.s.heap
              (set_next_of (sweep_object ring c p gcl).1.s prev ((c.s.heap p).next)).heap
              out.1.s.heap x
              (cellEvo_trans c.s.heap (sweep_object ring c p gcl).1.s.heap
                (set_next_of (sweep_object ring c p gcl).1.s prev ((c.s.heap p).next)).heap
                x (sweep_object_cellEvo ring c p gcl x)
                (set_next_of_cellEvo (sweep_object ring c p gcl).1.s prev
                  ((c.s.heap p).next) x))
              (ih _ _ _ _ _ h x)


/-- The walk of a normal-mode sweep over the *primary* ring (`ring =
primary_ring`), specified against the ring list: the chain from `p` reads
`body ++ [isoId]`; afterwards the ring from `prev` reads exactly the
non-UNMARKED part of `body` followed by the iso, the MARKED survivors
have been unmarked in place, `current_memory_used` grew by the survivors'
and the iso's sizes, the UNMARKED objects were swept (their events
emitted, and for the non-trivial ring pushed onto the pending list in
reverse ring order), and nothing else changed. -/
theorem sweepWalk_primary (ring : RingKind) (isoId : Nat) :
    ∀ (body : List Nat) (fuel : Nat) (c : SweepCtx) (prev p : Nat) (gcl : List Nat)
      (out : SweepCtx × List Nat),
      sweepRingLoop ring ring false fuel c prev p gcl = some out →
      chainTo c.s.heap c.s.reg.meta p (body ++ [isoId]) →
      (body ++ [isoId]).Nodup →
      prev ∉ body ++ [isoId] →
      (c.s.heap prev).next = p →
      (c.s.heap isoId).cls = RegionMD.ISO →
      (∀ x ∈ body, (c.s.heap x).cls = RegionMD.MARKED ∨ (c.s.heap x).cls = RegionMD.UNMARKED) →
      (out.1.s.reg = { c.s.reg with current_memory_used :=
          c.s.reg.current_memory_used + sizesum c.s.heap (body.filter (keepB c.s.heap)) +
            (c.s.heap isoId).size } ∧
       out.1.collect = c.collect) ∧
      ((∀ y, y ∉ body → y ≠ isoId → y ≠ prev → out.1.s.heap y = c.s.heap y) ∧
       out.1.s.heap isoId = c.s.heap isoId ∧
       (∃ nx, out.1.s.heap prev = { c.s.heap prev with next := nx }) ∧
       (∀ y ∈ body, keepB c.s.heap y = true →
         ∃ nx, out.1.s.heap y = { c.s.heap y with cls := RegionMD.UNMARKED, next := nx })) ∧
      chainTo out.1.s.heap c.s.reg.meta ((out.1.s.heap prev).next)
        (body.filter (keepB c.s.heap) ++ [isoId]) ∧
      out.1.events = c.events ++ deadEvents c.s.heap ring (body.filter (deadB c.s.heap)) ∧
      out.2 = (if ring = RingKind.NonTrivialRing
               then (body.filter (deadB c.s.heap)).reverse ++ gcl else gcl) := by
  intro body
  induction body with
  | nil =>
    intro fuel c prev p gcl out h hchain hnd hprev hprevnext hiso hbody
    obtain ⟨hpi, him, hnext⟩ := hchain
    have hnext' : (c.s.heap isoId).next = c.s.reg.meta := hnext
    rw [hpi] at h hprevnext
    cases fuel with
    | zero => simp [sweepRingLoop] at h
    | succ n =>
      rw [sweepRingLoop] at h
      rw [if_neg him] at h
      rw [hiso] at h
      simp only [] at h
      rw [if_neg (by simp)] at h
      have hout := sweepRingLoop_at_meta ring ring false n _ prev gcl out h
      subst hout
      refine ⟨⟨?_, rfl⟩, ⟨fun y _ _ _ => rfl, rfl, ⟨(c.s.heap prev).next, rfl⟩,
        fun y hy => absurd hy (List.not_mem_nil y)⟩, ?_,
        by cases ring <;> simp [deadEvents], by simp⟩
      · simp [use_memory, sizesum]
      · exact ⟨hprevnext ▸ rfl, him, hnext'⟩
  | cons x body' ih =>
    intro fuel c prev p gcl out h hchain hnd hprev hprevnext hiso hbody
    obtain ⟨hpx, hxm, hrest⟩ := hchain
    subst hpx
    have hxiso : p ≠ isoId := by
      intro hx
      rw [hx] at hnd
      exact (List.nodup_cons.1 hnd).1 (by simp)
    have hxnotin : p ∉ body' ++ [isoId] := (List.nodup_cons.1 hnd).1
    have hxbody : p ∉ body' := fun hx => hxnotin (by simp [hx])
    have hprev' : prev ∉ body' ++ [isoId] := fun hx => hprev (by simp [List.mem_cons]; right; simpa using hx)
    have hpprev : p ≠ prev := by
      intro hx
      exact hprev (by simp [← hx])
    cases fuel with
    | zero => simp [sweepRingLoop] at h
    | succ n =>
      rw [sweepRingLoop] at h
      rw [if_neg hxm] at h
      rcases hbody p (by simp) with hcls | hcls
      · -- MARKED head: unmark in place, account, advance
        rw [hcls] at h
        simp only [] at h
        set s1 : RState := unmark_obj (use_memory c.s (c.s.heap p).size) p with hs1
        have hcell : ∀ y, y ≠ p → s1.heap y = c.s.heap y := by
          intro y hy; simp [hs1, unmark_obj, use_memory, hupd, hy]
        have hcellp : s1.heap p = { c.s.heap p with cls := RegionMD.UNMARKED } := by
          simp [hs1, unmark_obj, use_memory, hupd]
        have hreg1 : s1.reg = { c.s.reg with current_memory_used :=
            c.s.reg.current_memory_used + (c.s.heap p).size } := by
          simp [hs1, unmark_obj, use_memory]
        have hmem' : ∀ y ∈ body' ++ [isoId], y ≠ p := fun y hy he => hxnotin (he ▸ hy)
        have hkp : keepB c.s.heap p = true := by simp [keepB, hcls]
        have hdp : deadB c.s.heap p = false := by simp [deadB, hcls]
        have hprevbody : prev ∉ body' := fun hx => hprev (by simp [hx])
        have hpreviso : prev ≠ isoId := fun he => hprev (by simp [he])
        obtain ⟨⟨hreg, hcol⟩, ⟨hout2, hiso2, hprevc, hsurv⟩, hchain2, hev, hgcl⟩ :=
          ih n _ p _ gcl out h
            (by
              show chainTo s1.heap c.s.reg.meta ((s1.heap p).next) (body' ++ [isoId])
              have hnexteq : (s1.heap p).next = (c.s.heap p).next := by rw [hcellp]
              rw [hnexteq]
              exact chainTo_congr c.s.heap s1.heap c.s.reg.meta _ _ hrest
                (fun y hy => hcell y (hmem' y hy)))
            ((List.nodup_cons.1 hnd).2)
            hxnotin
            rfl
            (by
              show (s1.heap isoId).cls = RegionMD.ISO
              rw [hcell isoId (Ne.symm hxiso)]; exact hiso)
            (fun y hy => by
              show (s1.heap y).cls = RegionMD.MARKED ∨ (s1.heap y).cls = RegionMD.UNMARKED
              rw [hcell y (fun he => hxbody (he ▸ hy))]
              exact hbody y (by simp [hy]))
        simp only [] at hreg hcol hout2 hiso2 hprevc hsurv hchain2 hev hgcl
        have hfk : body'.filter (keepB s1.heap) = body'.filter (keepB c.s.heap) :=
          List.filter_congr (fun y hy => by
            simp only [keepB]
            rw [hcell y (fun he => hxbody (he ▸ hy))])
        have hfd : body'.filter (deadB s1.heap) = body'.filter (deadB c.s.heap) :=
          List.filter_congr (fun y hy => by
            simp only [deadB]
            rw [hcell y (fun he => hxbody (he ▸ hy))])
        have hss : sizesum s1.heap (body'.filter (keepB c.s.heap)) =
            sizesum c.s.heap (body'.filter (keepB c.s.heap)) :=
          sizesum_congr _ _ _ (fun y hy =>
            hcell y (fun he => hxbody (he ▸ List.mem_of_mem_filter hy)))
        have hde : deadEvents s1.heap ring (body'.filter (deadB c.s.heap)) =
            deadEvents c.s.heap ring (body'.filter (deadB c.s.heap)) :=
          deadEvents_congr _ _ _ _ (fun y hy =>
            hcell y (fun he => hxbody (he ▸ List.mem_of_mem_filter hy)))
        have hisoc : s1.heap isoId = c.s.heap isoId := hcell isoId (Ne.symm hxiso)
        refine ⟨⟨?_, ?_⟩, ⟨?_, ?_, ?_, ?_⟩, ?_, ?_, ?_⟩
        · -- region fields and memory accounting
          rw [hreg, hfk, hss, hisoc, hreg1]
          simp only [List.filter_cons, hkp, if_true, sizesum_cons]
          congr 1
          omega
        · exact hcol
        · -- untouched cells
          intro y hyb hyi hyp
          have hynb : y ∉ body' := fun hx => hyb (by simp [hx])
          have hynp : y ≠ p := fun he => hyb (by simp [he])
          rw [hout2 y hynb hyi hynp, hcell y hynp]
        · rw [hiso2, hisoc]
        · -- prev cell only has its next rewritten
          have hpp : out.1.s.heap prev = c.s.heap prev := by
            rw [hout2 prev hprevbody hpreviso (Ne.symm hpprev), hcell prev (Ne.symm hpprev)]
          exact ⟨(c.s.heap prev).next, by rw [hpp]⟩
        · -- surviving cells
          intro y hy hky
          rcases List.mem_cons.1 hy with rfl | hy'
          · obtain ⟨nx, hnx⟩ := hprevc
            refine ⟨nx, ?_⟩
            rw [hnx, hcellp]
          · have hky1 : keepB s1.heap y = true := by
              simp only [keepB] at hky ⊢
              rw [hcell y (fun he => hxbody (he ▸ hy'))]
              exact hky
            obtain ⟨nx, hnx⟩ := hsurv y hy' hky1
            refine ⟨nx, ?_⟩
            rw [hnx, hcell y (fun he => hxbody (he ▸ hy'))]
        · -- the surviving ring
          have hpe : (out.1.s.heap prev).next = p := by
            rw [hout2 prev hprevbody hpreviso (Ne.symm hpprev),
              hcell prev (Ne.symm hpprev)]
            exact hprevnext
          simp only [List.filter_cons, hkp, if_true, List.cons_append]
          rw [hfk] at hchain2
          rw [hreg1] at hchain2
          exact ⟨hpe, hxm, hchain2⟩
        · -- events
          rw [hev, hfd, hde]
          simp only [List.filter_cons, hdp, if_false, Bool.false_eq_true]
        · -- pending-destruction list
          rw [hgcl, hfd]
          simp only [List.filter_cons, hdp, if_false, Bool.false_eq_true]
      · -- UNMARKED head: unlink and sweep
        rw [hcls] at h
        simp only [ne_eq, not_true_eq_false, false_and, if_false] at h
        set s2 : RState :=
          set_next_of (sweep_object ring c p gcl).1.s prev ((c.s.heap p).next) with hs2
        have hprevbody : prev ∉ body' := fun hx => hprev (by simp [hx])
        have hpreviso : prev ≠ isoId := fun he => hprev (by simp [he])
        have hcell2 : ∀ y, y ≠ p → y ≠ prev → s2.heap y = c.s.heap y := by
          intro y hyp hyprev
          rw [hs2]
          show (set_next_of (sweep_object ring c p gcl).1.s prev ((c.s.heap p).next)).heap y
            = c.s.heap y
          simp only [set_next_of, hupd]
          rw [if_neg hyprev]
          exact sweep_object_s_heap ring c p gcl y hyp
        have hcellprev : s2.heap prev = { c.s.heap prev with next := (c.s.heap p).next } := by
          have hcg := sweep_object_s_heap ring c p gcl prev (Ne.symm hpprev)
          rw [hs2]
          show (set_next_of (sweep_object ring c p gcl).1.s prev ((c.s.heap p).next)).heap prev
            = _
          simp only [set_next_of, hupd, if_pos]
          rw [hcg]
        have hreg2 : s2.reg = c.s.reg := by
          rw [hs2]
          show (set_next_of (sweep_object ring c p gcl).1.s prev ((c.s.heap p).next)).reg = _
          simp only [set_next_of]
          exact congrArg RState.reg (congrArg SweepCtx.s rfl) |>.trans (sweep_object_s_reg ring c p gcl)
        have hmem' : ∀ y ∈ body' ++ [isoId], y ≠ p := fun y hy he => hxnotin (he ▸ hy)
        have hkp : keepB c.s.heap p = false := by simp [keepB, hcls]
        have hdp : deadB c.s.heap p = true := by simp [deadB, hcls]
        obtain ⟨⟨hreg, hcol⟩, ⟨hout2, hiso2, hprevc, hsurv⟩, hchain2, hev, hgcl⟩ :=
          ih n _ prev _ _ out h
            (by
              show chainTo s2.heap s2.reg.meta ((c.s.heap p).next) (body' ++ [isoId])
              rw [hreg2]
              exact chainTo_congr c.s.heap s2.heap c.s.reg.meta _ _ hrest
                (fun y hy => hcell2 y (hmem' y hy)
                  (fun he => hprev' (he ▸ hy)))
              )
            ((List.nodup_cons.1 hnd).2)
            hprev'
            (by
              show (s2.heap prev).next = (c.s.heap p).next
              rw [hcellprev])
            (by
              show (s2.heap isoId).cls = RegionMD.ISO
              rw [hcell2 isoId (Ne.symm hxiso) (Ne.symm hpreviso)]
              exact hiso)
            (fun y hy => by
              show (s2.heap y).cls = RegionMD.MARKED ∨ (s2.heap y).cls = RegionMD.UNMARKED
              rw [hcell2 y (fun he => hxbody (he ▸ hy)) (fun he => hprevbody (he ▸ hy))]
              exact hbody y (by simp [hy]))
        simp only [] at hreg hcol hout2 hiso2 hprevc hsurv hchain2 hev hgcl
        have hbne : ∀ y ∈ body', s2.heap y = c.s.heap y := fun y hy =>
          hcell2 y (fun he => hxbody (he ▸ hy)) (fun he => hprevbody (he ▸ hy))
        have hfk : body'.filter (keepB s2.heap) = body'.filter (keepB c.s.heap) :=
          List.filter_congr (fun y hy => by simp only [keepB]; rw [hbne y hy])
        have hfd : body'.filter (deadB s2.heap) = body'.filter (deadB c.s.heap) :=
          List.filter_congr (fun y hy => by simp only [deadB]; rw [hbne y hy])
        have hss : sizesum s2.heap (body'.filter (keepB c.s.heap)) =
            sizesum c.s.heap (body'.filter (keepB c.s.heap)) :=
          sizesum_congr _ _ _ (fun y hy => hbne y (List.mem_of_mem_filter hy))
        have hde : deadEvents s2.heap ring (body'.filter (deadB c.s.heap)) =
            deadEvents c.s.heap ring (body'.filter (deadB c.s.heap)) :=
          deadEvents_congr _ _ _ _ (fun y hy => hbne y (List.mem_of_mem_filter hy))
        have hisoc : s2.heap isoId = c.s.heap isoId :=
          hcell2 isoId (Ne.symm hxiso) (Ne.symm hpreviso)
        refine ⟨⟨?_, ?_⟩, ⟨?_, ?_, ?_, ?_⟩, ?_, ?_, ?_⟩
        · rw [hreg, hfk, hss, hisoc, hreg2]
          simp only [List.filter_cons, hkp, Bool.false_eq_true, if_false]
        · rw [hcol]
          exact sweep_object_collect ring c p gcl
        · intro y hyb hyi hyp
          have hynb : y ∉ body' := fun hx => hyb (by simp [hx])
          have hynp : y ≠ p := fun he => hyb (by simp [he])
          rw [hout2 y hynb hyi hyp, hcell2 y hynp hyp]
        · rw [hiso2, hisoc]
        · obtain ⟨nx, hnx⟩ := hprevc
          refine ⟨nx, ?_⟩
          rw [hnx, hcellprev]
        · intro y hy hky
          rcases List.mem_cons.1 hy with rfl | hy'
          · rw [keepB] at hky
            simp [hcls] at hky
          · have hky1 : keepB s2.heap y = true := by
              simp only [keepB] at hky ⊢
              rw [hbne y hy']
              exact hky
            obtain ⟨nx, hnx⟩ := hsurv y hy' hky1
            refine ⟨nx, ?_⟩
            rw [hnx, hbne y hy']
        · simp only [List.filter_cons, hkp, Bool.false_eq_true, if_false]
          rw [hfk, hreg2] at hchain2
          exact hchain2
        · rw [hev, hfd, hde, sweep_object_events]
          simp only [List.filter_cons, hdp, if_true]
          conv_rhs => rw [deadEvents_cons]
          rw [List.append_assoc]
        · rw [hgcl, hfd, sweep_object_gcl]
          by_cases hr : ring = RingKind.NonTrivialRing <;>
            simp [hr, List.filter_cons, hdp]


theorem getLast?_cons_some : ∀ (z : Nat) (t : List Nat), ∃ v, (z :: t).getLast? = some v
  | z, [] => ⟨z, rfl⟩
  | z, w :: t => by
      obtain ⟨v, hv⟩ := getLast?_cons_some w t
      exact ⟨v, by rw [List.getLast?_cons_cons, hv]⟩

theorem getLast?_mem : ∀ (l : List Nat) (v : Nat), l.getLast? = some v → v ∈ l
  | [], v, hv => by simp at hv
  | [z], v, hv => by simp [List.getLast?_singleton] at hv; simp [hv]
  | z :: w :: t, v, hv => by
      rw [List.getLast?_cons_cons] at hv
      exact List.mem_cons_of_mem z (getLast?_mem (w :: t) v hv)

theorem getLastD_cons (x : Nat) (L : List Nat) (d : Nat) :
    (x :: L).getLast?.getD d = L.getLast?.getD x := by
  cases L with
  | nil => rfl
  | cons z t =>
    rw [List.getLast?_cons_cons]
    obtain ⟨v, hv⟩ := getLast?_cons_some z t
    rw [hv]
    rfl

/-- The walk of a normal-mode sweep over the *secondary* ring (`ring ≠
primary_ring`), specified against the ring list `L` read from
`next_not_root`: afterwards the secondary ring holds exactly the
non-UNMARKED part of `L` (with `next_not_root` and `last_not_root`
re-anchored accordingly), the MARKED survivors have been unmarked in
place, `current_memory_used` grew by the survivors' sizes, the UNMARKED
objects were swept, and nothing else changed. -/
theorem sweepWalk_secondary (ring primary : RingKind) (hrp : ring ≠ primary) :
    ∀ (L : List Nat) (fuel : Nat) (c : SweepCtx) (prev p : Nat) (gcl : List Nat)
      (out : SweepCtx × List Nat),
      sweepRingLoop ring primary false fuel c prev p gcl = some out →
      chainTo c.s.heap c.s.reg.meta p L →
      L.Nodup →
      prev ∉ L →
      (prev = c.s.reg.meta → c.s.reg.next_not_root = p) →
      (prev ≠ c.s.reg.meta → (c.s.heap prev).next = p) →
      c.s.reg.last_not_root = L.getLast?.getD prev →
      (∀ x ∈ L, (c.s.heap x).cls = RegionMD.MARKED ∨ (c.s.heap x).cls = RegionMD.UNMARKED) →
      (out.1.s.reg.meta = c.s.reg.meta ∧
       out.1.s.reg.previous_memory_used = c.s.reg.previous_memory_used ∧
       out.1.s.reg.current_memory_used =
         c.s.reg.current_memory_used + sizesum c.s.heap (L.filter (keepB c.s.heap)) ∧
       out.1.s.reg.last_not_root = (L.filter (keepB c.s.heap)).getLast?.getD prev ∧
       out.1.collect = c.collect) ∧
      ((∀ y, y ∉ L → y ≠ prev → out.1.s.heap y = c.s.heap y) ∧
       (∃ nx, out.1.s.heap prev = { c.s.heap prev with next := nx }) ∧
       (prev = c.s.reg.meta → out.1.s.heap prev = c.s.heap prev) ∧
       (∀ y ∈ L, keepB c.s.heap y = true →
         ∃ nx, out.1.s.heap y = { c.s.heap y with cls := RegionMD.UNMARKED, next := nx })) ∧
      ((prev = c.s.reg.meta →
         chainTo out.1.s.heap c.s.reg.meta out.1.s.reg.next_not_root
           (L.filter (keepB c.s.heap))) ∧
       (prev ≠ c.s.reg.meta →
         out.1.s.reg.next_not_root = c.s.reg.next_not_root ∧
         chainTo out.1.s.heap c.s.reg.meta ((out.1.s.heap prev).next)
           (L.filter (keepB c.s.heap)))) ∧
      out.1.events = c.events ++ deadEvents c.s.heap ring (L.filter (deadB c.s.heap)) ∧
      out.2 = (if ring = RingKind.NonTrivialRing
               then (L.filter (deadB c.s.heap)).reverse ++ gcl else gcl) := by
  intro L
  induction L with
  | nil =>
    intro fuel c prev p gcl out h hchain hnd hprev hm1 hm2 hlnr hbody
    have hpm : p = c.s.reg.meta := hchain
    rw [hpm] at h
    have hout := sweepRingLoop_at_meta ring primary false fuel c prev gcl out h
    subst hout
    refine ⟨⟨rfl, rfl, by simp [sizesum], hlnr, rfl⟩,
      ⟨fun y _ _ => rfl, ⟨(c.s.heap prev).next, rfl⟩, fun _ => rfl,
        fun y hy => absurd hy (List.not_mem_nil y)⟩,
      ⟨fun hpme => (hm1 hpme).trans hpm, fun hpne => ⟨rfl, (hm2 hpne).trans hpm⟩⟩,
      by cases ring <;> simp [deadEvents], by simp⟩
  | cons x L' ih =>
    intro fuel c prev p gcl out h hchain hnd hprev hm1 hm2 hlnr hbody
    obtain ⟨hpx, hxm, hrest⟩ := hchain
    subst hpx
    have hxnotin : p ∉ L' := (List.nodup_cons.1 hnd).1
    have hprev' : prev ∉ L' := fun hx => hprev (by simp [hx])
    have hpprev : p ≠ prev := fun hx => hprev (by simp [← hx])
    cases fuel with
    | zero => simp [sweepRingLoop] at h
    | succ n =>
      rw [sweepRingLoop] at h
      rw [if_neg hxm] at h
      rcases hbody p (by simp) with hcls | hcls
      · -- MARKED head
        rw [hcls] at h
        simp only [] at h
        set s1 : RState := unmark_obj (use_memory c.s (c.s.heap p).size) p with hs1
        have hcell : ∀ y, y ≠ p → s1.heap y = c.s.heap y := by
          intro y hy; simp [hs1, unmark_obj, use_memory, hupd, hy]
        have hcellp : s1.heap p = { c.s.heap p with cls := RegionMD.UNMARKED } := by
          simp [hs1, unmark_obj, use_memory, hupd]
        have hreg1 : s1.reg = { c.s.reg with current_memory_used :=
            c.s.reg.current_memory_used + (c.s.heap p).size } := by
          simp [hs1, unmark_obj, use_memory]
        have hmem' : ∀ y ∈ L', y ≠ p := fun y hy he => hxnotin (he ▸ hy)
        have hkp : keepB c.s.heap p = true := by simp [keepB, hcls]
        have hdp : deadB c.s.heap p = false := by simp [deadB, hcls]
        obtain ⟨⟨hmeta2, hpm2, hcur2, hlnr2, hcol⟩, ⟨hout2, hprevc, hmcell, hsurv⟩,
            ⟨hcA, hcB⟩, hev, hgcl⟩ :=
          ih n _ p _ gcl out h
            (by
              show chainTo s1.heap c.s.reg.meta ((s1.heap p).next) L'
              have hnexteq : (s1.heap p).next = (c.s.heap p).next := by rw [hcellp]
              rw [hnexteq]
              exact chainTo_congr c.s.heap s1.heap c.s.reg.meta _ _ hrest
                (fun y hy => hcell y (hmem' y hy)))
            ((List.nodup_cons.1 hnd).2)
            hxnotin
            (fun hpmeta => absurd (show p = c.s.reg.meta from hpmeta) hxm)
            (fun _ => rfl)
            (show c.s.reg.last_not_root = L'.getLast?.getD p by rw [hlnr, getLastD_cons])
            (fun y hy => by
              show (s1.heap y).cls = RegionMD.MARKED ∨ (s1.heap y).cls = RegionMD.UNMARKED
              rw [hcell y (hmem' y hy)]
              exact hbody y (by simp [hy]))
        simp only [] at hout2 hprevc hsurv hev hgcl
        have hcur2' : out.1.s.reg.current_memory_used =
            c.s.reg.current_memory_used + (c.s.heap p).size +
              sizesum s1.heap (L'.filter (keepB s1.heap)) := hcur2
        have hmeta2' : out.1.s.reg.meta = c.s.reg.meta := hmeta2
        have hpm2' : out.1.s.reg.previous_memory_used = c.s.reg.previous_memory_used := hpm2
        have hlnr2' : out.1.s.reg.last_not_root =
            (L'.filter (keepB s1.heap)).getLast?.getD p := hlnr2
        have hbne : ∀ y ∈ L', s1.heap y = c.s.heap y := fun y hy => hcell y (hmem' y hy)
        have hfk : L'.filter (keepB s1.heap) = L'.filter (keepB c.s.heap) :=
          List.filter_congr (fun y hy => by simp only [keepB]; rw [hbne y hy])
        have hfd : L'.filter (deadB s1.heap) = L'.filter (deadB c.s.heap) :=
          List.filter_congr (fun y hy => by simp only [deadB]; rw [hbne y hy])
        have hss : sizesum s1.heap (L'.filter (keepB c.s.heap)) =
            sizesum c.s.heap (L'.filter (keepB c.s.heap)) :=
          sizesum_congr _ _ _ (fun y hy => hbne y (List.mem_of_mem_filter hy))
        have hde : deadEvents s1.heap ring (L'.filter (deadB c.s.heap)) =
            deadEvents c.s.heap ring (L'.filter (deadB c.s.heap)) :=
          deadEvents_congr _ _ _ _ (fun y hy => hbne y (List.mem_of_mem_filter hy))
        have hpohp : out.1.s.heap prev = c.s.heap prev := by
          rw [hout2 prev hprev' (Ne.symm hpprev), hcell prev (Ne.symm hpprev)]
        refine ⟨⟨hmeta2', hpm2', ?_, ?_, hcol⟩, ⟨?_, ?_, ?_, ?_⟩, ⟨?_, ?_⟩, ?_, ?_⟩
        · rw [hcur2', hfk, hss]
          simp only [List.filter_cons, hkp, if_true, sizesum_cons]
          omega
        · rw [hlnr2', hfk]
          simp only [List.filter_cons, hkp, if_true]
          rw [getLastD_cons]
        · intro y hyb hyp
          have hynb : y ∉ L' := fun hx => hyb (by simp [hx])
          have hynp : y ≠ p := fun he => hyb (by simp [he])
          rw [hout2 y hynb hynp, hcell y hynp]
        · exact ⟨(c.s.heap prev).next, by rw [hpohp]⟩
        · exact fun _ => hpohp
        · intro y hy hky
          rcases List.mem_cons.1 hy with rfl | hy'
          · obtain ⟨nx, hnx⟩ := hprevc
            refine ⟨nx, ?_⟩
            rw [hnx, hcellp]
          · have hky1 : keepB s1.heap y = true := by
              simp only [keepB] at hky ⊢
              rw [hbne y hy']
              exact hky
            obtain ⟨nx, hnx⟩ := hsurv y hy' hky1
            exact ⟨nx, by rw [hnx, hbne y hy']⟩
        · -- entry chain when prev is the metadata
          intro hpme
          obtain ⟨hnnr, hchain2⟩ := hcB (fun he => hxm (show p = c.s.reg.meta from he))
          have hnnr' : out.1.s.reg.next_not_root = c.s.reg.next_not_root := hnnr
          simp only [] at hchain2
          rw [hfk] at hchain2
          simp only [List.filter_cons, hkp, if_true]
          refine ⟨?_, hxm, hchain2⟩
          rw [hnnr']
          exact hm1 hpme
        · -- entry chain when prev is an earlier survivor
          intro hpne
          obtain ⟨hnnr, hchain2⟩ := hcB (fun he => hxm (show p = c.s.reg.meta from he))
          have hnnr' : out.1.s.reg.next_not_root = c.s.reg.next_not_root := hnnr
          simp only [] at hchain2
          rw [hfk] at hchain2
          simp only [List.filter_cons, hkp, if_true]
          refine ⟨hnnr', ?_, hxm, hchain2⟩
          rw [hpohp]
          exact hm2 hpne
        · rw [hev, hfd, hde]
          simp only [List.filter_cons, hdp, if_false, Bool.false_eq_true]
        · rw [hgcl, hfd]
          simp only [List.filter_cons, hdp, if_false, Bool.false_eq_true]
      · -- UNMARKED head
        rw [hcls] at h
        have hrpT : (¬ ring = primary) = True := by simp [hrp]
        simp only [ne_eq, hrpT, true_and, set_next_of] at h
        rw [sweep_object_s_reg ring c p gcl] at h
        have hcellcg := sweep_object_s_heap ring c p gcl
        have hmem' : ∀ y ∈ L', y ≠ p := fun y hy he => hxnotin (he ▸ hy)
        have hkp : keepB c.s.heap p = false := by simp [keepB, hcls]
        have hdp : deadB c.s.heap p = true := by simp [deadB, hcls]
        have hbne : ∀ y ∈ L', (sweep_object ring c p gcl).1.s.heap y = c.s.heap y :=
          fun y hy => hcellcg y (hmem' y hy)
        have hfk : L'.filter (keepB (sweep_object ring c p gcl).1.s.heap) =
            L'.filter (keepB c.s.heap) :=
          List.filter_congr (fun y hy => by simp only [keepB]; rw [hbne y hy])
        have hfd : L'.filter (deadB (sweep_object ring c p gcl).1.s.heap) =
            L'.filter (deadB c.s.heap) :=
          List.filter_congr (fun y hy => by simp only [deadB]; rw [hbne y hy])
        have hss : sizesum (sweep_object ring c p gcl).1.s.heap
              (L'.filter (keepB c.s.heap)) =
            sizesum c.s.heap (L'.filter (keepB c.s.heap)) :=
          sizesum_congr _ _ _ (fun y hy => hbne y (List.mem_of_mem_filter hy))
        have hde : deadEvents (sweep_object ring c p gcl).1.s.heap ring
              (L'.filter (deadB c.s.heap)) =
            deadEvents c.s.heap ring (L'.filter (deadB c.s.heap)) :=
          deadEvents_congr _ _ _ _ (fun y hy => hbne y (List.mem_of_mem_filter hy))
        have hlnrA : c.s.reg.last_not_root = p → prev = L'.getLast?.getD prev := by
          intro hlx
          cases L' with
          | nil => rfl
          | cons z t =>
            exfalso
            obtain ⟨v, hv⟩ := getLast?_cons_some z t
            have hcv : c.s.reg.last_not_root = v := by
              rw [hlnr, List.getLast?_cons_cons, hv]; rfl
            have : v = p := by rw [← hcv, hlx]
            exact hxnotin (this ▸ getLast?_mem (z :: t) v hv)
        have hlnrB : ¬(c.s.reg.last_not_root = p) →
            c.s.reg.last_not_root = L'.getLast?.getD prev := by
          intro hlx
          cases L' with
          | nil => exact absurd hlnr hlx
          | cons z t =>
            rw [List.getLast?_cons_cons] at hlnr
            exact hlnr
        by_cases hpm : prev = c.s.reg.meta
        · rw [if_pos hpm] at h
          simp only [] at h
          by_cases hlx : c.s.reg.last_not_root = p
          · -- a1: anchored at the metadata; the dead node was also the tail
            rw [if_pos hlx] at h
            obtain ⟨⟨hmeta2, hpm2, hcur2, hlnr2, hcol⟩, ⟨hout2, hprevc, hmcell, hsurv⟩,
                ⟨hcA, hcB⟩, hev, hgcl⟩ :=
              ih n _ prev _ _ out h
                (by
                  show chainTo (sweep_object ring c p gcl).1.s.heap c.s.reg.meta
                    ((c.s.heap p).next) L'
                  exact chainTo_congr c.s.heap _ c.s.reg.meta _ _ hrest
                    (fun y hy => hbne y hy))
                ((List.nodup_cons.1 hnd).2)
                hprev'
                (fun _ => rfl)
                (fun hne => absurd (show prev = _ from hpm) hne)
                (show prev = L'.getLast?.getD prev from hlnrA hlx)
                (fun y hy => by
                  show ((sweep_object ring c p gcl).1.s.heap y).cls = _ ∨
                    ((sweep_object ring c p gcl).1.s.heap y).cls = _
                  rw [hbne y hy]
                  exact hbody y (by simp [hy]))
            simp only [] at hout2 hprevc hsurv hev hgcl hcA hcB
            have hcur2' : out.1.s.reg.current_memory_used =
                c.s.reg.current_memory_used +
                  sizesum (sweep_object ring c p gcl).1.s.heap
                    (L'.filter (keepB (sweep_object ring c p gcl).1.s.heap)) := hcur2
            have hmeta2' : out.1.s.reg.meta = c.s.reg.meta := hmeta2
            have hpm2' : out.1.s.reg.previous_memory_used = c.s.reg.previous_memory_used := hpm2
            have hlnr2' : out.1.s.reg.last_not_root =
                (L'.filter (keepB (sweep_object ring c p gcl).1.s.heap)).getLast?.getD prev :=
              hlnr2
            have hcol' : out.1.collect = (sweep_object ring c p gcl).1.collect := hcol
            have hev' : out.1.events = (sweep_object ring c p gcl).1.events ++
                deadEvents (sweep_object ring c p gcl).1.s.heap ring
                  (L'.filter (deadB (sweep_object ring c p gcl).1.s.heap)) := hev
            refine ⟨⟨hmeta2', hpm2', ?_, ?_, ?_⟩, ⟨?_, ?_, ?_, ?_⟩, ⟨?_, ?_⟩, ?_, ?_⟩
            · rw [hcur2', hfk, hss]
              simp [List.filter_cons, hkp]
            · rw [hlnr2', hfk]
              simp [List.filter_cons, hkp]
            · rw [hcol', sweep_object_collect]
            · intro y hyb hyp
              have hynb : y ∉ L' := fun hx => hyb (by simp [hx])
              have hynp : y ≠ p := fun he => hyb (by simp [he])
              rw [hout2 y hynb hyp, hcellcg y hynp]
            · obtain ⟨nx, hnx⟩ := hprevc
              refine ⟨nx, ?_⟩
              rw [hnx, hcellcg prev (Ne.symm hpprev)]
            · intro hpme2
              rw [hmcell (show prev = _ from hpme2), hcellcg prev (Ne.symm hpprev)]
            · intro y hy hky
              rcases List.mem_cons.1 hy with rfl | hy'
              · rw [keepB] at hky; simp [hcls] at hky
              · have hky1 : keepB (sweep_object ring c p gcl).1.s.heap y = true := by
                  simp only [keepB] at hky ⊢
                  rw [hbne y hy']
                  exact hky
                obtain ⟨nx, hnx⟩ := hsurv y hy' hky1
                exact ⟨nx, by rw [hnx, hbne y hy']⟩
            · intro hpme
              have hchain2 := hcA (show prev = _ from hpm)
              rw [hfk] at hchain2
              simp only [List.filter_cons, hkp, Bool.false_eq_true, if_false]
              exact hchain2
            · intro hpne
              exact absurd hpm hpne
            · rw [hev', hfd, hde, sweep_object_events]
              simp only [List.filter_cons, hdp, if_true]
              conv_rhs => rw [deadEvents_cons]
              rw [List.append_assoc]
            · rw [hgcl, hfd, sweep_object_gcl]
              by_cases hr : ring = RingKind.NonTrivialRing <;>
                simp [hr, List.filter_cons, hdp]
          · -- a2: anchored at the metadata; the tail survives elsewhere
            rw [if_neg hlx] at h
            obtain ⟨⟨hmeta2, hpm2, hcur2, hlnr2, hcol⟩, ⟨hout2, hprevc, hmcell, hsurv⟩,
                ⟨hcA, hcB⟩, hev, hgcl⟩ :=
              ih n _ prev _ _ out h
                (by
                  show chainTo (sweep_object ring c p gcl).1.s.heap c.s.reg.meta
                    ((c.s.heap p).next) L'
                  exact chainTo_congr c.s.heap _ c.s.reg.meta _ _ hrest
                    (fun y hy => hbne y hy))
                ((List.nodup_cons.1 hnd).2)
                hprev'
                (fun _ => rfl)
                (fun hne => absurd (show prev = _ from hpm) hne)
                (show c.s.reg.last_not_root = L'.getLast?.getD prev from hlnrB hlx)
                (fun y hy => by
                  show ((sweep_object ring c p gcl).1.s.heap y).cls = _ ∨
                    ((sweep_object ring c p gcl).1.s.heap y).cls = _
                  rw [hbne y hy]
                  exact hbody y (by simp [hy]))
            simp only [] at hout2 hprevc hsurv hev hgcl hcA hcB
            have hcur2' : out.1.s.reg.current_memory_used =
                c.s.reg.current_memory_used +
                  sizesum (sweep_object ring c p gcl).1.s.heap
                    (L'.filter (keepB (sweep_object ring c p gcl).1.s.heap)) := hcur2
            have hmeta2' : out.1.s.reg.meta = c.s.reg.meta := hmeta2
            have hpm2' : out.1.s.reg.previous_memory_used = c.s.reg.previous_memory_used := hpm2
            have hlnr2' : out.1.s.reg.last_not_root =
                (L'.filter (keepB (sweep_object ring c p gcl).1.s.heap)).getLast?.getD prev :=
              hlnr2
            have hcol' : out.1.collect = (sweep_object ring c p gcl).1.collect := hcol
            have hev' : out.1.events = (sweep_object ring c p gcl).1.events ++
                deadEvents (sweep_object ring c p gcl).1.s.heap ring
                  (L'.filter (deadB (sweep_object ring c p gcl).1.s.heap)) := hev
            refine ⟨⟨hmeta2', hpm2', ?_, ?_, ?_⟩, ⟨?_, ?_, ?_, ?_⟩, ⟨?_, ?_⟩, ?_, ?_⟩
            · rw [hcur2', hfk, hss]
              simp [List.filter_cons, hkp]
            · rw [hlnr2', hfk]
              simp [List.filter_cons, hkp]
            · rw [hcol', sweep_object_collect]
            · intro y hyb hyp
              have hynb : y ∉ L' := fun hx => hyb (by simp [hx])
              have hynp : y ≠ p := fun he => hyb (by simp [he])
              rw [hout2 y hynb hyp, hcellcg y hynp]
            · obtain ⟨nx, hnx⟩ := hprevc
              refine ⟨nx, ?_⟩
              rw [hnx, hcellcg prev (Ne.symm hpprev)]
            · intro hpme2
              rw [hmcell (show prev = _ from hpme2), hcellcg prev (Ne.symm hpprev)]
            · intro y hy hky
              rcases List.mem_cons.1 hy with rfl | hy'
              · rw [keepB] at hky; simp [hcls] at hky
              · have hky1 : keepB (sweep_object ring c p gcl).1.s.heap y = true := by
                  simp only [keepB] at hky ⊢
                  rw [hbne y hy']
                  exact hky
                obtain ⟨nx, hnx⟩ := hsurv y hy' hky1
                exact ⟨nx, by rw [hnx, hbne y hy']⟩
            · intro hpme
              have hchain2 := hcA (show prev = _ from hpm)
              rw [hfk] at hchain2
              simp only [List.filter_cons, hkp, Bool.false_eq_true, if_false]
              exact hchain2
            · intro hpne
              exact absurd hpm hpne
            · rw [hev', hfd, hde, sweep_object_events]
              simp only [List.filter_cons, hdp, if_true]
              conv_rhs => rw [deadEvents_cons]
              rw [List.append_assoc]
            · rw [hgcl, hfd, sweep_object_gcl]
              by_cases hr : ring = RingKind.NonTrivialRing <;>
                simp [hr, List.filter_cons, hdp]
        · rw [if_neg hpm] at h
          simp only [] at h
          set H2 : Heap := hupd (sweep_object ring c p gcl).1.s.heap prev
            { (sweep_object ring c p gcl).1.s.heap prev with
              next := (c.s.heap p).next } with hH2
          have hcellb : ∀ y, y ≠ p → y ≠ prev → H2 y = c.s.heap y := by
            intro y hyp hyprev
            rw [hH2]
            show hupd _ prev _ y = _
            simp only [hupd]
            rw [if_neg hyprev]
            exact hcellcg y hyp
          have hcellbprev : H2 prev = { c.s.heap prev with next := (c.s.heap p).next } := by
            rw [hH2]
            show hupd _ prev _ prev = _
            simp only [hupd, if_pos]
            rw [hcellcg prev (Ne.symm hpprev)]
          have hbneb : ∀ y ∈ L', H2 y = c.s.heap y :=
            fun y hy => hcellb y (hmem' y hy) (fun he => hprev' (he ▸ hy))
          have hfkb : L'.filter (keepB H2) = L'.filter (keepB c.s.heap) :=
            List.filter_congr (fun y hy => by simp only [keepB]; rw [hbneb y hy])
          have hfdb : L'.filter (deadB H2) = L'.filter (deadB c.s.heap) :=
            List.filter_congr (fun y hy => by simp only [deadB]; rw [hbneb y hy])
          have hssb : sizesum H2 (L'.filter (keepB c.s.heap)) =
              sizesum c.s.heap (L'.filter (keepB c.s.heap)) :=
            sizesum_congr _ _ _ (fun y hy => hbneb y (List.mem_of_mem_filter hy))
          have hdeb : deadEvents H2 ring (L'.filter (deadB c.s.heap)) =
              deadEvents c.s.heap ring (L'.filter (deadB c.s.heap)) :=
            deadEvents_congr _ _ _ _ (fun y hy => hbneb y (List.mem_of_mem_filter hy))
          by_cases hlx : c.s.reg.last_not_root = p
          · -- b1: anchored at an earlier survivor; the dead node was the tail
            rw [if_pos hlx] at h
            obtain ⟨⟨hmeta2, hpm2, hcur2, hlnr2, hcol⟩, ⟨hout2, hprevc, hmcell, hsurv⟩,
                ⟨hcA, hcB⟩, hev, hgcl⟩ :=
              ih n _ prev _ _ out h
                (by
                  show chainTo H2 c.s.reg.meta ((c.s.heap p).next) L'
                  exact chainTo_congr c.s.heap H2 c.s.reg.meta _ _ hrest
                    (fun y hy => hbneb y hy))
                ((List.nodup_cons.1 hnd).2)
                hprev'
                (fun hpmeta => absurd (show prev = c.s.reg.meta from hpmeta) hpm)
                (fun _ => by
                  show (H2 prev).next = (c.s.heap p).next
                  rw [hcellbprev])
                (show prev = L'.getLast?.getD prev from hlnrA hlx)
                (fun y hy => by
                  show (H2 y).cls = _ ∨ (H2 y).cls = _
                  rw [hbneb y hy]
                  exact hbody y (by simp [hy]))
            simp only [] at hout2 hprevc hsurv hev hgcl hcA hcB
            have hcur2' : out.1.s.reg.current_memory_used =
                c.s.reg.current_memory_used + sizesum H2 (L'.filter (keepB H2)) := hcur2
            have hmeta2' : out.1.s.reg.meta = c.s.reg.meta := hmeta2
            have hpm2' : out.1.s.reg.previous_memory_used = c.s.reg.previous_memory_used := hpm2
            have hlnr2' : out.1.s.reg.last_not_root =
                (L'.filter (keepB H2)).getLast?.getD prev := hlnr2
            have hcol' : out.1.collect = (sweep_object ring c p gcl).1.collect := hcol
            have hev' : out.1.events = (sweep_object ring c p gcl).1.events ++
                deadEvents H2 ring (L'.filter (deadB H2)) := hev
            refine ⟨⟨hmeta2', hpm2', ?_, ?_, ?_⟩, ⟨?_, ?_, ?_, ?_⟩, ⟨?_, ?_⟩, ?_, ?_⟩
            · rw [hcur2', hfkb, hssb]
              simp [List.filter_cons, hkp]
            · rw [hlnr2', hfkb]
              simp [List.filter_cons, hkp]
            · rw [hcol', sweep_object_collect]
            · intro y hyb hyp
              have hynb : y ∉ L' := fun hx => hyb (by simp [hx])
              have hynp : y ≠ p := fun he => hyb (by simp [he])
              rw [hout2 y hynb hyp, hcellb y hynp hyp]
            · obtain ⟨nx, hnx⟩ := hprevc
              refine ⟨nx, ?_⟩
              rw [hnx, hcellbprev]
            · intro hpme2
              exact absurd hpme2 hpm
            · intro y hy hky
              rcases List.mem_cons.1 hy with rfl | hy'
              · rw [keepB] at hky; simp [hcls] at hky
              · have hky1 : keepB H2 y = true := by
                  simp only [keepB] at hky ⊢
                  rw [hbneb y hy']
                  exact hky
                obtain ⟨nx, hnx⟩ := hsurv y hy' hky1
                exact ⟨nx, by rw [hnx, hbneb y hy']⟩
            · intro hpme
              exact absurd hpme hpm
            · intro hpne
              obtain ⟨hnnr, hchain2⟩ := hcB
                (fun he => hpm (show prev = c.s.reg.meta from he))
              have hnnr' : out.1.s.reg.next_not_root = c.s.reg.next_not_root := hnnr
              rw [hfkb] at hchain2
              refine ⟨hnnr', ?_⟩
              simp only [List.filter_cons, hkp, Bool.false_eq_true, if_false]
              exact hchain2
            · rw [hev', hfdb, hdeb, sweep_object_events]
              simp only [List.filter_cons, hdp, if_true]
              conv_rhs => rw [deadEvents_cons]
              rw [List.append_assoc]
            · rw [hgcl, hfdb, sweep_object_gcl]
              by_cases hr : ring = RingKind.NonTrivialRing <;>
                simp [hr, List.filter_cons, hdp]
          · -- b2: anchored at an earlier survivor; the tail survives elsewhere
            rw [if_neg hlx] at h
            obtain ⟨⟨hmeta2, hpm2, hcur2, hlnr2, hcol⟩, ⟨hout2, hprevc, hmcell, hsurv⟩,
                ⟨hcA, hcB⟩, hev, hgcl⟩ :=
              ih n _ prev _ _ out h
                (by
                  show chainTo H2 c.s.reg.meta ((c.s.heap p).next) L'
                  exact chainTo_congr c.s.heap H2 c.s.reg.meta _ _ hrest
                    (fun y hy => hbneb y hy))
                ((List.nodup_cons.1 hnd).2)
                hprev'
                (fun hpmeta => absurd (show prev = c.s.reg.meta from hpmeta) hpm)
                (fun _ => by
                  show (H2 prev).next = (c.s.heap p).next
                  rw [hcellbprev])
                (show c.s.reg.last_not_root = L'.getLast?.getD prev from hlnrB hlx)
                (fun y hy => by
                  show (H2 y).cls = _ ∨ (H2 y).cls = _
                  rw [hbneb y hy]
                  exact hbody y (by simp [hy]))
            simp only [] at hout2 hprevc hsurv hev hgcl hcA hcB
            have hcur2' : out.1.s.reg.current_memory_used =
                c.s.reg.current_memory_used + sizesum H2 (L'.filter (keepB H2)) := hcur2
            have hmeta2' : out.1.s.reg.meta = c.s.reg.meta := hmeta2
            have hpm2' : out.1.s.reg.previous_memory_used = c.s.reg.previous_memory_used := hpm2
            have hlnr2' : out.1.s.reg.last_not_root =
                (L'.filter (keepB H2)).getLast?.getD prev := hlnr2
            have hcol' : out.1.collect = (sweep_object ring c p gcl).1.collect := hcol
            have hev' : out.1.events = (sweep_object ring c p gcl).1.events ++
                deadEvents H2 ring (L'.filter (deadB H2)) := hev
            refine ⟨⟨hmeta2', hpm2', ?_, ?_, ?_⟩, ⟨?_, ?_, ?_, ?_⟩, ⟨?_, ?_⟩, ?_, ?_⟩
            · rw [hcur2', hfkb, hssb]
              simp [List.filter_cons, hkp]
            · rw [hlnr2', hfkb]
              simp [List.filter_cons, hkp]
            · rw [hcol', sweep_object_collect]
            · intro y hyb hyp
              have hynb : y ∉ L' := fun hx => hyb (by simp [hx])
              have hynp : y ≠ p := fun he => hyb (by simp [he])
              rw [hout2 y hynb hyp, hcellb y hynp hyp]
            · obtain ⟨nx, hnx⟩ := hprevc
              refine ⟨nx, ?_⟩
              rw [hnx, hcellbprev]
            · intro hpme2
              exact absurd hpme2 hpm
            · intro y hy hky
              rcases List.mem_cons.1 hy with rfl | hy'
              · rw [keepB] at hky; simp [hcls] at hky
              · have hky1 : keepB H2 y = true := by
                  simp only [keepB] at hky ⊢
                  rw [hbneb y hy']
                  exact hky
                obtain ⟨nx, hnx⟩ := hsurv y hy' hky1
                exact ⟨nx, by rw [hnx, hbneb y hy']⟩
            · intro hpme
              exact absurd hpme hpm
            · intro hpne
              obtain ⟨hnnr, hchain2⟩ := hcB
                (fun he => hpm (show prev = c.s.reg.meta from he))
              have hnnr' : out.1.s.reg.next_not_root = c.s.reg.next_not_root := hnnr
              rw [hfkb] at hchain2
              refine ⟨hnnr', ?_⟩
              simp only [List.filter_cons, hkp, Bool.false_eq_true, if_false]
              exact hchain2
            · rw [hev', hfdb, hdeb, sweep_object_events]
              simp only [List.filter_cons, hdp, if_true]
              conv_rhs => rw [deadEvents_cons]
              rw [List.append_assoc]
            · rw [hgcl, hfdb, sweep_object_gcl]
              by_cases hr : ring = RingKind.NonTrivialRing <;>
                simp [hr, List.filter_cons, hdp]

theorem dealloc_mem_deadEvents_trivial (h : Heap) (ds : List Nat) (x : Nat)
    (hx : x ∈ ds) : Ev.dealloc x ∈ deadEvents h RingKind.TrivialRing ds := by
  simp only [deadEvents, List.mem_flatMap]
  exact ⟨x, hx, by simp⟩

theorem dealloc_mem_sweepPhases (c : SweepCtx) (gcl : List Nat) (x : Nat)
    (hx : x ∈ gcl) : Ev.dealloc x ∈ (sweepPhases c gcl).events := by
  unfold sweepPhases
  rw [foldl_phaseB_events]
  refine List.mem_append.2 (Or.inr ?_)
  simp only [List.mem_flatMap]
  exact ⟨x, hx, by simp⟩

theorem sweepPhases_events_prefix (c : SweepCtx) (gcl : List Nat) :
    ∃ e, (sweepPhases c gcl).events = c.events ++ e := by
  unfold sweepPhases
  rw [foldl_phaseB_events, foldl_phaseA_events, List.append_assoc]
  exact ⟨_, rfl⟩

/-- A two-object non-trivial region used by the sweep witness: iso `1`
(size 24, non-trivial, metadata at `0`) plus an unreferenced non-trivial
member `2`. -/
def sNT : RState :=
  allocObj (create heap0 1 0 { size := 24, trivial := false }) 2
    { size := 8, trivial := false }

/-- The result of a normal-mode sweep of the witness region. -/
def cNT : SweepCtx :=
  match sweep false 10 sNT 1 0 with
  | some c => c
  | none => { s := sNT, events := [], collect := [] }

/-! ### Claim theorems -/

/-- C1: after `merge_internal(o, other)`, the recipient's
`previous_memory_used` is `size_to_sizeclass(sizeclass_to_size(donor) +
sizeclass_to_size(donor))` — the donor's decoded size class doubled — and
the recipient's own prior `previous_memory_used` contributes nothing: the
result is the same for any value `pv` it might have held. -/
theorem merge_internal_doubles_donor_sizeclass (s : RState) (o : Nat) (other : Region)
    (pv : Nat) :
    (merge_internal s o other).reg.previous_memory_used =
      size_to_sizeclass (sizeclass_to_size other.previous_memory_used +
        sizeclass_to_size other.previous_memory_used) ∧
    (merge_internal { s with reg := { s.reg with previous_memory_used := pv } } o
        other).reg.previous_memory_used =
      (merge_internal s o other).reg.previous_memory_used :=
  ⟨rfl, rfl⟩

/-- C8: `append(hd, tl)` splices `[hd … tl]` right after the region
metadata of exactly one ring, chosen by triviality: when `hd`'s
triviality matches that of the current `metadata.next`, `tl.next` becomes
the old `metadata.next` and `metadata.next` becomes `hd`, with the
secondary-ring anchors untouched; otherwise `tl.next` becomes the old
`next_not_root`, `next_not_root` becomes `hd`, `last_not_root` becomes
`tl` exactly when the secondary ring was empty, and `metadata.next` is
untouched. -/
theorem append_spec (s : RState) (hd tl : Nat) (htl : tl ≠ s.reg.meta) :
    ((s.heap hd).trivial = (s.heap (get_next s)).trivial →
      ((append s hd tl).heap tl).next = get_next s ∧
      get_next (append s hd tl) = hd ∧
      (append s hd tl).reg.next_not_root = s.reg.next_not_root ∧
      (append s hd tl).reg.last_not_root = s.reg.last_not_root) ∧
    ((s.heap hd).trivial ≠ (s.heap (get_next s)).trivial →
      ((append s hd tl).heap tl).next = s.reg.next_not_root ∧
      (append s hd tl).reg.next_not_root = hd ∧
      (s.reg.last_not_root = s.reg.meta → (append s hd tl).reg.last_not_root = tl) ∧
      (s.reg.last_not_root ≠ s.reg.meta →
        (append s hd tl).reg.last_not_root = s.reg.last_not_root) ∧
      get_next (append s hd tl) = get_next s) := by
  constructor
  · intro hc
    simp only [append, get_next, init_next, set_next, set_next_of] at *
    rw [if_pos hc]
    simp [hupd, htl, Ne.symm htl]
  · intro hc
    simp only [append, get_next, init_next, set_next, set_next_of] at *
    rw [if_neg hc]
    by_cases hl : s.reg.last_not_root = s.reg.meta <;>
      simp [hl, hupd, htl, Ne.symm htl]

/-- C9: `create` builds a region whose primary ring is exactly `[o]`
(`o.next` is the fresh metadata, the metadata's `next` is `o`), whose
secondary ring is empty (`next_not_root = last_not_root = metadata`),
whose iso `o` carries the ISO tag and the region back-reference, and
whose `current_memory_used` is `desc->size`. -/
theorem create_spec (h : Heap) (oId metaId : Nat) (desc : Descriptor)
    (hne : oId ≠ metaId) :
    ((create h oId metaId desc).heap oId).next = metaId ∧
    ((create h oId metaId desc).heap oId).cls = RegionMD.ISO ∧
    ((create h oId metaId desc).heap metaId).next = oId ∧
    (create h oId metaId desc).reg.meta = metaId ∧
    (create h oId metaId desc).reg.next_not_root = metaId ∧
    (create h oId metaId desc).reg.last_not_root = metaId ∧
    (create h oId metaId desc).reg.current_memory_used = desc.size := by
  simp [create, init_iso, set_region, set_next_of, metaObj, hupd, hne, Ne.symm hne]

/-- C10: `release_internal` invokes `sweep` with a marked count of 0, so
the remembered set's `sweep_set(alloc, 0)` runs during region
destruction, before the metadata object itself is deallocated; and
`sweep_set` with no entry marked this cycle drops every entry of the
remembered set. -/
theorem release_internal_sweep_set_zero (fuel : Nat) (s : RState) (o : Nat)
    (c : SweepCtx) (hrel : release_internal fuel s o = some c) :
    (∃ e, c.events = e ++ [Ev.sweepSetEv 0, Ev.dealloc s.reg.meta]) ∧
    (∀ rset : List (Nat × Bool), (∀ x ∈ rset, x.2 = false) → rs_sweep_set rset = []) := by
  constructor
  · unfold release_internal at hrel
    split at hrel
    · exact absurd hrel (by simp)
    · next c' hsw =>
      cases hrel
      obtain ⟨e, he⟩ := sweep_events_tail true fuel s o 0 c' hsw
      have hm := sweep_meta true fuel s o 0 c' hsw
      refine ⟨e, ?_⟩
      show c'.events ++ [Ev.dealloc c'.s.reg.meta] = _
      rw [he, hm, List.append_assoc]
      rfl
  · intro rset hf
    unfold rs_sweep_set
    have : rset.filter (fun e => e.2) = [] := by
      rw [List.filter_eq_nil_iff]
      intro a ha
      simp [hf a ha]
    rw [this]
    rfl

/-- Witness for C8 at a concrete input. -/
theorem append_spec_witness :
    (2 : Nat) ≠ sW.reg.meta ∧ get_next (append sW 2 2) = 2 :=
  ⟨by decide, ((append_spec sW 2 2 (by decide)).1 (by decide)).2.1⟩

/-- Witness for C9 at a concrete input. -/
theorem create_spec_witness :
    (1 : Nat) ≠ 0 ∧
    ((create heap0 1 0 { size := 16, trivial := true }).heap 1).cls = RegionMD.ISO :=
  ⟨by decide, (create_spec heap0 1 0 { size := 16, trivial := true } (by decide)).2.1⟩

/-- The result of releasing the one-object witness region. -/
def cW : SweepCtx :=
  match release_internal 10 sW 1 with
  | some c => c
  | none => { s := sW, events := [], collect := [] }

/-- C6: for a region whose iso is `a` and a mutable member `b` distinct
from `a` and from the metadata, `swap_root(a, b); swap_root(b, a)`
restores `a` as the region's iso (ISO tag and region back-reference), and
when `a` and `b` have equal triviality it restores the whole region state
— every next pointer, every class tag, `next_not_root`, `last_not_root`
and the counters — exactly as before the first call. -/
theorem swap_root_twice_restores (s : RState) (a b : Nat)
    (hab : a ≠ b) (ham : a ≠ s.reg.meta) (hbm : b ≠ s.reg.meta)
    (hacls : (s.heap a).cls = RegionMD.ISO)
    (hanext : (s.heap a).next = s.reg.meta)
    (hbcls : (s.heap b).cls = RegionMD.UNMARKED) :
    ((swap_root (swap_root s a b) b a).heap a).cls = RegionMD.ISO ∧
    ((swap_root (swap_root s a b) b a).heap a).next = s.reg.meta ∧
    ((s.heap a).trivial = (s.heap b).trivial →
      swap_root (swap_root s a b) b a = s) := by
  simp only [swap_root]
  refine ⟨(swap_root_internal_root (swap_root_internal s a b) b a).1, ?_, ?_⟩
  · rw [(swap_root_internal_root (swap_root_internal s a b) b a).2]
    exact swap_root_internal_meta s a b
  · intro htriv
    rw [swap_root_internal_noswap s a b htriv hab ham hbm,
      swap_root_internal_noswap]
    · congr 1
      funext x
      by_cases hxa : x = a
      · subst hxa
        simp [hupd, hab, Ne.symm hab, ham, Ne.symm ham, hbm, Ne.symm hbm]
        ext <;> simp [hacls, hanext]
      · by_cases hxm : x = s.reg.meta
        · subst hxm
          simp [hupd, hab, Ne.symm hab, ham, Ne.symm ham, hbm, Ne.symm hbm]
        · by_cases hxb : x = b
          · subst hxb
            simp [hupd, hab, Ne.symm hab, ham, Ne.symm ham, hbm, Ne.symm hbm]
            ext <;> simp [hbcls]
          · simp [hupd, hxa, Ne.symm hxa, hxm, Ne.symm hxm, hxb, Ne.symm hxb]
    · simp [hupd, hab, Ne.symm hab, ham, Ne.symm ham, hbm, Ne.symm hbm, htriv]
    · exact Ne.symm hab
    · simpa using hbm
    · simpa using ham

/-- Witness for C6 at a concrete input: the two-object region `sNT`
(iso 1, member 2, matching triviality). -/
theorem swap_root_twice_restores_witness :
    ((1 : Nat) ≠ 2 ∧ (1 : Nat) ≠ sNT.reg.meta ∧ (2 : Nat) ≠ sNT.reg.meta ∧
      (sNT.heap 1).cls = RegionMD.ISO ∧ (sNT.heap 1).next = sNT.reg.meta ∧
      (sNT.heap 2).cls = RegionMD.UNMARKED) ∧
    ((sNT.heap 1).trivial = (sNT.heap 2).trivial →
      swap_root (swap_root sNT 1 2) 2 1 = sNT) :=
  ⟨⟨by decide, by decide, by decide, by decide, by decide, by decide⟩,
    (swap_root_twice_restores sNT 1 2 (by decide) (by decide) (by decide)
      (by decide) (by decide) (by decide)).2.2⟩

/-- Witness for C2 at a concrete input. -/
theorem sweep_two_phase_order_witness :
    sweep false 10 sNT 1 0 = some cNT ∧
    (∃ (ds : List Nat) (evT : List Ev),
      cNT.events =
        (ds.map Ev.finalise ++ ds.reverse.map Ev.findIso ++
          ds.reverse.flatMap (fun x => [Ev.destruct x, Ev.dealloc x])) ++
        evT ++ [Ev.sweepSetEv 0] ∧
      ∀ e ∈ evT, ∃ x, e = Ev.extErase x ∨ e = Ev.dealloc x) :=
  ⟨rfl, sweep_two_phase_order 10 sNT 1 0 cNT rfl⟩

/-- Witness for C10 at a concrete input. -/
theorem release_internal_sweep_set_zero_witness :
    release_internal 10 sW 1 = some cW ∧
    (∃ e, cW.events = e ++ [Ev.sweepSetEv 0, Ev.dealloc sW.reg.meta]) :=
  ⟨rfl, (release_internal_sweep_set_zero 10 sW 1 cW rfl).1⟩

/-- Postcondition of a completed normal-mode `sweep` when the iso is
non-trivial (so the non-trivial ring is primary): dead objects are
deallocated and dropped from both rings, survivors are unmarked, and
`current_memory_used` is rebuilt from the survivors and the iso. -/
theorem sweepNormalNTiso (fuel : Nat) (s : RState) (o marked : Nat)
    (body S : List Nat) (out : SweepCtx)
    (hot : (s.heap o).trivial = false)
    (hsw : sweep false fuel s o marked = some out)
    (hP : chainTo s.heap s.reg.meta (get_next s) (body ++ [o]))
    (hS : chainTo s.heap s.reg.meta s.reg.next_not_root S)
    (hnd : ((body ++ [o]) ++ S).Nodup)
    (hiso : (s.heap o).cls = RegionMD.ISO)
    (hbody : ∀ x ∈ body, (s.heap x).cls = RegionMD.MARKED ∨ (s.heap x).cls = RegionMD.UNMARKED)
    (hSc : ∀ x ∈ S, (s.heap x).cls = RegionMD.MARKED ∨ (s.heap x).cls = RegionMD.UNMARKED)
    (hlnr : s.reg.last_not_root = S.getLast?.getD s.reg.meta) :
    (∀ x ∈ body ++ S, (s.heap x).cls = RegionMD.UNMARKED →
       Ev.dealloc x ∈ out.events ∧
       x ∉ body.filter (keepB s.heap) ∧ x ∉ S.filter (keepB s.heap)) ∧
    (chainTo out.s.heap s.reg.meta (get_next out.s)
       (body.filter (keepB s.heap) ++ [o]) ∧
     chainTo out.s.heap s.reg.meta out.s.reg.next_not_root
       (S.filter (keepB s.heap)) ∧
     out.s.reg.last_not_root =
       (S.filter (keepB s.heap)).getLast?.getD s.reg.meta) ∧
    (∀ x ∈ body ++ S, (s.heap x).cls = RegionMD.MARKED →
       (out.s.heap x).cls = RegionMD.UNMARKED) ∧
    out.s.reg.current_memory_used =
      sizesum s.heap (body.filter (keepB s.heap)) + (s.heap o).size +
        sizesum s.heap (S.filter (keepB s.heap)) ∧
    ((∀ y, y ∉ body ++ S → y ≠ o → y ≠ s.reg.meta → out.s.heap y = s.heap y) ∧
     out.s.heap o = s.heap o ∧
     (∃ nx, out.s.heap s.reg.meta = { s.heap s.reg.meta with next := nx }) ∧
     (∀ y ∈ body ++ S, ∃ nx,
       out.s.heap y = { s.heap y with cls := RegionMD.UNMARKED, next := nx }) ∧
     (body.filter (deadB s.heap) = [] → S.filter (deadB s.heap) = [] →
       out.events = [Ev.sweepSetEv marked] ∧ out.collect = [])) := by
  have hdisj := (List.nodup_append.1 hnd).2.2
  unfold sweep at hsw
  have hprim : primaryRingOf s o = RingKind.NonTrivialRing := by
    simp [primaryRingOf, hot]
  rw [hprim] at hsw
  split at hsw
  · exact absurd hsw (by simp)
  · next c1 h1 =>
    split at hsw
    · exact absurd hsw (by simp)
    · next c2 h2 =>
      cases hsw
      unfold sweep_ring at h1
      split at h1
      · exact absurd h1 (by simp)
      · next cg1 hl1 =>
        rw [if_pos rfl] at h1
        injection h1 with h1
        subst h1
        rw [if_pos rfl] at hl1
        unfold sweep_ring at h2
        split at h2
        · exact absurd h2 (by simp)
        · next cg2 hl2 =>
          rw [if_neg (show ¬(RingKind.TrivialRing = RingKind.NonTrivialRing) by decide)] at h2
          rw [if_neg (show ¬(RingKind.TrivialRing = RingKind.NonTrivialRing) by decide)] at hl2
          injection h2 with h2
          subst h2
          obtain ⟨⟨hreg1, hcol1⟩, ⟨hout1, hiso1, hprevc1, hsurv1⟩, hchain1, hev1, hgcl1⟩ :=
            sweepWalk_primary RingKind.NonTrivialRing o body fuel (initCtx s)
              ((initCtx s).s.reg.meta) (get_next (initCtx s).s) [] cg1 hl1 hP
              (List.nodup_append.1 hnd).1
              (fun hm => chainTo_ne_meta s.heap s.reg.meta (get_next s) (body ++ [o]) hP _ hm rfl)
              rfl hiso hbody
          have hScells : ∀ y ∈ S, cg1.1.s.heap y = s.heap y := fun y hy =>
            hout1 y (fun hb => hdisj (List.mem_append.2 (Or.inl hb)) hy)
              (fun he => hdisj (List.mem_append.2 (Or.inr (by simp [he]))) hy)
              (chainTo_ne_meta s.heap s.reg.meta s.reg.next_not_root S hS y hy)
          have hfK : S.filter (keepB cg1.1.s.heap) = S.filter (keepB s.heap) :=
            List.filter_congr (fun y hy => by
              simp only [keepB]
              rw [hScells y hy])
          obtain ⟨⟨hmeta2, hprev2, hcur2, hlnr2, hcol2⟩, ⟨hout2, hprevc2, hmcell2, hsurv2⟩,
              ⟨hcA2, hcB2⟩, hev2, hgcl2⟩ :=
            sweepWalk_secondary RingKind.TrivialRing RingKind.NonTrivialRing (by decide) S fuel
              (sweepPhases cg1.1 cg1.2) ((sweepPhases cg1.1 cg1.2).s.reg.meta)
              ((sweepPhases cg1.1 cg1.2).s.reg.next_not_root) [] cg2 hl2
              (by rw [sweepPhases_s, hreg1]
                  exact chainTo_congr s.heap cg1.1.s.heap s.reg.meta s.reg.next_not_root S hS
                    hScells)
              (List.nodup_append.1 hnd).2.1
              (by intro hm
                  rw [sweepPhases_s, hreg1] at hm
                  exact chainTo_ne_meta s.heap s.reg.meta s.reg.next_not_root S hS _ hm rfl)
              (fun _ => rfl)
              (fun hne => absurd rfl hne)
              (by rw [sweepPhases_s, hreg1]
                  exact hlnr)
              (by intro x hx
                  rw [sweepPhases_s, hScells x hx]
                  exact hSc x hx)
          rw [sweepPhases_s] at hmeta2 hcur2 hlnr2 hout2 hsurv2 hev2
          rw [hreg1] at hmeta2
          have hmeta2' : cg2.1.s.reg.meta = s.reg.meta := hmeta2
          have hmc := hmcell2 rfl
          rw [sweepPhases_s, hreg1] at hmc
          have hmc' : cg2.1.s.heap s.reg.meta = cg1.1.s.heap s.reg.meta := hmc
          have hca := hcA2 rfl
          rw [sweepPhases_s, hfK, hreg1] at hca
          have hca' : chainTo cg2.1.s.heap s.reg.meta cg2.1.s.reg.next_not_root
              (S.filter (keepB s.heap)) := hca
          rw [hfK] at hcur2 hlnr2
          have hsz : sizesum cg1.1.s.heap (S.filter (keepB s.heap)) =
              sizesum s.heap (S.filter (keepB s.heap)) :=
            sizesum_congr s.heap cg1.1.s.heap _
              (fun y hy => hScells y (List.mem_of_mem_filter hy))
          rw [hsz, hreg1] at hcur2
          have hcur2' : cg2.1.s.reg.current_memory_used =
              (0 + sizesum s.heap (body.filter (keepB s.heap)) + (s.heap o).size) +
                sizesum s.heap (S.filter (keepB s.heap)) := hcur2
          rw [hreg1] at hlnr2
          have hlnr2' : cg2.1.s.reg.last_not_root =
              (S.filter (keepB s.heap)).getLast?.getD s.reg.meta := hlnr2
          rw [hreg1] at hout2
          have hout2' : ∀ y, y ∉ S → y ≠ s.reg.meta → cg2.1.s.heap y = cg1.1.s.heap y := hout2
          have hchain1' : chainTo cg1.1.s.heap s.reg.meta ((cg1.1.s.heap s.reg.meta).next)
              (body.filter (keepB s.heap) ++ [o]) := hchain1
          have hgcl1' : cg1.2 = (body.filter (deadB s.heap)).reverse ++ [] := hgcl1
          refine ⟨?_, ⟨?_, ?_, ?_⟩, ?_, ?_, ?_, ?_, ?_, ?_, ?_⟩
          · intro x hx hxu
            refine ⟨?_, ?_, ?_⟩
            · show Ev.dealloc x ∈ cg2.1.events ++ [Ev.sweepSetEv marked]
              refine List.mem_append.2 (Or.inl ?_)
              rw [hev2]
              rcases List.mem_append.1 hx with hxb | hxs
              · refine List.mem_append.2 (Or.inl ?_)
                have hxg : x ∈ cg1.2 := by
                  rw [hgcl1', List.append_nil, List.mem_reverse]
                  exact List.mem_filter.2 ⟨hxb, by simp [deadB, hxu]⟩
                exact dealloc_mem_sweepPhases cg1.1 cg1.2 x hxg
              · refine List.mem_append.2 (Or.inr ?_)
                have hxf : x ∈ S.filter (deadB cg1.1.s.heap) := List.mem_filter.2
                  ⟨hxs, by
                    simp only [deadB]
                    rw [hScells x hxs]
                    simp [hxu]⟩
                exact dealloc_mem_deadEvents_trivial cg1.1.s.heap _ x hxf
            · rcases List.mem_append.1 hx with hxb | hxs
              · intro hmem
                have hk := (List.mem_filter.1 hmem).2
                simp [keepB, hxu] at hk
              · intro hmem
                exact hdisj (List.mem_append.2 (Or.inl (List.mem_of_mem_filter hmem))) hxs
            · rcases List.mem_append.1 hx with hxb | hxs
              · intro hmem
                exact hdisj (List.mem_append.2 (Or.inl hxb)) (List.mem_of_mem_filter hmem)
              · intro hmem
                have hk := (List.mem_filter.1 hmem).2
                simp [keepB, hxu] at hk
          · show chainTo cg2.1.s.heap s.reg.meta ((cg2.1.s.heap cg2.1.s.reg.meta).next)
              (body.filter (keepB s.heap) ++ [o])
            rw [hmeta2', hmc']
            refine chainTo_congr cg1.1.s.heap cg2.1.s.heap s.reg.meta
              ((cg1.1.s.heap s.reg.meta).next) (body.filter (keepB s.heap) ++ [o]) hchain1' ?_
            intro y hy
            rcases List.mem_append.1 hy with hyk | hyo
            · have hyb := List.mem_of_mem_filter hyk
              exact hout2' y (fun hyS => hdisj (List.mem_append.2 (Or.inl hyb)) hyS)
                (chainTo_ne_meta s.heap s.reg.meta (get_next s) (body ++ [o]) hP y
                  (List.mem_append.2 (Or.inl hyb)))
            · have hyo' : y = o := by simpa using hyo
              rw [hyo']
              exact hout2' o (fun hyS => hdisj (List.mem_append.2 (Or.inr (by simp))) hyS)
                (chainTo_ne_meta s.heap s.reg.meta (get_next s) (body ++ [o]) hP o
                  (List.mem_append.2 (Or.inr (by simp))))
          · exact hca'
          · exact hlnr2'
          · intro x hx hxm
            rcases List.mem_append.1 hx with hxb | hxs
            · have hk : keepB (initCtx s).s.heap x = true := by
                show keepB s.heap x = true
                simp [keepB, hxm]
              obtain ⟨nx, hcell⟩ := hsurv1 x hxb hk
              have hx2 : cg2.1.s.heap x = cg1.1.s.heap x :=
                hout2' x (fun hxS => hdisj (List.mem_append.2 (Or.inl hxb)) hxS)
                  (chainTo_ne_meta s.heap s.reg.meta (get_next s) (body ++ [o]) hP x
                    (List.mem_append.2 (Or.inl hxb)))
              show (cg2.1.s.heap x).cls = RegionMD.UNMARKED
              rw [hx2, hcell]
            · have hk : keepB cg1.1.s.heap x = true := by
                simp only [keepB]
                rw [hScells x hxs]
                simp [hxm]
              obtain ⟨nx, hcell⟩ := hsurv2 x hxs hk
              show (cg2.1.s.heap x).cls = RegionMD.UNMARKED
              rw [hcell]
          · show cg2.1.s.reg.current_memory_used = _
            rw [hcur2', Nat.zero_add]
          · intro y hyns hyo hym
            have hynb : y ∉ body := fun hb => hyns (List.mem_append.2 (Or.inl hb))
            have hynS : y ∉ S := fun hb => hyns (List.mem_append.2 (Or.inr hb))
            show cg2.1.s.heap y = s.heap y
            rw [hout2' y hynS hym]
            exact hout1 y hynb hyo hym
          · show cg2.1.s.heap o = s.heap o
            have hoS : o ∉ S := fun hb => hdisj (List.mem_append.2 (Or.inr (by simp))) hb
            have hom : o ≠ s.reg.meta :=
              chainTo_ne_meta s.heap s.reg.meta (get_next s) (body ++ [o]) hP o
                (List.mem_append.2 (Or.inr (by simp)))
            rw [hout2' o hoS hom]
            exact hiso1
          · obtain ⟨nx, hnx⟩ := hprevc1
            refine ⟨nx, ?_⟩
            show cg2.1.s.heap s.reg.meta = { s.heap s.reg.meta with next := nx }
            rw [hmc']
            exact hnx
          · intro y hy
            rcases List.mem_append.1 hy with hyb | hyS
            · have hym : y ≠ s.reg.meta :=
                chainTo_ne_meta s.heap s.reg.meta (get_next s) (body ++ [o]) hP y
                  (List.mem_append.2 (Or.inl hyb))
              have hyS' : y ∉ S := fun hb => hdisj (List.mem_append.2 (Or.inl hyb)) hb
              by_cases hk : keepB s.heap y = true
              · obtain ⟨nx, hc⟩ := hsurv1 y hyb hk
                refine ⟨nx, ?_⟩
                show cg2.1.s.heap y = { s.heap y with cls := RegionMD.UNMARKED, next := nx }
                rw [hout2' y hyS' hym]
                exact hc
              · have hcls : (s.heap y).cls = RegionMD.UNMARKED := by
                  by_contra hq
                  exact hk (by simp [keepB, hq])
                obtain ⟨nx, cl, hc, hor⟩ :=
                  sweepRingLoop_cellEvolution RingKind.NonTrivialRing RingKind.NonTrivialRing
                    false fuel (initCtx s) ((initCtx s).s.reg.meta)
                    (get_next (initCtx s).s) [] cg1 hl1 y
                have hcl : cl = RegionMD.UNMARKED := by
                  rcases hor with hcc | hcc
                  · rw [hcc]; exact hcls
                  · exact hcc
                refine ⟨nx, ?_⟩
                show cg2.1.s.heap y = { s.heap y with cls := RegionMD.UNMARKED, next := nx }
                rw [hout2' y hyS' hym, hc, hcl]
                rfl
            · by_cases hk : keepB s.heap y = true
              · have hk2 : keepB cg1.1.s.heap y = true := by
                  simp only [keepB]
                  rw [hScells y hyS]
                  exact hk
                obtain ⟨nx, hc⟩ := hsurv2 y hyS hk2
                refine ⟨nx, ?_⟩
                show cg2.1.s.heap y = { s.heap y with cls := RegionMD.UNMARKED, next := nx }
                rw [hc, hScells y hyS]
              · have hcls : (s.heap y).cls = RegionMD.UNMARKED := by
                  by_contra hq
                  exact hk (by simp [keepB, hq])
                obtain ⟨nx, cl, hc, hor⟩ :=
                  sweepRingLoop_cellEvolution RingKind.TrivialRing RingKind.NonTrivialRing
                    false fuel (sweepPhases cg1.1 cg1.2)
                    ((sweepPhases cg1.1 cg1.2).s.reg.meta)
                    ((sweepPhases cg1.1 cg1.2).s.reg.next_not_root) [] cg2 hl2 y
                rw [sweepPhases_s] at hc hor
                rw [hScells y hyS] at hc hor
                have hcl : cl = RegionMD.UNMARKED := by
                  rcases hor with hcc | hcc
                  · rw [hcc]; exact hcls
                  · exact hcc
                refine ⟨nx, ?_⟩
                show cg2.1.s.heap y = { s.heap y with cls := RegionMD.UNMARKED, next := nx }
                rw [hc, hcl]
          · intro hdb hds
            have hgz : cg1.2 = [] := by
              rw [hgcl1', hdb]
              rfl
            have hdb' : body.filter (deadB (initCtx s).s.heap) = [] := hdb
            rw [hdb'] at hev1
            have hev1' : cg1.1.events = [] := by
              rw [hev1]
              simp [initCtx, deadEvents]
            have hfD : S.filter (deadB cg1.1.s.heap) = S.filter (deadB s.heap) :=
              List.filter_congr (fun y hy => by
                simp only [deadB]
                rw [hScells y hy])
            rw [hfD, hds] at hev2
            have hphev : (sweepPhases cg1.1 cg1.2).events = cg1.1.events := by
              rw [hgz]
              simp [sweepPhases]
            constructor
            · show cg2.1.events ++ [Ev.sweepSetEv marked] = [Ev.sweepSetEv marked]
              rw [hev2, hphev, hev1']
              simp [deadEvents]
            · show cg2.1.collect = []
              rw [hcol2, hgz]
              show cg1.1.collect = []
              rw [hcol1]
              rfl

/-- Postcondition of a completed normal-mode `sweep` when the iso is
trivial (so the trivial ring is primary and is swept second): the same
shape as in the non-trivial case. -/
theorem sweepNormalTiso (fuel : Nat) (s : RState) (o marked : Nat)
    (body S : List Nat) (out : SweepCtx)
    (hot : (s.heap o).trivial = true)
    (hsw : sweep false fuel s o marked = some out)
    (hP : chainTo s.heap s.reg.meta (get_next s) (body ++ [o]))
    (hS : chainTo s.heap s.reg.meta s.reg.next_not_root S)
    (hnd : ((body ++ [o]) ++ S).Nodup)
    (hiso : (s.heap o).cls = RegionMD.ISO)
    (hbody : ∀ x ∈ body, (s.heap x).cls = RegionMD.MARKED ∨ (s.heap x).cls = RegionMD.UNMARKED)
    (hSc : ∀ x ∈ S, (s.heap x).cls = RegionMD.MARKED ∨ (s.heap x).cls = RegionMD.UNMARKED)
    (hlnr : s.reg.last_not_root = S.getLast?.getD s.reg.meta) :
    (∀ x ∈ body ++ S, (s.heap x).cls = RegionMD.UNMARKED →
       Ev.dealloc x ∈ out.events ∧
       x ∉ body.filter (keepB s.heap) ∧ x ∉ S.filter (keepB s.heap)) ∧
    (chainTo out.s.heap s.reg.meta (get_next out.s)
       (body.filter (keepB s.heap) ++ [o]) ∧
     chainTo out.s.heap s.reg.meta out.s.reg.next_not_root
       (S.filter (keepB s.heap)) ∧
     out.s.reg.last_not_root =
       (S.filter (keepB s.heap)).getLast?.getD s.reg.meta) ∧
    (∀ x ∈ body ++ S, (s.heap x).cls = RegionMD.MARKED →
       (out.s.heap x).cls = RegionMD.UNMARKED) ∧
    out.s.reg.current_memory_used =
      sizesum s.heap (body.filter (keepB s.heap)) + (s.heap o).size +
        sizesum s.heap (S.filter (keepB s.heap)) ∧
    ((∀ y, y ∉ body ++ S → y ≠ o → y ≠ s.reg.meta → out.s.heap y = s.heap y) ∧
     out.s.heap o = s.heap o ∧
     (∃ nx, out.s.heap s.reg.meta = { s.heap s.reg.meta with next := nx }) ∧
     (∀ y ∈ body ++ S, ∃ nx,
       out.s.heap y = { s.heap y with cls := RegionMD.UNMARKED, next := nx }) ∧
     (body.filter (deadB s.heap) = [] → S.filter (deadB s.heap) = [] →
       out.events = [Ev.sweepSetEv marked] ∧ out.collect = [])) := by
  have hdisj := (List.nodup_append.1 hnd).2.2
  unfold sweep at hsw
  have hprim : primaryRingOf s o = RingKind.TrivialRing := by
    simp [primaryRingOf, hot]
  rw [hprim] at hsw
  split at hsw
  · exact absurd hsw (by simp)
  · next c1 h1 =>
    split at hsw
    · exact absurd hsw (by simp)
    · next c2 h2 =>
      cases hsw
      unfold sweep_ring at h1
      split at h1
      · exact absurd h1 (by simp)
      · next cg1 hl1 =>
        rw [if_pos rfl] at h1
        injection h1 with h1
        subst h1
        rw [if_neg (show ¬(RingKind.NonTrivialRing = RingKind.TrivialRing) by decide)] at hl1
        unfold sweep_ring at h2
        split at h2
        · exact absurd h2 (by simp)
        · next cg2 hl2 =>
          rw [if_neg (show ¬(RingKind.TrivialRing = RingKind.NonTrivialRing) by decide)] at h2
          rw [if_pos rfl] at hl2
          injection h2 with h2
          subst h2
          obtain ⟨⟨hmeta1, hprev1, hcur1, hlnr1, hcol1⟩, ⟨hout1, hprevc1, hmcell1, hsurv1⟩,
              ⟨hcA1, hcB1⟩, hev1, hgcl1⟩ :=
            sweepWalk_secondary RingKind.NonTrivialRing RingKind.TrivialRing (by decide) S fuel
              (initCtx s) ((initCtx s).s.reg.meta) ((initCtx s).s.reg.next_not_root) [] cg1 hl1
              hS
              (List.nodup_append.1 hnd).2.1
              (fun hm => chainTo_ne_meta s.heap s.reg.meta s.reg.next_not_root S hS _ hm rfl)
              (fun _ => rfl)
              (fun hne => absurd rfl hne)
              hlnr hSc
          have hmeta1' : cg1.1.s.reg.meta = s.reg.meta := hmeta1
          have hcur1' : cg1.1.s.reg.current_memory_used =
              0 + sizesum s.heap (S.filter (keepB s.heap)) := hcur1
          have hlnr1' : cg1.1.s.reg.last_not_root =
              (S.filter (keepB s.heap)).getLast?.getD s.reg.meta := hlnr1
          have hcA1' : chainTo cg1.1.s.heap s.reg.meta cg1.1.s.reg.next_not_root
              (S.filter (keepB s.heap)) := hcA1 rfl
          have hgcl1' : cg1.2 = (S.filter (deadB s.heap)).reverse ++ [] := hgcl1
          have hPcells : ∀ y ∈ body ++ [o], cg1.1.s.heap y = s.heap y := fun y hy =>
            hout1 y (fun hyS => hdisj hy hyS)
              (chainTo_ne_meta s.heap s.reg.meta (get_next s) (body ++ [o]) hP y hy)
          obtain ⟨⟨hreg2, hcol2⟩, ⟨hout2, hiso2, hprevc2, hsurv2⟩, hchain2, hev2, hgcl2⟩ :=
            sweepWalk_primary RingKind.TrivialRing o body fuel
              (sweepPhases cg1.1 cg1.2) ((sweepPhases cg1.1 cg1.2).s.reg.meta)
              (get_next (sweepPhases cg1.1 cg1.2).s) [] cg2 hl2
              (by rw [sweepPhases_s]
                  show chainTo cg1.1.s.heap cg1.1.s.reg.meta
                    ((cg1.1.s.heap cg1.1.s.reg.meta).next) (body ++ [o])
                  rw [hmeta1']
                  have hmcell1' : cg1.1.s.heap s.reg.meta = s.heap s.reg.meta := hmcell1 rfl
                  rw [hmcell1']
                  exact chainTo_congr s.heap cg1.1.s.heap s.reg.meta (get_next s) (body ++ [o])
                    hP hPcells)
              (List.nodup_append.1 hnd).1
              (by intro hm
                  rw [sweepPhases_s, hmeta1'] at hm
                  exact chainTo_ne_meta s.heap s.reg.meta (get_next s) (body ++ [o]) hP _ hm rfl)
              rfl
              (by rw [sweepPhases_s, hPcells o (List.mem_append.2 (Or.inr (by simp)))]
                  exact hiso)
              (by intro x hx
                  rw [sweepPhases_s, hPcells x (List.mem_append.2 (Or.inl hx))]
                  exact hbody x hx)
          rw [sweepPhases_s] at hreg2 hout2 hsurv2 hchain2 hev2
          rw [hmeta1'] at hout2 hchain2
          have hfKb : body.filter (keepB cg1.1.s.heap) = body.filter (keepB s.heap) :=
            List.filter_congr (fun y hy => by
              simp only [keepB]
              rw [hPcells y (List.mem_append.2 (Or.inl hy))])
          rw [hfKb] at hchain2
          refine ⟨?_, ⟨?_, ?_, ?_⟩, ?_, ?_, ?_, ?_, ?_, ?_, ?_⟩
          · intro x hx hxu
            refine ⟨?_, ?_, ?_⟩
            · show Ev.dealloc x ∈ cg2.1.events ++ [Ev.sweepSetEv marked]
              refine List.mem_append.2 (Or.inl ?_)
              rw [hev2]
              rcases List.mem_append.1 hx with hxb | hxs
              · refine List.mem_append.2 (Or.inr ?_)
                have hxf : x ∈ body.filter (deadB cg1.1.s.heap) := List.mem_filter.2
                  ⟨hxb, by
                    simp only [deadB]
                    rw [hPcells x (List.mem_append.2 (Or.inl hxb))]
                    simp [hxu]⟩
                exact dealloc_mem_deadEvents_trivial cg1.1.s.heap _ x hxf
              · refine List.mem_append.2 (Or.inl ?_)
                have hxg : x ∈ cg1.2 := by
                  rw [hgcl1', List.append_nil, List.mem_reverse]
                  exact List.mem_filter.2 ⟨hxs, by simp [deadB, hxu]⟩
                exact dealloc_mem_sweepPhases cg1.1 cg1.2 x hxg
            · rcases List.mem_append.1 hx with hxb | hxs
              · intro hmem
                have hk := (List.mem_filter.1 hmem).2
                simp [keepB, hxu] at hk
              · intro hmem
                exact hdisj (List.mem_append.2 (Or.inl (List.mem_of_mem_filter hmem))) hxs
            · rcases List.mem_append.1 hx with hxb | hxs
              · intro hmem
                exact hdisj (List.mem_append.2 (Or.inl hxb)) (List.mem_of_mem_filter hmem)
              · intro hmem
                have hk := (List.mem_filter.1 hmem).2
                simp [keepB, hxu] at hk
          · show chainTo cg2.1.s.heap s.reg.meta ((cg2.1.s.heap cg2.1.s.reg.meta).next)
              (body.filter (keepB s.heap) ++ [o])
            have hm2' : cg2.1.s.reg.meta = s.reg.meta := by
              rw [hreg2]
              exact hmeta1'
            rw [hm2']
            exact hchain2
          · show chainTo cg2.1.s.heap s.reg.meta cg2.1.s.reg.next_not_root
              (S.filter (keepB s.heap))
            have hnnr2 : cg2.1.s.reg.next_not_root = cg1.1.s.reg.next_not_root := by
              rw [hreg2]
            rw [hnnr2]
            refine chainTo_congr cg1.1.s.heap cg2.1.s.heap s.reg.meta
              cg1.1.s.reg.next_not_root (S.filter (keepB s.heap)) hcA1' ?_
            intro y hy
            have hyS := List.mem_of_mem_filter hy
            exact hout2 y (fun hyb => hdisj (List.mem_append.2 (Or.inl hyb)) hyS)
              (fun hyo => hdisj (List.mem_append.2 (Or.inr (by simp [hyo]))) hyS)
              (chainTo_ne_meta s.heap s.reg.meta s.reg.next_not_root S hS y hyS)
          · show cg2.1.s.reg.last_not_root = (S.filter (keepB s.heap)).getLast?.getD s.reg.meta
            have hl2' : cg2.1.s.reg.last_not_root = cg1.1.s.reg.last_not_root := by
              rw [hreg2]
            rw [hl2', hlnr1']
          · intro x hx hxm
            rcases List.mem_append.1 hx with hxb | hxs
            · have hk : keepB cg1.1.s.heap x = true := by
                simp only [keepB]
                rw [hPcells x (List.mem_append.2 (Or.inl hxb))]
                simp [hxm]
              obtain ⟨nx, hcell⟩ := hsurv2 x hxb hk
              show (cg2.1.s.heap x).cls = RegionMD.UNMARKED
              rw [hcell]
            · have hk : keepB (initCtx s).s.heap x = true := by
                show keepB s.heap x = true
                simp [keepB, hxm]
              obtain ⟨nx, hcell⟩ := hsurv1 x hxs hk
              have hx2 : cg2.1.s.heap x = cg1.1.s.heap x :=
                hout2 x (fun hxb => hdisj (List.mem_append.2 (Or.inl hxb)) hxs)
                  (fun hxo => hdisj (List.mem_append.2 (Or.inr (by simp [hxo]))) hxs)
                  (chainTo_ne_meta s.heap s.reg.meta s.reg.next_not_root S hS x hxs)
              show (cg2.1.s.heap x).cls = RegionMD.UNMARKED
              rw [hx2, hcell]
          · show cg2.1.s.reg.current_memory_used = _
            have hc2cur : cg2.1.s.reg.current_memory_used =
                cg1.1.s.reg.current_memory_used +
                  sizesum cg1.1.s.heap (body.filter (keepB cg1.1.s.heap)) +
                  (cg1.1.s.heap o).size := by
              rw [hreg2]
            rw [hfKb] at hc2cur
            have hszb : sizesum cg1.1.s.heap (body.filter (keepB s.heap)) =
                sizesum s.heap (body.filter (keepB s.heap)) :=
              sizesum_congr s.heap cg1.1.s.heap _
                (fun y hy => hPcells y (List.mem_append.2 (Or.inl (List.mem_of_mem_filter hy))))
            rw [hszb, hcur1', hPcells o (List.mem_append.2 (Or.inr (by simp)))] at hc2cur
            rw [hc2cur]
            ring
          · intro y hyns hyo hym
            have hynb : y ∉ body := fun hb => hyns (List.mem_append.2 (Or.inl hb))
            have hynS : y ∉ S := fun hb => hyns (List.mem_append.2 (Or.inr hb))
            show cg2.1.s.heap y = s.heap y
            rw [hout2 y hynb hyo hym]
            exact hout1 y hynS hym
          · show cg2.1.s.heap o = s.heap o
            rw [sweepPhases_s] at hiso2
            rw [hiso2]
            exact hPcells o (List.mem_append.2 (Or.inr (by simp)))
          · rw [sweepPhases_s, hmeta1'] at hprevc2
            obtain ⟨nx, hnx⟩ := hprevc2
            have hmg : cg1.1.s.heap s.reg.meta = s.heap s.reg.meta := hmcell1 rfl
            refine ⟨nx, ?_⟩
            show cg2.1.s.heap s.reg.meta = { s.heap s.reg.meta with next := nx }
            rw [hnx, hmg]
          · intro y hy
            rcases List.mem_append.1 hy with hyb | hyS
            · by_cases hk : keepB s.heap y = true
              · have hk2 : keepB cg1.1.s.heap y = true := by
                  simp only [keepB]
                  rw [hPcells y (List.mem_append.2 (Or.inl hyb))]
                  exact hk
                obtain ⟨nx, hc⟩ := hsurv2 y hyb hk2
                refine ⟨nx, ?_⟩
                show cg2.1.s.heap y = { s.heap y with cls := RegionMD.UNMARKED, next := nx }
                rw [hc, hPcells y (List.mem_append.2 (Or.inl hyb))]
              · have hcls : (s.heap y).cls = RegionMD.UNMARKED := by
                  by_contra hq
                  exact hk (by simp [keepB, hq])
                obtain ⟨nx, cl, hc, hor⟩ :=
                  sweepRingLoop_cellEvolution RingKind.TrivialRing RingKind.TrivialRing
                    false fuel (sweepPhases cg1.1 cg1.2)
                    ((sweepPhases cg1.1 cg1.2).s.reg.meta)
                    (get_next (sweepPhases cg1.1 cg1.2).s) [] cg2 hl2 y
                rw [sweepPhases_s] at hc hor
                rw [hPcells y (List.mem_append.2 (Or.inl hyb))] at hc hor
                have hcl : cl = RegionMD.UNMARKED := by
                  rcases hor with hcc | hcc
                  · rw [hcc]; exact hcls
                  · exact hcc
                refine ⟨nx, ?_⟩
                show cg2.1.s.heap y = { s.heap y with cls := RegionMD.UNMARKED, next := nx }
                rw [hc, hcl]
            · have hym : y ≠ s.reg.meta :=
                chainTo_ne_meta s.heap s.reg.meta s.reg.next_not_root S hS y hyS
              have hynb : y ∉ body := fun hb =>
                hdisj (List.mem_append.2 (Or.inl hb)) hyS
              have hyno : y ≠ o := fun he =>
                hdisj (List.mem_append.2 (Or.inr (by simp [he]))) hyS
              by_cases hk : keepB s.heap y = true
              · obtain ⟨nx, hc⟩ := hsurv1 y hyS hk
                refine ⟨nx, ?_⟩
                show cg2.1.s.heap y = { s.heap y with cls := RegionMD.UNMARKED, next := nx }
                rw [hout2 y hynb hyno hym]
                exact hc
              · have hcls : (s.heap y).cls = RegionMD.UNMARKED := by
                  by_contra hq
                  exact hk (by simp [keepB, hq])
                obtain ⟨nx, cl, hc, hor⟩ :=
                  sweepRingLoop_cellEvolution RingKind.NonTrivialRing RingKind.TrivialRing
                    false fuel (initCtx s) ((initCtx s).s.reg.meta)
                    ((initCtx s).s.reg.next_not_root) [] cg1 hl1 y
                have hcl : cl = RegionMD.UNMARKED := by
                  rcases hor with hcc | hcc
                  · rw [hcc]; exact hcls
                  · exact hcc
                refine ⟨nx, ?_⟩
                show cg2.1.s.heap y = { s.heap y with cls := RegionMD.UNMARKED, next := nx }
                rw [hout2 y hynb hyno hym, hc, hcl]
                rfl
          · intro hdb hds
            have hgz : cg1.2 = [] := by
              rw [hgcl1', hds]
              rfl
            have hds' : S.filter (deadB (initCtx s).s.heap) = [] := hds
            rw [hds'] at hev1
            have hev1' : cg1.1.events = [] := by
              rw [hev1]
              simp [initCtx, deadEvents]
            have hfDb : body.filter (deadB cg1.1.s.heap) = body.filter (deadB s.heap) :=
              List.filter_congr (fun y hy => by
                simp only [deadB]
                rw [hPcells y (List.mem_append.2 (Or.inl hy))])
            rw [hfDb, hdb] at hev2
            have hphev : (sweepPhases cg1.1 cg1.2).events = cg1.1.events := by
              rw [hgz]
              simp [sweepPhases]
            constructor
            · show cg2.1.events ++ [Ev.sweepSetEv marked] = [Ev.sweepSetEv marked]
              rw [hev2, hphev, hev1']
              simp [deadEvents]
            · show cg2.1.collect = []
              rw [hcol2, hgz]
              show cg1.1.collect = []
              rw [hcol1]
              rfl

/-- C3: after a completed normal-mode (not sweep-all) `sweep` over a
region whose primary ring holds `body` and terminates at the iso `o` and
whose secondary ring holds `S`: every member that began UNMARKED has a
`dealloc` event in the trace and is unlinked from both rings (the rings
retain exactly the `keepB` survivors, in order, with their anchors
updated), every member that began MARKED is UNMARKED again, and
`current_memory_used` is exactly the sum of the surviving members'
descriptor sizes plus the iso's size. -/
theorem sweep_post_normal (fuel : Nat) (s : RState) (o marked : Nat)
    (body S : List Nat) (out : SweepCtx)
    (hsw : sweep false fuel s o marked = some out)
    (hP : chainTo s.heap s.reg.meta (get_next s) (body ++ [o]))
    (hS : chainTo s.heap s.reg.meta s.reg.next_not_root S)
    (hnd : ((body ++ [o]) ++ S).Nodup)
    (hiso : (s.heap o).cls = RegionMD.ISO)
    (hbody : ∀ x ∈ body, (s.heap x).cls = RegionMD.MARKED ∨ (s.heap x).cls = RegionMD.UNMARKED)
    (hSc : ∀ x ∈ S, (s.heap x).cls = RegionMD.MARKED ∨ (s.heap x).cls = RegionMD.UNMARKED)
    (hlnr : s.reg.last_not_root = S.getLast?.getD s.reg.meta) :
    (∀ x ∈ body ++ S, (s.heap x).cls = RegionMD.UNMARKED →
       Ev.dealloc x ∈ out.events ∧
       x ∉ body.filter (keepB s.heap) ∧ x ∉ S.filter (keepB s.heap)) ∧
    (chainTo out.s.heap s.reg.meta (get_next out.s)
       (body.filter (keepB s.heap) ++ [o]) ∧
     chainTo out.s.heap s.reg.meta out.s.reg.next_not_root
       (S.filter (keepB s.heap)) ∧
     out.s.reg.last_not_root =
       (S.filter (keepB s.heap)).getLast?.getD s.reg.meta) ∧
    (∀ x ∈ body ++ S, (s.heap x).cls = RegionMD.MARKED →
       (out.s.heap x).cls = RegionMD.UNMARKED) ∧
    out.s.reg.current_memory_used =
      sizesum s.heap (body.filter (keepB s.heap)) + (s.heap o).size +
        sizesum s.heap (S.filter (keepB s.heap)) := by
  cases hot : (s.heap o).trivial with
  | false =>
    obtain ⟨h1, h2, h3, h4, _⟩ :=
      sweepNormalNTiso fuel s o marked body S out hot hsw hP hS hnd hiso hbody hSc hlnr
    exact ⟨h1, h2, h3, h4⟩
  | true =>
    obtain ⟨h1, h2, h3, h4, _⟩ :=
      sweepNormalTiso fuel s o marked body S out hot hsw hP hS hnd hiso hbody hSc hlnr
    exact ⟨h1, h2, h3, h4⟩

/-- Witness for C3 at a concrete input: the two-object non-trivial region
whose member `2` is unmarked when the sweep starts. -/
theorem sweep_post_normal_witness :
    sweep false 10 sNT 1 0 = some cNT ∧
    ((∀ x ∈ ([2] : List Nat) ++ ([] : List Nat), (sNT.heap x).cls = RegionMD.UNMARKED →
        Ev.dealloc x ∈ cNT.events ∧
        x ∉ ([2] : List Nat).filter (keepB sNT.heap) ∧
        x ∉ ([] : List Nat).filter (keepB sNT.heap)) ∧
     (chainTo cNT.s.heap sNT.reg.meta (get_next cNT.s)
        (([2] : List Nat).filter (keepB sNT.heap) ++ [1]) ∧
      chainTo cNT.s.heap sNT.reg.meta cNT.s.reg.next_not_root
        (([] : List Nat).filter (keepB sNT.heap)) ∧
      cNT.s.reg.last_not_root =
        (([] : List Nat).filter (keepB sNT.heap)).getLast?.getD sNT.reg.meta) ∧
     (∀ x ∈ ([2] : List Nat) ++ ([] : List Nat), (sNT.heap x).cls = RegionMD.MARKED →
        (cNT.s.heap x).cls = RegionMD.UNMARKED) ∧
     cNT.s.reg.current_memory_used =
       sizesum sNT.heap (([2] : List Nat).filter (keepB sNT.heap)) + (sNT.heap 1).size +
         sizesum sNT.heap (([] : List Nat).filter (keepB sNT.heap))) :=
  ⟨rfl, sweep_post_normal 10 sNT 1 0 [2] [] cNT rfl (by decide) (by decide) (by decide)
    (by decide) (by decide) (by decide) (by decide)⟩

/-- Intra-region reachability from the iso `o` through descriptor trace
functions: the iso's fields are reachable, and traversal continues
through reached objects that carry the ordinary member tag (UNMARKED at
the start of `mark`), stopping at subregion isos, SCC forwarders, RC and
COWN objects. -/
inductive Reach (h : Heap) (o : Nat) : Nat → Prop
  | root {x : Nat} : x ∈ (h o).fields → Reach h o x
  | step {p x : Nat} : Reach h o p → (h p).cls = RegionMD.UNMARKED →
      x ∈ (h p).fields → Reach h o x

/-- Invariant of the `mark` worklist loop, relative to the starting state
`s`: cells are either untouched or marked-and-reachable, marking is
monotone, every worklist entry ends up non-UNMARKED, and at the end every
marked cell's successors are non-UNMARKED (unless the cell was already
marked in `s`). -/
theorem markLoop_spec (s : RState) (o : Nat) :
    ∀ (fuel : Nat) (t : RState) (dfs : List Nat) (marked : Nat) (out : RState × Nat),
      markLoop fuel t dfs marked = some out →
      (∀ x, t.heap x = s.heap x ∨
        (t.heap x = { s.heap x with cls := RegionMD.MARKED } ∧
          (s.heap x).cls = RegionMD.UNMARKED ∧ Reach s.heap o x)) →
      (∀ g ∈ dfs, Reach s.heap o g) →
      (∀ x, (t.heap x).cls = RegionMD.MARKED →
        (s.heap x).cls = RegionMD.MARKED ∨
          ∀ g ∈ (s.heap x).fields, (t.heap g).cls ≠ RegionMD.UNMARKED ∨ g ∈ dfs) →
      out.1.reg = t.reg ∧
      (∀ x, out.1.heap x = s.heap x ∨
        (out.1.heap x = { s.heap x with cls := RegionMD.MARKED } ∧
          (s.heap x).cls = RegionMD.UNMARKED ∧ Reach s.heap o x)) ∧
      (∀ x, (t.heap x).cls = RegionMD.MARKED → (out.1.heap x).cls = RegionMD.MARKED) ∧
      (∀ g ∈ dfs, (out.1.heap g).cls ≠ RegionMD.UNMARKED) ∧
      (∀ x, (out.1.heap x).cls = RegionMD.MARKED →
        (s.heap x).cls = RegionMD.MARKED ∨
          ∀ g ∈ (s.heap x).fields, (out.1.heap g).cls ≠ RegionMD.UNMARKED) := by
  intro fuel
  induction fuel with
  | zero =>
    intro t dfs marked out h _ _ _
    simp [markLoop] at h
  | succ n ih =>
    intro t dfs marked out h hJ1 hJ2 hJ3
    rw [markLoop.eq_def] at h
    cases dfs with
    | nil =>
      have h' : some (t, marked) = some out := h
      cases h'
      refine ⟨rfl, hJ1, fun x hx => hx, fun g hg => absurd hg (List.not_mem_nil g), ?_⟩
      intro x hx
      rcases hJ3 x hx with hm | hall
      · exact Or.inl hm
      · refine Or.inr (fun g hg => ?_)
        rcases hall g hg with hne | hin
        · exact hne
        · exact absurd hin (List.not_mem_nil g)
    | cons p rest =>
      cases hcls : (t.heap p).cls <;> simp [hcls] at h
      · -- ISO
        have hJ3' : ∀ x, (t.heap x).cls = RegionMD.MARKED →
            (s.heap x).cls = RegionMD.MARKED ∨
              ∀ g ∈ (s.heap x).fields, (t.heap g).cls ≠ RegionMD.UNMARKED ∨ g ∈ rest := by
          intro x hx
          rcases hJ3 x hx with hm | hall
          · exact Or.inl hm
          · refine Or.inr (fun g hg => ?_)
            rcases hall g hg with hne | hin
            · exact Or.inl hne
            · rcases List.mem_cons.1 hin with rfl | hr
              · exact Or.inl (by rw [hcls]; simp)
              · exact Or.inr hr
        obtain ⟨hreg, hK1, hK2, hK3, hK4⟩ :=
          ih t rest _ out h hJ1 (fun g hg => hJ2 g (List.mem_cons_of_mem p hg)) hJ3'
        refine ⟨hreg, hK1, hK2, ?_, hK4⟩
        intro g hg
        rcases List.mem_cons.1 hg with rfl | hr
        · rcases hJ1 g with hsp | ⟨hmp, _, _⟩
          · rcases hK1 g with ho | ⟨hom, _, _⟩
            · rw [ho, ← hsp, hcls]; simp
            · rw [hom]; simp
          · have hmt : (t.heap g).cls = RegionMD.MARKED := by rw [hmp]
            have hmo := hK2 g hmt
            rw [hmo]; simp
        · exact hK3 g hr
      · -- MARKED
        have hJ3' : ∀ x, (t.heap x).cls = RegionMD.MARKED →
            (s.heap x).cls = RegionMD.MARKED ∨
              ∀ g ∈ (s.heap x).fields, (t.heap g).cls ≠ RegionMD.UNMARKED ∨ g ∈ rest := by
          intro x hx
          rcases hJ3 x hx with hm | hall
          · exact Or.inl hm
          · refine Or.inr (fun g hg => ?_)
            rcases hall g hg with hne | hin
            · exact Or.inl hne
            · rcases List.mem_cons.1 hin with rfl | hr
              · exact Or.inl (by rw [hcls]; simp)
              · exact Or.inr hr
        obtain ⟨hreg, hK1, hK2, hK3, hK4⟩ :=
          ih t rest _ out h hJ1 (fun g hg => hJ2 g (List.mem_cons_of_mem p hg)) hJ3'
        refine ⟨hreg, hK1, hK2, ?_, hK4⟩
        intro g hg
        rcases List.mem_cons.1 hg with rfl | hr
        · rcases hJ1 g with hsp | ⟨hmp, _, _⟩
          · rcases hK1 g with ho | ⟨hom, _, _⟩
            · rw [ho, ← hsp, hcls]; simp
            · rw [hom]; simp
          · have hmt : (t.heap g).cls = RegionMD.MARKED := by rw [hmp]
            have hmo := hK2 g hmt
            rw [hmo]; simp
        · exact hK3 g hr
      · -- UNMARKED
        have htp : t.heap p = s.heap p := by
          rcases hJ1 p with h1 | ⟨h1, _, _⟩
          · exact h1
          · exfalso
            rw [h1] at hcls
            simp at hcls
        have hsp : (s.heap p).cls = RegionMD.UNMARKED := by rw [← htp]; exact hcls
        have hRp : Reach s.heap o p := hJ2 p (List.mem_cons_self p rest)
        have hJ1' : ∀ x, (mark_obj t p).heap x = s.heap x ∨
            ((mark_obj t p).heap x = { s.heap x with cls := RegionMD.MARKED } ∧
              (s.heap x).cls = RegionMD.UNMARKED ∧ Reach s.heap o x) := by
          intro x
          by_cases hxp : x = p
          · subst hxp
            refine Or.inr ⟨?_, hsp, hRp⟩
            simp [mark_obj, hupd, htp]
          · have heq : (mark_obj t p).heap x = t.heap x := by simp [mark_obj, hupd, hxp]
            rw [heq]
            exact hJ1 x
        have hJ2' : ∀ g ∈ (t.heap p).fields ++ rest, Reach s.heap o g := by
          intro g hg
          rcases List.mem_append.1 hg with hf | hr
          · rw [htp] at hf
            exact Reach.step hRp hsp hf
          · exact hJ2 g (List.mem_cons_of_mem p hr)
        have hJ3' : ∀ x, ((mark_obj t p).heap x).cls = RegionMD.MARKED →
            (s.heap x).cls = RegionMD.MARKED ∨
              ∀ g ∈ (s.heap x).fields, ((mark_obj t p).heap g).cls ≠ RegionMD.UNMARKED ∨
                g ∈ (t.heap p).fields ++ rest := by
          intro x hx
          by_cases hxp : x = p
          · subst hxp
            refine Or.inr (fun g hg => Or.inr ?_)
            refine List.mem_append.2 (Or.inl ?_)
            rw [htp]
            exact hg
          · have heq : (mark_obj t p).heap x = t.heap x := by simp [mark_obj, hupd, hxp]
            rw [heq] at hx
            rcases hJ3 x hx with hm | hall
            · exact Or.inl hm
            · refine Or.inr (fun g hg => ?_)
              rcases hall g hg with hne | hin
              · refine Or.inl ?_
                by_cases hgp : g = p
                · subst hgp
                  simp [mark_obj, hupd]
                · have heqg : (mark_obj t p).heap g = t.heap g := by
                    simp [mark_obj, hupd, hgp]
                  rw [heqg]
                  exact hne
              · rcases List.mem_cons.1 hin with rfl | hr
                · refine Or.inl ?_
                  simp [mark_obj, hupd]
                · exact Or.inr (List.mem_append.2 (Or.inr hr))
        obtain ⟨hreg, hK1, hK2, hK3, hK4⟩ :=
          ih (mark_obj t p) ((t.heap p).fields ++ rest) _ out h hJ1' hJ2' hJ3'
        refine ⟨by rw [hreg]; rfl, hK1, ?_, ?_, hK4⟩
        · intro x hx
          refine hK2 x ?_
          by_cases hxp : x = p
          · subst hxp
            simp [mark_obj, hupd]
          · have heq : (mark_obj t p).heap x = t.heap x := by simp [mark_obj, hupd, hxp]
            rw [heq]
            exact hx
        · intro g hg
          rcases List.mem_cons.1 hg with rfl | hr
          · have hm : ((mark_obj t g).heap g).cls = RegionMD.MARKED := by
              simp [mark_obj, hupd]
            have hmo := hK2 g hm
            rw [hmo]
            simp
          · exact hK3 g (List.mem_append.2 (Or.inr hr))
      · -- SCC_PTR
        have hJ3' : ∀ x, (t.heap x).cls = RegionMD.MARKED →
            (s.heap x).cls = RegionMD.MARKED ∨
              ∀ g ∈ (s.heap x).fields, (t.heap g).cls ≠ RegionMD.UNMARKED ∨ g ∈ rest := by
          intro x hx
          rcases hJ3 x hx with hm | hall
          · exact Or.inl hm
          · refine Or.inr (fun g hg => ?_)
            rcases hall g hg with hne | hin
            · exact Or.inl hne
            · rcases List.mem_cons.1 hin with rfl | hr
              · exact Or.inl (by rw [hcls]; simp)
              · exact Or.inr hr
        obtain ⟨hreg, hK1, hK2, hK3, hK4⟩ :=
          ih t rest _ out h hJ1 (fun g hg => hJ2 g (List.mem_cons_of_mem p hg)) hJ3'
        refine ⟨hreg, hK1, hK2, ?_, hK4⟩
        intro g hg
        rcases List.mem_cons.1 hg with rfl | hr
        · rcases hJ1 g with hsp | ⟨hmp, _, _⟩
          · rcases hK1 g with ho | ⟨hom, _, _⟩
            · rw [ho, ← hsp, hcls]; simp
            · rw [hom]; simp
          · have hmt : (t.heap g).cls = RegionMD.MARKED := by rw [hmp]
            have hmo := hK2 g hmt
            rw [hmo]; simp
        · exact hK3 g hr
      · -- RC
        have hJ3' : ∀ x, (t.heap x).cls = RegionMD.MARKED →
            (s.heap x).cls = RegionMD.MARKED ∨
              ∀ g ∈ (s.heap x).fields, (t.heap g).cls ≠ RegionMD.UNMARKED ∨ g ∈ rest := by
          intro x hx
          rcases hJ3 x hx with hm | hall
          · exact Or.inl hm
          · refine Or.inr (fun g hg => ?_)
            rcases hall g hg with hne | hin
            · exact Or.inl hne
            · rcases List.mem_cons.1 hin with rfl | hr
              · exact Or.inl (by rw [hcls]; simp)
              · exact Or.inr hr
        obtain ⟨hreg, hK1, hK2, hK3, hK4⟩ :=
          ih t rest _ out h hJ1 (fun g hg => hJ2 g (List.mem_cons_of_mem p hg)) hJ3'
        refine ⟨hreg, hK1, hK2, ?_, hK4⟩
        intro g hg
        rcases List.mem_cons.1 hg with rfl | hr
        · rcases hJ1 g with hsp | ⟨hmp, _, _⟩
          · rcases hK1 g with ho | ⟨hom, _, _⟩
            · rw [ho, ← hsp, hcls]; simp
            · rw [hom]; simp
          · have hmt : (t.heap g).cls = RegionMD.MARKED := by rw [hmp]
            have hmo := hK2 g hmt
            rw [hmo]; simp
        · exact hK3 g hr
      · -- COWN
        have hJ3' : ∀ x, (t.heap x).cls = RegionMD.MARKED →
            (s.heap x).cls = RegionMD.MARKED ∨
              ∀ g ∈ (s.heap x).fields, (t.heap g).cls ≠ RegionMD.UNMARKED ∨ g ∈ rest := by
          intro x hx
          rcases hJ3 x hx with hm | hall
          · exact Or.inl hm
          · refine Or.inr (fun g hg => ?_)
            rcases hall g hg with hne | hin
            · exact Or.inl hne
            · rcases List.mem_cons.1 hin with rfl | hr
              · exact Or.inl (by rw [hcls]; simp)
              · exact Or.inr hr
        obtain ⟨hreg, hK1, hK2, hK3, hK4⟩ :=
          ih t rest _ out h hJ1 (fun g hg => hJ2 g (List.mem_cons_of_mem p hg)) hJ3'
        refine ⟨hreg, hK1, hK2, ?_, hK4⟩
        intro g hg
        rcases List.mem_cons.1 hg with rfl | hr
        · rcases hJ1 g with hsp | ⟨hmp, _, _⟩
          · rcases hK1 g with ho | ⟨hom, _, _⟩
            · rw [ho, ← hsp, hcls]; simp
            · rw [hom]; simp
          · have hmt : (t.heap g).cls = RegionMD.MARKED := by rw [hmp]
            have hmo := hK2 g hmt
            rw [hmo]; simp
        · exact hK3 g hr

/-- C4: after `mark(alloc, iso, dfs, marked)` and before `sweep`: every
object reachable from the iso through descriptor trace functions (not
crossing into subregion isos, SCC forwarders, RC or COWN objects) that
started as an UNMARKED member is MARKED, reached subregion isos keep
class ISO, and every object unreachable from the iso is untouched — in
particular it is not MARKED unless it already was. -/
theorem mark_reachability (fuel : Nat) (s : RState) (o : Nat) (outm : RState × Nat)
    (hmk : markFn fuel s o = some outm) :
    (∀ x, Reach s.heap o x → (s.heap x).cls = RegionMD.UNMARKED →
       (outm.1.heap x).cls = RegionMD.MARKED) ∧
    (∀ x, (s.heap x).cls = RegionMD.ISO → (outm.1.heap x).cls = RegionMD.ISO) ∧
    (∀ x, ¬ Reach s.heap o x → outm.1.heap x = s.heap x) ∧
    (∀ x, ¬ Reach s.heap o x → (s.heap x).cls ≠ RegionMD.MARKED →
       (outm.1.heap x).cls ≠ RegionMD.MARKED) := by
  unfold markFn at hmk
  obtain ⟨hreg, hK1, hK2, hK3, hK4⟩ :=
    markLoop_spec s o fuel s ((s.heap o).fields) 0 outm hmk
      (fun x => Or.inl rfl)
      (fun g hg => Reach.root hg)
      (fun x hx => Or.inl hx)
  have hiso : ∀ x, (s.heap x).cls = RegionMD.ISO → (outm.1.heap x).cls = RegionMD.ISO := by
    intro x hx
    rcases hK1 x with ho | ⟨_, hu, _⟩
    · rw [ho]
      exact hx
    · rw [hu] at hx
      simp at hx
  have hunreach : ∀ x, ¬ Reach s.heap o x → outm.1.heap x = s.heap x := by
    intro x hnx
    rcases hK1 x with ho | ⟨_, _, hr⟩
    · exact ho
    · exact absurd hr hnx
  refine ⟨?_, hiso, hunreach, ?_⟩
  · intro x hre
    induction hre with
    | @root y hy =>
      intro hu
      have h3 := hK3 y hy
      rcases hK1 y with ho | ⟨hom, _, _⟩
      · rw [ho] at h3
        exact absurd hu h3
      · rw [hom]
    | @step p y hp hcl hy ihm =>
      intro hu
      have hpm := ihm hcl
      rcases hK4 p hpm with hm | hall
      · rw [hcl] at hm
        simp at hm
      · have h3 := hall y hy
        rcases hK1 y with ho | ⟨hom, _, _⟩
        · rw [ho] at h3
          exact absurd hu h3
        · rw [hom]
  · intro x hnx hnm
    rw [hunreach x hnx]
    exact hnm

/-- Witness for C4 at a concrete input: the witness region's iso has no
fields, so the mark loop terminates immediately and every cell is
untouched. -/
theorem mark_reachability_witness :
    markFn 10 sNT 1 = some (sNT, 0) ∧
    (∀ x, ¬ Reach sNT.heap 1 x → (sNT, 0).1.heap x = sNT.heap x) ∧
    (∀ x, (sNT.heap x).cls = RegionMD.ISO → ((sNT, 0).1.heap x).cls = RegionMD.ISO) :=
  ⟨rfl, (mark_reachability 10 sNT 1 (sNT, 0) rfl).2.2.1,
    (mark_reachability 10 sNT 1 (sNT, 0) rfl).2.1⟩

/-- A chain segment: starting from pointer value `x`, the cells of `l`
are traversed in order (none of them being the metadata `m`) and the
pointer value after the last cell is `y`. -/
def chainSeg (h : Heap) (m : Nat) : Nat → List Nat → Nat → Prop
  | x, [], y => x = y
  | x, a :: l, y => x = a ∧ a ≠ m ∧ chainSeg h m ((h a).next) l y

theorem chainSeg_append (h : Heap) (m : Nat) :
    ∀ (l1 : List Nat) (x y : Nat) (l2 : List Nat),
      chainSeg h m x (l1 ++ l2) y ↔ ∃ z, chainSeg h m x l1 z ∧ chainSeg h m z l2 y := by
  intro l1
  induction l1 with
  | nil =>
    intro x y l2
    constructor
    · intro hc
      exact ⟨x, rfl, hc⟩
    · rintro ⟨z, hz, hc⟩
      have hz' : x = z := hz
      rw [hz']
      exact hc
  | cons a t ih =>
    intro x y l2
    constructor
    · rintro ⟨hx, ham, hc⟩
      obtain ⟨z, h1, h2⟩ := (ih _ _ _).1 hc
      exact ⟨z, ⟨hx, ham, h1⟩, h2⟩
    · rintro ⟨z, ⟨hx, ham, h1⟩, h2⟩
      exact ⟨hx, ham, (ih _ _ _).2 ⟨z, h1, h2⟩⟩

theorem chainTo_iff_seg (h : Heap) (m : Nat) :
    ∀ (l : List Nat) (x : Nat), chainTo h m x l ↔ chainSeg h m x l m := by
  intro l
  induction l with
  | nil => intro x; exact Iff.rfl
  | cons a t ih =>
    intro x
    constructor
    · rintro ⟨hx, ham, hc⟩
      exact ⟨hx, ham, (ih _).1 hc⟩
    · rintro ⟨hx, ham, hc⟩
      exact ⟨hx, ham, (ih _).2 hc⟩

theorem chainSeg_congr (h h' : Heap) (m : Nat) :
    ∀ (l : List Nat) (x y : Nat), chainSeg h m x l y → (∀ a ∈ l, h' a = h a) →
      chainSeg h' m x l y := by
  intro l
  induction l with
  | nil => intro x y hc _; exact hc
  | cons a t ih =>
    intro x y hc hs
    obtain ⟨hx, ham, hrest⟩ := hc
    refine ⟨hx, ham, ?_⟩
    rw [hs a (by simp)]
    exact ih _ _ hrest (fun b hb => hs b (by simp [hb]))

theorem chainSeg_ne_meta (h : Heap) (m : Nat) :
    ∀ (l : List Nat) (x y : Nat), chainSeg h m x l y → ∀ a ∈ l, a ≠ m := by
  intro l
  induction l with
  | nil => intro x y _ a ha; cases ha
  | cons b t ih =>
    intro x y hc a ha
    obtain ⟨hx, hbm, hrest⟩ := hc
    rcases List.mem_cons.1 ha with rfl | ha'
    · exact hbm
    · exact ih _ _ hrest a ha'

theorem chainSeg_change_meta (h : Heap) (m m2 : Nat) :
    ∀ (l : List Nat) (x y : Nat), chainSeg h m x l y → (∀ a ∈ l, a ≠ m2) →
      chainSeg h m2 x l y := by
  intro l
  induction l with
  | nil => intro x y hc _; exact hc
  | cons a t ih =>
    intro x y hc hs
    obtain ⟨hx, _, hrest⟩ := hc
    exact ⟨hx, hs a (by simp), ih _ _ hrest (fun b hb => hs b (by simp [hb]))⟩

/-- The dual-ring triviality partition of a trace region: the primary
ring `body ++ [o]` hangs off the metadata's next pointer and is
terminated by the iso `o`, the secondary ring `S` runs from
`next_not_root` to `last_not_root`, every primary member shares the
iso's triviality and every secondary member has the opposite one. -/
def RingInv (s : RState) (o : Nat) (body S : List Nat) : Prop :=
  chainTo s.heap s.reg.meta (get_next s) (body ++ [o]) ∧
  chainTo s.heap s.reg.meta s.reg.next_not_root S ∧
  s.reg.last_not_root = S.getLast?.getD s.reg.meta ∧
  (∀ x ∈ body, (s.heap x).trivial = (s.heap o).trivial) ∧
  (∀ x ∈ S, (s.heap x).trivial ≠ (s.heap o).trivial)

theorem RingInv_head_trivial (s : RState) (o : Nat) (body S : List Nat)
    (inv : RingInv s o body S) :
    (s.heap (get_next s)).trivial = (s.heap o).trivial := by
  obtain ⟨hP, _, _, htb, _⟩ := inv
  cases body with
  | nil =>
    obtain ⟨hx, _, _⟩ := hP
    rw [hx]
  | cons b t =>
    obtain ⟨hx, _, _⟩ := hP
    rw [hx]
    exact htb b (by simp)

theorem append_primary_eq (s : RState) (hd tl : Nat)
    (hcond : (s.heap hd).trivial = (s.heap (get_next s)).trivial) :
    append s hd tl = set_next (init_next s tl (get_next s)) hd := by
  simp only [append]
  rw [if_pos hcond]

theorem append_secondary_eq1 (s : RState) (hd tl : Nat)
    (hcond : ¬ (s.heap hd).trivial = (s.heap (get_next s)).trivial)
    (hlm : s.reg.last_not_root = s.reg.meta) :
    append s hd tl = { init_next s tl s.reg.next_not_root with
      reg := { s.reg with next_not_root := hd, last_not_root := tl } } := by
  simp only [append]
  rw [if_neg hcond]
  rw [if_pos (show (init_next s tl s.reg.next_not_root).reg.last_not_root =
    (init_next s tl s.reg.next_not_root).reg.meta from hlm)]
  rfl

theorem append_secondary_eq2 (s : RState) (hd tl : Nat)
    (hcond : ¬ (s.heap hd).trivial = (s.heap (get_next s)).trivial)
    (hlm : ¬ s.reg.last_not_root = s.reg.meta) :
    append s hd tl = { init_next s tl s.reg.next_not_root with
      reg := { s.reg with next_not_root := hd } } := by
  simp only [append]
  rw [if_neg hcond]
  rw [if_neg (show ¬ (init_next s tl s.reg.next_not_root).reg.last_not_root =
    (init_next s tl s.reg.next_not_root).reg.meta from hlm)]
  rfl

/-- Splicing a homogeneous, fresh chain segment `seg` (head `hd`, tail
`tl`) into a partitioned region via `RegionTrace::append(hd, tl)` puts it
at the front of the ring whose triviality matches `hd` and preserves the
partition. -/
theorem append_splice (s : RState) (o : Nat) (body S seg : List Nat) (hd tl z : Nat)
    (inv : RingInv s o body S)
    (hsegne : seg ≠ [])
    (hhd : seg.head? = some hd)
    (htl : seg.getLast? = some tl)
    (hchainseg : chainSeg s.heap s.reg.meta hd seg z)
    (hndseg : seg.Nodup)
    (hdisj : ∀ a ∈ seg, a ∉ body ++ o :: S)
    (htriv : ∀ a ∈ seg, (s.heap a).trivial = (s.heap hd).trivial) :
    ((s.heap hd).trivial = (s.heap (get_next s)).trivial →
      RingInv (append s hd tl) o (seg ++ body) S) ∧
    (¬ (s.heap hd).trivial = (s.heap (get_next s)).trivial →
      RingInv (append s hd tl) o body (seg ++ S)) := by
  obtain ⟨hP, hSc, hlnr, htb, hts⟩ := inv
  have htl2 : tl = seg.getLast hsegne := by
    have hx := List.getLast?_eq_getLast seg hsegne
    rw [htl] at hx
    exact Option.some.inj hx
  have hdecomp : seg.dropLast ++ [tl] = seg := by
    rw [htl2]
    exact List.dropLast_append_getLast hsegne
  have hchain2 : chainSeg s.heap s.reg.meta hd (seg.dropLast ++ [tl]) z := by
    rw [hdecomp]
    exact hchainseg
  obtain ⟨z1, hinit, htlc⟩ :=
    (chainSeg_append s.heap s.reg.meta seg.dropLast hd z [tl]).1 hchain2
  obtain ⟨hz1, htlm, _⟩ := htlc
  subst hz1
  have hsegnm : ∀ a ∈ seg, a ≠ s.reg.meta :=
    chainSeg_ne_meta s.heap s.reg.meta seg hd z hchainseg
  have hinitne : ∀ a ∈ seg.dropLast, a ≠ z1 := by
    intro a ha
    have hnd2 : (seg.dropLast ++ [z1]).Nodup := by
      rw [hdecomp]
      exact hndseg
    have hd2 := (List.nodup_append.1 hnd2).2.2
    intro he
    exact hd2 ha (by simp [he])
  have hdLmem : ∀ a ∈ seg.dropLast, a ∈ seg := by
    intro a ha
    rw [← hdecomp]
    exact List.mem_append.2 (Or.inl ha)
  have htlmem : z1 ∈ seg := by
    rw [← hdecomp]
    exact List.mem_append.2 (Or.inr (by simp))
  have hbody_ntl : ∀ a ∈ body ++ [o], a ≠ z1 := by
    intro a ha he
    subst he
    refine hdisj a htlmem ?_
    rcases List.mem_append.1 ha with h1 | h1
    · exact List.mem_append.2 (Or.inl h1)
    · exact List.mem_append.2 (Or.inr (List.mem_cons.2 (Or.inl (by simpa using h1))))
  have hS_ntl : ∀ a ∈ S, a ≠ z1 := by
    intro a ha he
    subst he
    exact hdisj a htlmem (List.mem_append.2 (Or.inr (List.mem_cons.2 (Or.inr ha))))
  constructor
  · intro hcond
    rw [append_primary_eq s hd z1 hcond]
    have cellA : ∀ x, x ≠ z1 → x ≠ s.reg.meta →
        (set_next (init_next s z1 (get_next s)) hd).heap x = s.heap x := by
      intro x h1 h2
      simp [set_next, set_next_of, init_next, hupd, h1, h2]
    have cellA_tl : (set_next (init_next s z1 (get_next s)) hd).heap z1 =
        { s.heap z1 with next := get_next s, cls := RegionMD.UNMARKED } := by
      simp [set_next, set_next_of, init_next, hupd, htlm]
    have cellA_m : (set_next (init_next s z1 (get_next s)) hd).heap s.reg.meta =
        { s.heap s.reg.meta with next := hd } := by
      simp [set_next, set_next_of, init_next, hupd, Ne.symm htlm]
    have trivA : ∀ x, ((set_next (init_next s z1 (get_next s)) hd).heap x).trivial =
        (s.heap x).trivial := by
      intro x
      by_cases h2 : x = s.reg.meta
      · subst h2
        rw [cellA_m]
      · by_cases h1 : x = z1
        · subst h1
          rw [cellA_tl]
        · rw [cellA x h1 h2]
    have hentry : get_next (set_next (init_next s z1 (get_next s)) hd) = hd := by
      show ((set_next (init_next s z1 (get_next s)) hd).heap s.reg.meta).next = hd
      rw [cellA_m]
    refine ⟨?_, ?_, ?_, ?_, ?_⟩
    · show chainTo (set_next (init_next s z1 (get_next s)) hd).heap s.reg.meta
        (get_next (set_next (init_next s z1 (get_next s)) hd)) ((seg ++ body) ++ [o])
      rw [hentry, chainTo_iff_seg, ← hdecomp, List.append_assoc, List.append_assoc]
      refine (chainSeg_append _ _ _ _ _ _).2 ⟨z1, ?_, ?_⟩
      · exact chainSeg_congr s.heap _ s.reg.meta seg.dropLast hd z1 hinit
          (fun a ha => cellA a (hinitne a ha) (hsegnm a (hdLmem a ha)))
      · refine (chainSeg_append _ _ _ _ _ _).2 ⟨get_next s, ?_, ?_⟩
        · exact ⟨rfl, htlm, by rw [cellA_tl]; rfl⟩
        · exact chainSeg_congr s.heap _ s.reg.meta (body ++ [o]) (get_next s) s.reg.meta
            ((chainTo_iff_seg s.heap s.reg.meta (body ++ [o]) (get_next s)).1 hP)
            (fun a ha => cellA a (hbody_ntl a ha)
              (chainTo_ne_meta s.heap s.reg.meta (get_next s) (body ++ [o]) hP a ha))
    · show chainTo (set_next (init_next s z1 (get_next s)) hd).heap s.reg.meta
        s.reg.next_not_root S
      exact chainTo_congr s.heap _ s.reg.meta s.reg.next_not_root S hSc
        (fun a ha => cellA a (hS_ntl a ha)
          (chainTo_ne_meta s.heap s.reg.meta s.reg.next_not_root S hSc a ha))
    · show s.reg.last_not_root = S.getLast?.getD s.reg.meta
      exact hlnr
    · intro x hx
      rw [trivA x, trivA o]
      rcases List.mem_append.1 hx with h1 | h1
      · rw [htriv x h1, hcond]
        exact RingInv_head_trivial s o body S ⟨hP, hSc, hlnr, htb, hts⟩
      · exact htb x h1
    · intro x hx
      rw [trivA x, trivA o]
      exact hts x hx
  · intro hcond
    have cellB : ∀ x, x ≠ z1 →
        (init_next s z1 s.reg.next_not_root).heap x = s.heap x := by
      intro x h1
      simp [init_next, hupd, h1]
    have cellB_tl : (init_next s z1 s.reg.next_not_root).heap z1 =
        { s.heap z1 with next := s.reg.next_not_root, cls := RegionMD.UNMARKED } := by
      simp [init_next, hupd]
    have trivB : ∀ x, ((init_next s z1 s.reg.next_not_root).heap x).trivial =
        (s.heap x).trivial := by
      intro x
      by_cases h1 : x = z1
      · subst h1
        rw [cellB_tl]
      · rw [cellB x h1]
    have hsegtrivS : ∀ a ∈ seg, (s.heap a).trivial ≠ (s.heap o).trivial := by
      intro a ha
      rw [htriv a ha]
      exact fun he => hcond
        (he.trans (RingInv_head_trivial s o body S ⟨hP, hSc, hlnr, htb, hts⟩).symm)
    by_cases hlm : s.reg.last_not_root = s.reg.meta
    · rw [append_secondary_eq1 s hd z1 hcond hlm]
      have hSnil : S = [] := by
        cases hS2 : S with
        | nil => rfl
        | cons a t =>
          exfalso
          rw [hS2] at hSc hlnr
          obtain ⟨v, hv⟩ := getLast?_cons_some a t
          rw [hv] at hlnr
          have hlnr2 : s.reg.last_not_root = v := hlnr
          have hvm := getLast?_mem (a :: t) v hv
          exact chainTo_ne_meta s.heap s.reg.meta s.reg.next_not_root (a :: t) hSc v hvm
            (hlnr2.symm.trans hlm)
      subst hSnil
      have hnnr : s.reg.next_not_root = s.reg.meta := hSc
      refine ⟨?_, ?_, ?_, ?_, ?_⟩
      · show chainTo (init_next s z1 s.reg.next_not_root).heap s.reg.meta
          (((init_next s z1 s.reg.next_not_root).heap s.reg.meta).next) (body ++ [o])
        rw [cellB s.reg.meta (Ne.symm htlm)]
        exact chainTo_congr s.heap _ s.reg.meta (get_next s) (body ++ [o]) hP
          (fun a ha => cellB a (hbody_ntl a ha))
      · show chainTo (init_next s z1 s.reg.next_not_root).heap s.reg.meta hd
          (seg ++ ([] : List Nat))
        rw [List.append_nil, chainTo_iff_seg, ← hdecomp]
        refine (chainSeg_append _ _ _ _ _ _).2 ⟨z1, ?_, ?_⟩
        · exact chainSeg_congr s.heap _ s.reg.meta seg.dropLast hd z1 hinit
            (fun a ha => cellB a (hinitne a ha))
        · exact ⟨rfl, htlm, by rw [cellB_tl]; exact hnnr⟩
      · show z1 = (seg ++ ([] : List Nat)).getLast?.getD s.reg.meta
        rw [List.append_nil, htl]
        rfl
      · intro x hx
        rw [trivB x, trivB o]
        exact htb x hx
      · intro x hx
        rw [trivB x, trivB o]
        rcases List.mem_append.1 hx with h1 | h1
        · exact hsegtrivS x h1
        · exact absurd h1 (List.not_mem_nil x)
    · rw [append_secondary_eq2 s hd z1 hcond hlm]
      have hSne : S ≠ [] := by
        intro h
        rw [h] at hlnr
        exact hlm hlnr
      refine ⟨?_, ?_, ?_, ?_, ?_⟩
      · show chainTo (init_next s z1 s.reg.next_not_root).heap s.reg.meta
          (((init_next s z1 s.reg.next_not_root).heap s.reg.meta).next) (body ++ [o])
        rw [cellB s.reg.meta (Ne.symm htlm)]
        exact chainTo_congr s.heap _ s.reg.meta (get_next s) (body ++ [o]) hP
          (fun a ha => cellB a (hbody_ntl a ha))
      · show chainTo (init_next s z1 s.reg.next_not_root).heap s.reg.meta hd (seg ++ S)
        rw [chainTo_iff_seg, ← hdecomp, List.append_assoc]
        refine (chainSeg_append _ _ _ _ _ _).2 ⟨z1, ?_, ?_⟩
        · exact chainSeg_congr s.heap _ s.reg.meta seg.dropLast hd z1 hinit
            (fun a ha => cellB a (hinitne a ha))
        · refine (chainSeg_append _ _ _ _ _ _).2 ⟨s.reg.next_not_root, ?_, ?_⟩
          · exact ⟨rfl, htlm, by rw [cellB_tl]; rfl⟩
          · exact chainSeg_congr s.heap _ s.reg.meta S s.reg.next_not_root s.reg.meta
              ((chainTo_iff_seg s.heap s.reg.meta S s.reg.next_not_root).1 hSc)
              (fun a ha => cellB a (hS_ntl a ha))
      · show s.reg.last_not_root = (seg ++ S).getLast?.getD s.reg.meta
        rw [List.getLast?_append_of_ne_nil seg hSne]
        exact hlnr
      · intro x hx
        rw [trivB x, trivB o]
        exact htb x hx
      · intro x hx
        rw [trivB x, trivB o]
        rcases List.mem_append.1 hx with h1 | h1
        · exact hsegtrivS x h1
        · exact hts x h1

theorem chainTo_entry_mem (h : Heap) (m x : Nat) (l : List Nat)
    (hl : l ≠ []) (hc : chainTo h m x l) : x ∈ l := by
  cases l with
  | nil => exact absurd rfl hl
  | cons a t =>
    obtain ⟨hx, _, _⟩ := hc
    rw [hx]
    simp

/-- The freshly allocated object of `RegionTrace::alloc` before `append`
links it in. -/
def freshObj (oId : Nat) (desc : Descriptor) : Obj :=
  { next := oId
    cls := RegionMD.UNMARKED
    size := desc.size
    trivial := desc.trivial
    fields := []
    hasExtRef := false }

theorem RingInv_set_counters (t : RState) (o : Nat) (body S : List Nat) (a b : Nat)
    (inv : RingInv t o body S) :
    RingInv { t with reg := { t.reg with current_memory_used := a, previous_memory_used := b } } o body S := by
  obtain ⟨h1, h2, h3, h4, h5⟩ := inv
  exact ⟨h1, h2, h3, h4, h5⟩

theorem RingInv_set_cur (t : RState) (o : Nat) (body S : List Nat) (a : Nat)
    (inv : RingInv t o body S) :
    RingInv { t with reg := { t.reg with current_memory_used := a } } o body S := by
  obtain ⟨h1, h2, h3, h4, h5⟩ := inv
  exact ⟨h1, h2, h3, h4, h5⟩

/-- `RegionTrace::alloc` appends the fresh object to the ring whose
triviality matches its descriptor and preserves the partition. -/
theorem allocObj_partition (s : RState) (o : Nat) (body S : List Nat) (oId : Nat)
    (desc : Descriptor)
    (inv : RingInv s o body S)
    (hfb : oId ∉ body) (hfo : oId ≠ o) (hfS : oId ∉ S) (hfm : oId ≠ s.reg.meta) :
    (desc.trivial = (s.heap o).trivial →
      RingInv (allocObj s oId desc) o (oId :: body) S) ∧
    (¬ desc.trivial = (s.heap o).trivial →
      RingInv (allocObj s oId desc) o body (oId :: S)) := by
  obtain ⟨hP, hSc, hlnr, htb, hts⟩ := inv
  have hbne : ∀ a ∈ body ++ [o], a ≠ oId := by
    intro a ha he
    subst he
    rcases List.mem_append.1 ha with h1 | h1
    · exact hfb h1
    · exact hfo (by simpa using h1)
  have hSne : ∀ a ∈ S, a ≠ oId := fun a ha he => hfS (he ▸ ha)
  have hcellm : (hupd s.heap oId (freshObj oId desc)) s.reg.meta = s.heap s.reg.meta := by
    simp [hupd, Ne.symm hfm]
  have hcello : (hupd s.heap oId (freshObj oId desc)) oId =
      freshObj oId desc := by
    simp [hupd]
  have hcell : ∀ x, x ≠ oId → (hupd s.heap oId (freshObj oId desc)) x = s.heap x := by
    intro x hx
    simp [hupd, hx]
  have hgn : get_next { s with heap := hupd s.heap oId (freshObj oId desc) } = get_next s := by
    show (hupd s.heap oId _ s.reg.meta).next = (s.heap s.reg.meta).next
    rw [hcellm]
  have hpmem : get_next s ∈ body ++ [o] :=
    chainTo_entry_mem s.heap s.reg.meta (get_next s) (body ++ [o]) (by simp) hP
  have inv1 : RingInv { s with heap := hupd s.heap oId (freshObj oId desc) } o body S := by
    refine ⟨?_, ?_, hlnr, ?_, ?_⟩
    · show chainTo _ s.reg.meta (get_next { s with heap := hupd s.heap oId (freshObj oId desc) }) (body ++ [o])
      rw [hgn]
      exact chainTo_congr s.heap _ s.reg.meta (get_next s) (body ++ [o]) hP
        (fun a ha => hcell a (hbne a ha))
    · exact chainTo_congr s.heap _ s.reg.meta s.reg.next_not_root S hSc
        (fun a ha => hcell a (hSne a ha))
    · intro x hx
      show ((hupd s.heap oId (freshObj oId desc)) x).trivial =
        ((hupd s.heap oId (freshObj oId desc)) o).trivial
      rw [hcell x (hbne x (List.mem_append.2 (Or.inl hx))),
        hcell o (hbne o (List.mem_append.2 (Or.inr (by simp))))]
      exact htb x hx
    · intro x hx
      show ((hupd s.heap oId (freshObj oId desc)) x).trivial ≠
        ((hupd s.heap oId (freshObj oId desc)) o).trivial
      rw [hcell x (hSne x hx),
        hcell o (hbne o (List.mem_append.2 (Or.inr (by simp))))]
      exact hts x hx
  have hseg : chainSeg (hupd s.heap oId (freshObj oId desc)) s.reg.meta oId [oId] oId := by
    refine ⟨rfl, hfm, ?_⟩
    rw [hcello]
    rfl
  have key := append_splice { s with heap := hupd s.heap oId (freshObj oId desc) } o body S [oId] oId oId oId inv1
    (by simp) rfl rfl hseg (by simp)
    (by
      intro a ha
      have ha' : a = oId := by simpa using ha
      subst ha'
      intro hmem
      rcases List.mem_append.1 hmem with h1 | h1
      · exact hfb h1
      · rcases List.mem_cons.1 h1 with h2 | h2
        · exact hfo h2
        · exact hfS h2)
    (fun a ha => by rw [show a = oId from by simpa using ha])
  have htrivo : ((hupd s.heap oId (freshObj oId desc)) oId).trivial = desc.trivial := by
    rw [hcello]
    rfl
  have htrivp : ((hupd s.heap oId (freshObj oId desc)) (get_next s)).trivial = (s.heap o).trivial := by
    rw [hcell (get_next s) (hbne (get_next s) hpmem)]
    exact RingInv_head_trivial s o body S ⟨hP, hSc, hlnr, htb, hts⟩
  constructor
  · intro hcond
    have hres := key.1 (by rw [htrivo, hgn, htrivp]; exact hcond)
    exact RingInv_set_cur _ o (oId :: body) S _ hres
  · intro hcond
    have hres := key.2 (by rw [htrivo, hgn, htrivp]; exact hcond)
    exact RingInv_set_cur _ o body (oId :: S) _ hres

theorem chainTo_head (h : Heap) (m x : Nat) (l : List Nat)
    (hl : l ≠ []) (hc : chainTo h m x l) : l.head? = some x := by
  cases l with
  | nil => exact absurd rfl hl
  | cons a t =>
    obtain ⟨hx, _, _⟩ := hc
    rw [hx]
    rfl

theorem append_heap_outside (s : RState) (hd tl x : Nat)
    (hx1 : x ≠ tl) (hx2 : x ≠ s.reg.meta) :
    (append s hd tl).heap x = s.heap x := by
  simp only [append]
  split
  · simp [set_next, set_next_of, init_next, hupd, hx1, hx2]
  · split
    · simp [init_next, hupd, hx1]
    · simp [init_next, hupd, hx1]

theorem append_reg_meta (s : RState) (hd tl : Nat) :
    (append s hd tl).reg.meta = s.reg.meta := by
  simp only [append]
  split
  · rfl
  · split
    · rfl
    · rfl

theorem bool_eq_not_of_ne {a b : Bool} (h : ¬ a = b) : a = !b := by
  cases a <;> cases b <;> simp_all

theorem merge_internal_eq (s : RState) (o : Nat) (other : Region)
    (h1 : (s.heap other.meta).next ≠ other.meta) :
    merge_internal s o other =
      (let s1 := append s ((s.heap other.meta).next) o
       let s2 := if other.next_not_root ≠ other.meta
                 then append s1 other.next_not_root other.last_not_root else s1
       { s2 with reg := { s2.reg with
           current_memory_used := s2.reg.current_memory_used + other.current_memory_used
           previous_memory_used := size_to_sizeclass
             (sizeclass_to_size other.previous_memory_used +
              sizeclass_to_size other.previous_memory_used) } }) := by
  simp only [merge_internal]
  rw [if_pos h1]

/-- `RegionTrace::merge_internal` splices the donor's primary ring (its
iso demoted to a plain member) into the recipient ring whose triviality
matches the donor iso, and the donor's secondary ring into the other
one, preserving the partition. -/
theorem merge_internal_partition (s : RState) (oR : Nat) (bodyR SR : List Nat)
    (oD : Nat) (other : Region) (bodyD SD : List Nat)
    (inv : RingInv s oR bodyR SR)
    (hDP : chainTo s.heap other.meta ((s.heap other.meta).next) (bodyD ++ [oD]))
    (hDS : chainTo s.heap other.meta other.next_not_root SD)
    (hDlnr : other.last_not_root = SD.getLast?.getD other.meta)
    (hDtb : ∀ x ∈ bodyD, (s.heap x).trivial = (s.heap oD).trivial)
    (hDts : ∀ x ∈ SD, (s.heap x).trivial ≠ (s.heap oD).trivial)
    (hndD : ((bodyD ++ [oD]) ++ SD).Nodup)
    (hdisjD : ∀ a ∈ (bodyD ++ [oD]) ++ SD, a ∉ bodyR ++ oR :: SR)
    (hmetaD : ∀ a ∈ (bodyD ++ [oD]) ++ SD, a ≠ s.reg.meta) :
    ((s.heap oD).trivial = (s.heap oR).trivial →
      RingInv (merge_internal s oD other) oR ((bodyD ++ [oD]) ++ bodyR) (SD ++ SR)) ∧
    (¬ (s.heap oD).trivial = (s.heap oR).trivial →
      RingInv (merge_internal s oD other) oR (SD ++ bodyR) ((bodyD ++ [oD]) ++ SR)) := by
  obtain ⟨hPR, hSR, hlnrR, htbR, htsR⟩ := inv
  have hmem1 : (s.heap other.meta).next ∈ bodyD ++ [oD] :=
    chainTo_entry_mem s.heap other.meta _ (bodyD ++ [oD]) (by simp) hDP
  have hg1 : (s.heap other.meta).next ≠ other.meta :=
    chainTo_ne_meta s.heap other.meta _ (bodyD ++ [oD]) hDP _ hmem1
  have htD : ∀ a ∈ bodyD ++ [oD], (s.heap a).trivial = (s.heap oD).trivial := by
    intro a ha
    rcases List.mem_append.1 ha with h1 | h1
    · exact hDtb a h1
    · rw [show a = oD from by simpa using h1]
  have hhd1triv : (s.heap ((s.heap other.meta).next)).trivial = (s.heap oD).trivial :=
    htD _ hmem1
  have hheadR : (s.heap (get_next s)).trivial = (s.heap oR).trivial :=
    RingInv_head_trivial s oR bodyR SR ⟨hPR, hSR, hlnrR, htbR, htsR⟩
  have key1 := append_splice s oR bodyR SR (bodyD ++ [oD]) ((s.heap other.meta).next) oD
    other.meta ⟨hPR, hSR, hlnrR, htbR, htsR⟩ (by simp)
    (chainTo_head s.heap other.meta _ (bodyD ++ [oD]) (by simp) hDP)
    (by rw [List.getLast?_append_of_ne_nil bodyD (by simp)]; rfl)
    (chainSeg_change_meta s.heap other.meta s.reg.meta (bodyD ++ [oD]) _ other.meta
      ((chainTo_iff_seg s.heap other.meta (bodyD ++ [oD]) _).1 hDP)
      (fun a ha => hmetaD a (List.mem_append.2 (Or.inl ha))))
    (List.nodup_append.1 hndD).1
    (fun a ha => hdisjD a (List.mem_append.2 (Or.inl ha)))
    (fun a ha => (htD a ha).trans hhd1triv.symm)
  have hoRne : oR ≠ oD := by
    intro he
    exact hdisjD oD (List.mem_append.2 (Or.inl (List.mem_append.2 (Or.inr (by simp)))))
      (List.mem_append.2 (Or.inr (List.mem_cons.2 (Or.inl he.symm))))
  have hoRm : oR ≠ s.reg.meta :=
    chainTo_ne_meta s.heap s.reg.meta (get_next s) (bodyR ++ [oR]) hPR oR
      (List.mem_append.2 (Or.inr (by simp)))
  cases SD with
  | nil =>
    have hg2 : ¬ other.next_not_root ≠ other.meta := by
      have hnn : other.next_not_root = other.meta := hDS
      exact fun hh => hh hnn
    have hmg : merge_internal s oD other =
        { append s ((s.heap other.meta).next) oD with
          reg := { (append s ((s.heap other.meta).next) oD).reg with
            current_memory_used :=
              (append s ((s.heap other.meta).next) oD).reg.current_memory_used +
                other.current_memory_used
            previous_memory_used := size_to_sizeclass
              (sizeclass_to_size other.previous_memory_used +
               sizeclass_to_size other.previous_memory_used) } } := by
      rw [merge_internal_eq s oD other hg1]
      show (let s2 := if other.next_not_root ≠ other.meta
              then append (append s ((s.heap other.meta).next) oD) other.next_not_root
                other.last_not_root
              else append s ((s.heap other.meta).next) oD
            { s2 with reg := { s2.reg with
                current_memory_used := s2.reg.current_memory_used + other.current_memory_used
                previous_memory_used := size_to_sizeclass
                  (sizeclass_to_size other.previous_memory_used +
                   sizeclass_to_size other.previous_memory_used) } }) = _
      rw [if_neg hg2]
    rw [hmg]
    constructor
    · intro hTT
      exact RingInv_set_counters _ oR ((bodyD ++ [oD]) ++ bodyR) SR _ _
        (key1.1 (by rw [hhd1triv, hheadR]; exact hTT))
    · intro hTT
      exact RingInv_set_counters _ oR bodyR ((bodyD ++ [oD]) ++ SR) _ _
        (key1.2 (by rw [hhd1triv, hheadR]; exact hTT))
  | cons a2 t2 =>
    have hmem2 : other.next_not_root ∈ a2 :: t2 :=
      chainTo_entry_mem s.heap other.meta _ (a2 :: t2) (by simp) hDS
    have hg2 : other.next_not_root ≠ other.meta :=
      chainTo_ne_meta s.heap other.meta _ (a2 :: t2) hDS _ hmem2
    have hmg : merge_internal s oD other =
        { append (append s ((s.heap other.meta).next) oD) other.next_not_root
            other.last_not_root with
          reg := { (append (append s ((s.heap other.meta).next) oD) other.next_not_root
              other.last_not_root).reg with
            current_memory_used :=
              (append (append s ((s.heap other.meta).next) oD) other.next_not_root
                other.last_not_root).reg.current_memory_used + other.current_memory_used
            previous_memory_used := size_to_sizeclass
              (sizeclass_to_size other.previous_memory_used +
               sizeclass_to_size other.previous_memory_used) } } := by
      rw [merge_internal_eq s oD other hg1]
      show (let s2 := if other.next_not_root ≠ other.meta
              then append (append s ((s.heap other.meta).next) oD) other.next_not_root
                other.last_not_root
              else append s ((s.heap other.meta).next) oD
            { s2 with reg := { s2.reg with
                current_memory_used := s2.reg.current_memory_used + other.current_memory_used
                previous_memory_used := size_to_sizeclass
                  (sizeclass_to_size other.previous_memory_used +
                   sizeclass_to_size other.previous_memory_used) } }) = _
      rw [if_pos hg2]
    rw [hmg]
    have hSDoD : ∀ a ∈ a2 :: t2, a ≠ oD := by
      intro a ha he
      exact (List.disjoint_of_nodup_append hndD)
        (List.mem_append.2 (Or.inr (by simp [he]))) ha
    have hSDcell : ∀ a ∈ a2 :: t2,
        (append s ((s.heap other.meta).next) oD).heap a = s.heap a := by
      intro a ha
      exact append_heap_outside s _ oD a (hSDoD a ha)
        (hmetaD a (List.mem_append.2 (Or.inr ha)))
    have hSDtriv : ∀ a ∈ a2 :: t2, (s.heap a).trivial = !(s.heap oD).trivial :=
      fun a ha => bool_eq_not_of_ne (hDts a ha)
    have hlast : (a2 :: t2).getLast? = some other.last_not_root := by
      obtain ⟨v, hv⟩ := getLast?_cons_some a2 t2
      rw [hv] at hDlnr
      have hlv : other.last_not_root = v := hDlnr
      rw [hv, hlv]
    have hseg2 : chainSeg (append s ((s.heap other.meta).next) oD).heap
        (append s ((s.heap other.meta).next) oD).reg.meta other.next_not_root
        (a2 :: t2) other.meta := by
      rw [append_reg_meta]
      refine chainSeg_congr s.heap _ s.reg.meta (a2 :: t2) other.next_not_root other.meta
        ?_ hSDcell
      exact chainSeg_change_meta s.heap other.meta s.reg.meta (a2 :: t2) _ other.meta
        ((chainTo_iff_seg s.heap other.meta (a2 :: t2) _).1 hDS)
        (fun a ha => hmetaD a (List.mem_append.2 (Or.inr ha)))
    have hhd2 : (a2 :: t2).head? = some other.next_not_root :=
      chainTo_head s.heap other.meta _ (a2 :: t2) (by simp) hDS
    have hnd2 : (a2 :: t2).Nodup := (List.nodup_append.1 hndD).2.1
    have htriv2 : ∀ a ∈ a2 :: t2,
        ((append s ((s.heap other.meta).next) oD).heap a).trivial =
        ((append s ((s.heap other.meta).next) oD).heap other.next_not_root).trivial := by
      intro a ha
      rw [hSDcell a ha, hSDcell other.next_not_root hmem2, hSDtriv a ha,
        hSDtriv other.next_not_root hmem2]
    have hnnrtriv : ((append s ((s.heap other.meta).next) oD).heap
        other.next_not_root).trivial = !(s.heap oD).trivial := by
      rw [hSDcell other.next_not_root hmem2, hSDtriv other.next_not_root hmem2]
    have hoRcell : (append s ((s.heap other.meta).next) oD).heap oR = s.heap oR :=
      append_heap_outside s _ oD oR hoRne hoRm
    constructor
    · intro hTT
      have inv1 : RingInv (append s ((s.heap other.meta).next) oD) oR
          ((bodyD ++ [oD]) ++ bodyR) SR :=
        key1.1 (by rw [hhd1triv, hheadR]; exact hTT)
      have hhead1 : ((append s ((s.heap other.meta).next) oD).heap
          (get_next (append s ((s.heap other.meta).next) oD))).trivial =
          (s.heap oR).trivial := by
        rw [RingInv_head_trivial _ oR ((bodyD ++ [oD]) ++ bodyR) SR inv1, hoRcell]
      have key2 := append_splice (append s ((s.heap other.meta).next) oD) oR
        ((bodyD ++ [oD]) ++ bodyR) SR (a2 :: t2) other.next_not_root
        other.last_not_root other.meta inv1 (by simp) hhd2 hlast hseg2 hnd2
        (by
          intro a ha hmem
          rcases List.mem_append.1 hmem with h1 | h1
          · rcases List.mem_append.1 h1 with h2 | h2
            · exact (List.disjoint_of_nodup_append hndD) h2 ha
            · exact hdisjD a (List.mem_append.2 (Or.inr ha))
                (List.mem_append.2 (Or.inl h2))
          · rcases List.mem_cons.1 h1 with h2 | h2
            · exact hdisjD a (List.mem_append.2 (Or.inr ha))
                (List.mem_append.2 (Or.inr (List.mem_cons.2 (Or.inl h2))))
            · exact hdisjD a (List.mem_append.2 (Or.inr ha))
                (List.mem_append.2 (Or.inr (List.mem_cons.2 (Or.inr h2)))))
        htriv2
      refine RingInv_set_counters _ oR ((bodyD ++ [oD]) ++ bodyR) ((a2 :: t2) ++ SR) _ _
        (key2.2 ?_)
      rw [hnnrtriv, hhead1]
      rw [← hTT]
      cases (s.heap oD).trivial <;> simp
    · intro hTT
      have inv1 : RingInv (append s ((s.heap other.meta).next) oD) oR bodyR
          ((bodyD ++ [oD]) ++ SR) :=
        key1.2 (by rw [hhd1triv, hheadR]; exact hTT)
      have hhead1 : ((append s ((s.heap other.meta).next) oD).heap
          (get_next (append s ((s.heap other.meta).next) oD))).trivial =
          (s.heap oR).trivial := by
        rw [RingInv_head_trivial _ oR bodyR ((bodyD ++ [oD]) ++ SR) inv1, hoRcell]
      have key2 := append_splice (append s ((s.heap other.meta).next) oD) oR
        bodyR ((bodyD ++ [oD]) ++ SR) (a2 :: t2) other.next_not_root
        other.last_not_root other.meta inv1 (by simp) hhd2 hlast hseg2 hnd2
        (by
          intro a ha hmem
          rcases List.mem_append.1 hmem with h1 | h1
          · exact hdisjD a (List.mem_append.2 (Or.inr ha))
              (List.mem_append.2 (Or.inl h1))
          · rcases List.mem_cons.1 h1 with h2 | h2
            · exact hdisjD a (List.mem_append.2 (Or.inr ha))
                (List.mem_append.2 (Or.inr (List.mem_cons.2 (Or.inl h2))))
            · rcases List.mem_append.1 h2 with h3 | h3
              · exact (List.disjoint_of_nodup_append hndD) h3 ha
              · exact hdisjD a (List.mem_append.2 (Or.inr ha))
                  (List.mem_append.2 (Or.inr (List.mem_cons.2 (Or.inr h3)))))
        htriv2
      refine RingInv_set_counters _ oR ((a2 :: t2) ++ bodyR) ((bodyD ++ [oD]) ++ SR) _ _
        (key2.1 ?_)
      rw [hnnrtriv, hhead1]
      exact (bool_eq_not_of_ne (fun he => hTT he.symm)).symm

/-- The ring-swap block of `swap_root_internal` (taken when the old and
new roots differ in triviality): the primary entry and the secondary
anchor are exchanged, `last_not_root` becomes the old root, and the old
root is relinked (demoted) to point at the metadata. -/
def swapBlock (s : RState) (oroot : Nat) : RState :=
  init_next { set_next s s.reg.next_not_root with
    reg := { s.reg with next_not_root := get_next s, last_not_root := oroot } }
    oroot s.reg.meta

theorem swap_root_internal_same_eq (s : RState) (o nroot : Nat)
    (hmeq : ¬ (s.heap o).trivial ≠ (s.heap nroot).trivial)
    (hon : o ≠ nroot) :
    swap_root_internal s o nroot =
      set_region (init_iso (set_next (init_next s o (get_next s)) ((s.heap nroot).next))
        nroot) nroot s.reg.meta := by
  simp only [swap_root_internal]
  rw [if_neg hmeq]
  rw [if_pos (show ((s, o)).2 ≠ nroot from hon)]
  rfl

theorem swap_root_internal_diff_eq (s : RState) (o nroot : Nat)
    (hne : (s.heap o).trivial ≠ (s.heap nroot).trivial)
    (hln : s.reg.last_not_root ≠ nroot) :
    swap_root_internal s o nroot =
      set_region (init_iso (set_next (init_next (swapBlock s o) s.reg.last_not_root
        (get_next (swapBlock s o))) (((swapBlock s o).heap nroot).next)) nroot) nroot
        s.reg.meta := by
  simp only [swap_root_internal, swapBlock]
  rw [if_pos hne]
  split
  · rfl
  · next hcond => exact absurd hln hcond

theorem swap_root_internal_diff_eq2 (s : RState) (o nroot : Nat)
    (hne : (s.heap o).trivial ≠ (s.heap nroot).trivial)
    (hln : ¬ s.reg.last_not_root ≠ nroot) :
    swap_root_internal s o nroot =
      set_region (init_iso (swapBlock s o) nroot) nroot s.reg.meta := by
  simp only [swap_root_internal, swapBlock]
  rw [if_pos hne]
  split
  · next hcond => exact absurd hcond hln
  · rfl

/-- `swap_root_internal` for a new root of the same triviality as the
old one: the rings are not swapped, the new root becomes the primary
ring's terminal iso, and the partition is preserved. -/
theorem swap_root_same_partition (s : RState) (o nroot : Nat)
    (body S pre post : List Nat)
    (inv : RingInv s o body S)
    (hnd : ((body ++ [o]) ++ S).Nodup)
    (hsplit : body = pre ++ nroot :: post)
    (htq : (s.heap nroot).trivial = (s.heap o).trivial) :
    RingInv (swap_root_internal s o nroot) nroot ((post ++ [o]) ++ pre) S := by
  obtain ⟨hP, hSc, hlnr, htb, hts⟩ := inv
  subst hsplit
  have hnd1 : ((pre ++ nroot :: post) ++ [o]).Nodup := (List.nodup_append.1 hnd).1
  have hdisjBS := (List.nodup_append.1 hnd).2.2
  have hdisjBo := List.disjoint_of_nodup_append hnd1
  have hndB : (pre ++ nroot :: post).Nodup := (List.nodup_append.1 hnd1).1
  have hnrB : nroot ∈ pre ++ nroot :: post := List.mem_append.2 (Or.inr (by simp))
  have hon : o ≠ nroot := fun he => hdisjBo hnrB (by simp [he.symm])
  have hnm : nroot ≠ s.reg.meta :=
    chainTo_ne_meta s.heap s.reg.meta (get_next s) _ hP nroot
      (List.mem_append.2 (Or.inl hnrB))
  have hom : o ≠ s.reg.meta :=
    chainTo_ne_meta s.heap s.reg.meta (get_next s) _ hP o
      (List.mem_append.2 (Or.inr (by simp)))
  have hnrpre : nroot ∉ pre := by
    intro hmem
    exact (List.disjoint_of_nodup_append hndB) hmem (by simp)
  have hnrpost : nroot ∉ post := by
    have := (List.nodup_append.1 hndB).2.1
    rw [List.nodup_cons] at this
    exact this.1
  have hdisjPP : ∀ a ∈ pre, a ∉ nroot :: post := fun a ha =>
    (List.disjoint_of_nodup_append hndB) ha
  have hbne : ∀ a ∈ pre ++ nroot :: post, a ≠ o := fun a ha he =>
    hdisjBo (he ▸ ha) (by simp)
  have hbnm : ∀ a ∈ pre ++ nroot :: post, a ≠ s.reg.meta := fun a ha =>
    chainTo_ne_meta s.heap s.reg.meta (get_next s) _ hP a (List.mem_append.2 (Or.inl ha))
  have hPseg := (chainTo_iff_seg s.heap s.reg.meta _ (get_next s)).1 hP
  rw [show (pre ++ nroot :: post) ++ [o] = pre ++ ([nroot] ++ (post ++ [o]))
    from by simp] at hPseg
  obtain ⟨z1, hpre, hrest⟩ :=
    (chainSeg_append s.heap s.reg.meta pre (get_next s) s.reg.meta _).1 hPseg
  obtain ⟨z2, hnrseg, hposto⟩ :=
    (chainSeg_append s.heap s.reg.meta [nroot] z1 s.reg.meta _).1 hrest
  obtain ⟨hz1, _, hnrnext⟩ := hnrseg
  subst hz1
  have hnrn : (s.heap z1).next = z2 := hnrnext
  obtain ⟨z3, hpost, hoseg⟩ :=
    (chainSeg_append s.heap s.reg.meta post z2 s.reg.meta [o]).1 hposto
  obtain ⟨hz3, _, _⟩ := hoseg
  rw [hz3] at hpost
  rw [← hnrn] at hpost
  rw [swap_root_internal_same_eq s o z1 (fun hh => hh htq.symm) hon]
  have cellF_out : ∀ x, x ≠ o → x ≠ s.reg.meta → x ≠ z1 →
      (set_region (init_iso (set_next (init_next s o (get_next s)) ((s.heap z1).next))
        z1) z1 s.reg.meta).heap x = s.heap x := by
    intro x h1 h2 h3
    simp [set_region, set_next_of, init_iso, set_next, init_next, hupd, h1, h2, h3]
  have cellF_o : (set_region (init_iso (set_next (init_next s o (get_next s))
      ((s.heap z1).next)) z1) z1 s.reg.meta).heap o =
      { s.heap o with next := get_next s, cls := RegionMD.UNMARKED } := by
    simp [set_region, set_next_of, init_iso, set_next, init_next, hupd, hon, hom]
  have cellF_m : (set_region (init_iso (set_next (init_next s o (get_next s))
      ((s.heap z1).next)) z1) z1 s.reg.meta).heap s.reg.meta =
      { s.heap s.reg.meta with next := (s.heap z1).next } := by
    simp [set_region, set_next_of, init_iso, set_next, init_next, hupd,
      Ne.symm hom, Ne.symm hnm]
  have cellF_n : (set_region (init_iso (set_next (init_next s o (get_next s))
      ((s.heap z1).next)) z1) z1 s.reg.meta).heap z1 =
      { s.heap z1 with next := s.reg.meta, cls := RegionMD.ISO } := by
    simp [set_region, set_next_of, init_iso, set_next, init_next, hupd,
      Ne.symm hon, hnm]
  have trivF : ∀ x, ((set_region (init_iso (set_next (init_next s o (get_next s))
      ((s.heap z1).next)) z1) z1 s.reg.meta).heap x).trivial = (s.heap x).trivial := by
    intro x
    by_cases h1 : x = o
    · subst h1
      rw [cellF_o]
    · by_cases h2 : x = s.reg.meta
      · subst h2
        rw [cellF_m]
      · by_cases h3 : x = z1
        · subst h3
          rw [cellF_n]
        · rw [cellF_out x h1 h2 h3]
  refine ⟨?_, ?_, ?_, ?_, ?_⟩
  · show chainTo (set_region (init_iso (set_next (init_next s o (get_next s))
      ((s.heap z1).next)) z1) z1 s.reg.meta).heap s.reg.meta
      (((set_region (init_iso (set_next (init_next s o (get_next s))
        ((s.heap z1).next)) z1) z1 s.reg.meta).heap s.reg.meta).next)
      (((post ++ [o]) ++ pre) ++ [z1])
    rw [cellF_m]
    show chainTo _ s.reg.meta ((s.heap z1).next) (((post ++ [o]) ++ pre) ++ [z1])
    rw [chainTo_iff_seg,
      show ((post ++ [o]) ++ pre) ++ [z1] = post ++ ([o] ++ (pre ++ [z1])) from by simp]
    refine (chainSeg_append _ _ _ _ _ _).2 ⟨o, ?_, ?_⟩
    · refine chainSeg_congr s.heap _ s.reg.meta post ((s.heap z1).next) o hpost ?_
      intro a ha
      exact cellF_out a (hbne a (List.mem_append.2 (Or.inr (by simp [ha]))))
        (hbnm a (List.mem_append.2 (Or.inr (by simp [ha]))))
        (fun he => hnrpost (he ▸ ha))
    · refine (chainSeg_append _ _ _ _ _ _).2 ⟨get_next s, ?_, ?_⟩
      · exact ⟨rfl, hom, by rw [cellF_o]; rfl⟩
      · refine (chainSeg_append _ _ _ _ _ _).2 ⟨z1, ?_, ?_⟩
        · refine chainSeg_congr s.heap _ s.reg.meta pre (get_next s) z1 hpre ?_
          intro a ha
          exact cellF_out a (hbne a (List.mem_append.2 (Or.inl ha)))
            (hbnm a (List.mem_append.2 (Or.inl ha)))
            (fun he => hnrpre (he ▸ ha))
        · exact ⟨rfl, hnm, by rw [cellF_n]; rfl⟩
  · show chainTo (set_region (init_iso (set_next (init_next s o (get_next s))
      ((s.heap z1).next)) z1) z1 s.reg.meta).heap s.reg.meta s.reg.next_not_root S
    refine chainTo_congr s.heap _ s.reg.meta s.reg.next_not_root S hSc ?_
    intro a ha
    refine cellF_out a ?_ ?_ ?_
    · intro he
      exact hdisjBS (List.mem_append.2 (Or.inr (by simp [he.symm]))) ha
    · exact chainTo_ne_meta s.heap s.reg.meta s.reg.next_not_root S hSc a ha
    · intro he
      exact hdisjBS (List.mem_append.2 (Or.inl hnrB)) (he ▸ ha)
  · show s.reg.last_not_root = S.getLast?.getD s.reg.meta
    exact hlnr
  · intro x hx
    rw [trivF x, trivF z1, htq]
    rcases List.mem_append.1 hx with h1 | h1
    · rcases List.mem_append.1 h1 with h2 | h2
      · exact htb x (List.mem_append.2 (Or.inr (by simp [h2])))
      · rw [show x = o from by simpa using h2]
    · exact htb x (List.mem_append.2 (Or.inl h1))
  · intro x hx
    rw [trivF x, trivF z1, htq]
    exact hts x hx

/-- `swap_root_internal` for a new root of the opposite triviality: the
two rings swap roles, the old secondary ring (minus the new root)
becomes the primary ring terminated by the new root, the old primary
ring plus the demoted old root becomes the secondary ring, and the
partition is preserved. -/
theorem swap_root_diff_partition (s : RState) (o nroot : Nat)
    (body S pre post : List Nat)
    (inv : RingInv s o body S)
    (hnd : ((body ++ [o]) ++ S).Nodup)
    (hsplit : S = pre ++ nroot :: post)
    (htq : ¬ (s.heap nroot).trivial = (s.heap o).trivial) :
    RingInv (swap_root_internal s o nroot) nroot (post ++ pre) (body ++ [o]) := by
  obtain ⟨hP, hSc, hlnr, htb, hts⟩ := inv
  subst hsplit
  have hnd1 : (body ++ [o]).Nodup := (List.nodup_append.1 hnd).1
  have hdisjBS := (List.nodup_append.1 hnd).2.2
  have hndS : (pre ++ nroot :: post).Nodup := (List.nodup_append.1 hnd).2.1
  have hnrS : nroot ∈ pre ++ nroot :: post := by simp
  have hon : o ≠ nroot := fun he =>
    hdisjBS (show o ∈ body ++ [o] from by simp)
      (show o ∈ pre ++ nroot :: post from by simp [he])
  have hnm : nroot ≠ s.reg.meta :=
    chainTo_ne_meta s.heap s.reg.meta s.reg.next_not_root _ hSc nroot hnrS
  have hom : o ≠ s.reg.meta :=
    chainTo_ne_meta s.heap s.reg.meta (get_next s) _ hP o
      (List.mem_append.2 (Or.inr (by simp)))
  have hnrpre : nroot ∉ pre := by
    intro hmem
    exact (List.disjoint_of_nodup_append hndS) hmem (by simp)
  have hnrpost : nroot ∉ post := by
    have h2 := (List.nodup_append.1 hndS).2.1
    rw [List.nodup_cons] at h2
    exact h2.1
  have hSnm : ∀ a ∈ pre ++ nroot :: post, a ≠ s.reg.meta := fun a ha =>
    chainTo_ne_meta s.heap s.reg.meta s.reg.next_not_root _ hSc a ha
  have hSno : ∀ a ∈ pre ++ nroot :: post, a ≠ o := by
    intro a ha he
    exact hdisjBS (List.mem_append.2 (Or.inr (by simp [he.symm]))) ha
  have hBnm : ∀ a ∈ body ++ [o], a ≠ s.reg.meta := fun a ha =>
    chainTo_ne_meta s.heap s.reg.meta (get_next s) _ hP a ha
  have hBnS : ∀ a ∈ body ++ [o], a ∉ pre ++ nroot :: post := fun a ha => hdisjBS ha
  have hSseg := (chainTo_iff_seg s.heap s.reg.meta _ s.reg.next_not_root).1 hSc
  rw [show pre ++ nroot :: post = pre ++ ([nroot] ++ post) from by simp] at hSseg
  obtain ⟨z1, hpre, hrest⟩ :=
    (chainSeg_append s.heap s.reg.meta pre s.reg.next_not_root s.reg.meta _).1 hSseg
  obtain ⟨z2, hnrseg, hpost⟩ :=
    (chainSeg_append s.heap s.reg.meta [nroot] z1 s.reg.meta post).1 hrest
  obtain ⟨hz1, _, hnrnext⟩ := hnrseg
  subst hz1
  have hnrn : (s.heap z1).next = z2 := hnrnext
  rw [← hnrn] at hpost
  have hPseg := (chainTo_iff_seg s.heap s.reg.meta _ (get_next s)).1 hP
  obtain ⟨z3, hbody, hoseg⟩ :=
    (chainSeg_append s.heap s.reg.meta body (get_next s) s.reg.meta [o]).1 hPseg
  obtain ⟨hz3, _, _⟩ := hoseg
  rw [hz3] at hbody
  have hB_out : ∀ x, x ≠ o → x ≠ s.reg.meta → (swapBlock s o).heap x = s.heap x := by
    intro x h1 h2
    simp [swapBlock, init_next, set_next, set_next_of, hupd, h1, h2]
  have hB_m : (swapBlock s o).heap s.reg.meta =
      { s.heap s.reg.meta with next := s.reg.next_not_root } := by
    simp [swapBlock, init_next, set_next, set_next_of, hupd, Ne.symm hom]
  have hswcond : (s.heap o).trivial ≠ (s.heap z1).trivial := fun he => htq he.symm
  have hSnotriv : ∀ a ∈ pre ++ z1 :: post, (s.heap a).trivial = !(s.heap o).trivial :=
    fun a ha => bool_eq_not_of_ne (hts a ha)
  have hbodytriv : ∀ x ∈ body ++ [o], (s.heap x).trivial = (s.heap o).trivial := by
    intro x hx
    rcases List.mem_append.1 hx with h1 | h1
    · exact htb x h1
    · rw [show x = o from by simpa using h1]
  cases post with
  | nil =>
    have hlnr2 : s.reg.last_not_root = z1 := by
      rw [hlnr, List.getLast?_append_of_ne_nil pre (by simp)]
      rfl
    rw [swap_root_internal_diff_eq2 s o z1 hswcond (fun hh => hh hlnr2)]
    have cellF_out : ∀ x, x ≠ o → x ≠ s.reg.meta → x ≠ z1 →
        (set_region (init_iso (swapBlock s o) z1) z1 s.reg.meta).heap x = s.heap x := by
      intro x h1 h2 h3
      simp [set_region, set_next_of, init_iso, swapBlock, init_next, set_next,
        hupd, h1, h2, h3]
    have cellF_o : (set_region (init_iso (swapBlock s o) z1) z1 s.reg.meta).heap o =
        { s.heap o with next := s.reg.meta, cls := RegionMD.UNMARKED } := by
      simp [set_region, set_next_of, init_iso, swapBlock, init_next, set_next,
        hupd, hon, hom]
    have cellF_m : (set_region (init_iso (swapBlock s o) z1) z1 s.reg.meta).heap
        s.reg.meta = { s.heap s.reg.meta with next := s.reg.next_not_root } := by
      simp [set_region, set_next_of, init_iso, swapBlock, init_next, set_next,
        hupd, Ne.symm hom, Ne.symm hnm]
    have cellF_n : (set_region (init_iso (swapBlock s o) z1) z1 s.reg.meta).heap z1 =
        { s.heap z1 with next := s.reg.meta, cls := RegionMD.ISO } := by
      simp [set_region, set_next_of, init_iso, swapBlock, init_next, set_next,
        hupd, hnm, Ne.symm hon]
    have trivF : ∀ x, ((set_region (init_iso (swapBlock s o) z1) z1
        s.reg.meta).heap x).trivial = (s.heap x).trivial := by
      intro x
      by_cases h1 : x = o
      · subst h1
        rw [cellF_o]
      · by_cases h2 : x = s.reg.meta
        · subst h2
          rw [cellF_m]
        · by_cases h3 : x = z1
          · subst h3
            rw [cellF_n]
          · rw [cellF_out x h1 h2 h3]
    refine ⟨?_, ?_, ?_, ?_, ?_⟩
    · show chainTo (set_region (init_iso (swapBlock s o) z1) z1 s.reg.meta).heap
        s.reg.meta (((set_region (init_iso (swapBlock s o) z1) z1
          s.reg.meta).heap s.reg.meta).next) ((([] : List Nat) ++ pre) ++ [z1])
      rw [cellF_m]
      show chainTo _ s.reg.meta s.reg.next_not_root ((([] : List Nat) ++ pre) ++ [z1])
      rw [chainTo_iff_seg, show (([] : List Nat) ++ pre) ++ [z1] = pre ++ [z1]
        from by simp]
      refine (chainSeg_append _ _ _ _ _ _).2 ⟨z1, ?_, ?_⟩
      · refine chainSeg_congr s.heap _ s.reg.meta pre s.reg.next_not_root z1 hpre ?_
        intro a ha
        exact cellF_out a (hSno a (List.mem_append.2 (Or.inl ha)))
          (hSnm a (List.mem_append.2 (Or.inl ha)))
          (fun he => hnrpre (he ▸ ha))
      · exact ⟨rfl, hnm, by rw [cellF_n]; rfl⟩
    · show chainTo (set_region (init_iso (swapBlock s o) z1) z1 s.reg.meta).heap
        s.reg.meta (get_next s) (body ++ [o])
      rw [chainTo_iff_seg]
      refine (chainSeg_append _ _ _ _ _ _).2 ⟨o, ?_, ?_⟩
      · refine chainSeg_congr s.heap _ s.reg.meta body (get_next s) o hbody ?_
        intro a ha
        refine cellF_out a ?_ (hBnm a (List.mem_append.2 (Or.inl ha))) ?_
        · intro he
          exact (List.disjoint_of_nodup_append hnd1) (he ▸ ha) (by simp)
        · intro he
          exact hBnS a (List.mem_append.2 (Or.inl ha)) (he ▸ hnrS)
      · exact ⟨rfl, hom, by rw [cellF_o]; rfl⟩
    · show o = (body ++ [o]).getLast?.getD s.reg.meta
      rw [List.getLast?_append_of_ne_nil body (by simp)]
      rfl
    · intro x hx
      rw [trivF x, trivF z1, hSnotriv z1 hnrS]
      rcases List.mem_append.1 hx with h1 | h1
      · exact absurd h1 (List.not_mem_nil x)
      · exact hSnotriv x (List.mem_append.2 (Or.inl h1))
    · intro x hx
      rw [trivF x, trivF z1, hSnotriv z1 hnrS, hbodytriv x hx]
      cases (s.heap o).trivial <;> simp
  | cons p2 rest =>
    obtain ⟨v, hv⟩ := getLast?_cons_some p2 rest
    have hvmem : v ∈ p2 :: rest := getLast?_mem (p2 :: rest) v hv
    have hvS : v ∈ pre ++ z1 :: p2 :: rest :=
      List.mem_append.2 (Or.inr (List.mem_cons.2 (Or.inr hvmem)))
    have hlnrv : s.reg.last_not_root = v := by
      rw [hlnr, List.getLast?_append_of_ne_nil pre (by simp),
        List.getLast?_cons_cons, hv]
      rfl
    have hvnr : v ≠ z1 := fun he => hnrpost (he ▸ hvmem)
    have hov : o ≠ v := fun he => (hSno v hvS) he.symm
    have hvm : v ≠ s.reg.meta := hSnm v hvS
    rw [swap_root_internal_diff_eq s o z1 hswcond (by rw [hlnrv]; exact hvnr)]
    have hgB : get_next (swapBlock s o) = s.reg.next_not_root := by
      show ((swapBlock s o).heap s.reg.meta).next = s.reg.next_not_root
      rw [hB_m]
    have hnB : (swapBlock s o).heap z1 = s.heap z1 := hB_out z1 (Ne.symm hon) hnm
    rw [hgB, hnB, hlnrv]
    have hveq : v = (p2 :: rest).getLast (by simp) := by
      have hx := List.getLast?_eq_getLast (p2 :: rest) (by simp)
      rw [hv] at hx
      exact Option.some.inj hx
    have hdecP : (p2 :: rest).dropLast ++ [v] = p2 :: rest := by
      rw [hveq]
      exact List.dropLast_append_getLast (by simp)
    rw [← hdecP] at hpost
    obtain ⟨w, hpI, hvseg⟩ :=
      (chainSeg_append s.heap s.reg.meta (p2 :: rest).dropLast _ s.reg.meta [v]).1 hpost
    obtain ⟨hw, _, _⟩ := hvseg
    rw [hw] at hpI
    have hndS2 : (z1 :: p2 :: rest).Nodup := (List.nodup_append.1 hndS).2.1
    have hndpost : (p2 :: rest).Nodup := (List.nodup_cons.1 hndS2).2
    have hpIv : ∀ a ∈ (p2 :: rest).dropLast, a ≠ v := by
      have h2 : ((p2 :: rest).dropLast ++ [v]).Nodup := by
        rw [hdecP]
        exact hndpost
      intro a ha he
      exact (List.disjoint_of_nodup_append h2) ha (by simp [he])
    have hpImem : ∀ a ∈ (p2 :: rest).dropLast, a ∈ p2 :: rest := by
      intro a ha
      rw [← hdecP]
      exact List.mem_append.2 (Or.inl ha)
    have hmemSpost : ∀ a ∈ p2 :: rest, a ∈ pre ++ z1 :: p2 :: rest := fun a ha =>
      List.mem_append.2 (Or.inr (List.mem_cons.2 (Or.inr ha)))
    have hmemSpre : ∀ a ∈ pre, a ∈ pre ++ z1 :: p2 :: rest := fun a ha =>
      List.mem_append.2 (Or.inl ha)
    have hprepost : ∀ a ∈ pre, a ∉ z1 :: p2 :: rest := fun a ha =>
      (List.disjoint_of_nodup_append hndS) ha
    have cellF_out : ∀ x, x ≠ o → x ≠ s.reg.meta → x ≠ v → x ≠ z1 →
        (set_region (init_iso (set_next (init_next (swapBlock s o) v
          s.reg.next_not_root) ((s.heap z1).next)) z1) z1 s.reg.meta).heap x =
          s.heap x := by
      intro x h1 h2 h3 h4
      simp [set_region, set_next_of, init_iso, swapBlock, init_next, set_next,
        hupd, h1, h2, h3, h4]
    have cellF_o : (set_region (init_iso (set_next (init_next (swapBlock s o) v
        s.reg.next_not_root) ((s.heap z1).next)) z1) z1 s.reg.meta).heap o =
        { s.heap o with next := s.reg.meta, cls := RegionMD.UNMARKED } := by
      simp [set_region, set_next_of, init_iso, swapBlock, init_next, set_next,
        hupd, hon, hom, hov]
    have cellF_m : (set_region (init_iso (set_next (init_next (swapBlock s o) v
        s.reg.next_not_root) ((s.heap z1).next)) z1) z1 s.reg.meta).heap
        s.reg.meta = { s.heap s.reg.meta with next := (s.heap z1).next } := by
      simp [set_region, set_next_of, init_iso, swapBlock, init_next, set_next,
        hupd, Ne.symm hom, Ne.symm hnm, Ne.symm hvm]
    have cellF_v : (set_region (init_iso (set_next (init_next (swapBlock s o) v
        s.reg.next_not_root) ((s.heap z1).next)) z1) z1 s.reg.meta).heap v =
        { s.heap v with next := s.reg.next_not_root, cls := RegionMD.UNMARKED } := by
      simp [set_region, set_next_of, init_iso, swapBlock, init_next, set_next,
        hupd, Ne.symm hov, hvm, hvnr]
    have cellF_n : (set_region (init_iso (set_next (init_next (swapBlock s o) v
        s.reg.next_not_root) ((s.heap z1).next)) z1) z1 s.reg.meta).heap z1 =
        { s.heap z1 with next := s.reg.meta, cls := RegionMD.ISO } := by
      simp [set_region, set_next_of, init_iso, swapBlock, init_next, set_next,
        hupd, hnm, Ne.symm hon, Ne.symm hvnr]
    have trivF : ∀ x, ((set_region (init_iso (set_next (init_next (swapBlock s o) v
        s.reg.next_not_root) ((s.heap z1).next)) z1) z1 s.reg.meta).heap x).trivial =
        (s.heap x).trivial := by
      intro x
      by_cases h1 : x = o
      · subst h1
        rw [cellF_o]
      · by_cases h2 : x = s.reg.meta
        · subst h2
          rw [cellF_m]
        · by_cases h3 : x = v
          · subst h3
            rw [cellF_v]
          · by_cases h4 : x = z1
            · subst h4
              rw [cellF_n]
            · rw [cellF_out x h1 h2 h3 h4]
    refine ⟨?_, ?_, ?_, ?_, ?_⟩
    · show chainTo (set_region (init_iso (set_next (init_next (swapBlock s o) v
          s.reg.next_not_root) ((s.heap z1).next)) z1) z1 s.reg.meta).heap
        s.reg.meta (((set_region (init_iso (set_next (init_next (swapBlock s o) v
          s.reg.next_not_root) ((s.heap z1).next)) z1) z1 s.reg.meta).heap
          s.reg.meta).next) (((p2 :: rest) ++ pre) ++ [z1])
      rw [cellF_m]
      show chainTo _ s.reg.meta ((s.heap z1).next) (((p2 :: rest) ++ pre) ++ [z1])
      rw [chainTo_iff_seg, show ((p2 :: rest) ++ pre) ++ [z1] =
        (p2 :: rest).dropLast ++ ([v] ++ (pre ++ [z1])) from by rw [← hdecP]; simp]
      refine (chainSeg_append _ _ _ _ _ _).2 ⟨v, ?_, ?_⟩
      · refine chainSeg_congr s.heap _ s.reg.meta (p2 :: rest).dropLast
          ((s.heap z1).next) v hpI ?_
        intro a ha
        exact cellF_out a (hSno a (hmemSpost a (hpImem a ha)))
          (hSnm a (hmemSpost a (hpImem a ha))) (hpIv a ha)
          (fun he => hnrpost (he ▸ hpImem a ha))
      · refine (chainSeg_append _ _ _ _ _ _).2 ⟨s.reg.next_not_root, ?_, ?_⟩
        · exact ⟨rfl, hvm, by rw [cellF_v]; rfl⟩
        · refine (chainSeg_append _ _ _ _ _ _).2 ⟨z1, ?_, ?_⟩
          · refine chainSeg_congr s.heap _ s.reg.meta pre s.reg.next_not_root z1 hpre ?_
            intro a ha
            refine cellF_out a (hSno a (hmemSpre a ha)) (hSnm a (hmemSpre a ha)) ?_ ?_
            · intro he
              exact hprepost a ha (by simp [he, hvmem])
            · intro he
              exact hprepost a ha (by simp [he])
          · exact ⟨rfl, hnm, by rw [cellF_n]; rfl⟩
    · show chainTo (set_region (init_iso (set_next (init_next (swapBlock s o) v
          s.reg.next_not_root) ((s.heap z1).next)) z1) z1 s.reg.meta).heap
        s.reg.meta (get_next s) (body ++ [o])
      rw [chainTo_iff_seg]
      refine (chainSeg_append _ _ _ _ _ _).2 ⟨o, ?_, ?_⟩
      · refine chainSeg_congr s.heap _ s.reg.meta body (get_next s) o hbody ?_
        intro a ha
        refine cellF_out a ?_ (hBnm a (List.mem_append.2 (Or.inl ha))) ?_ ?_
        · intro he
          exact (List.disjoint_of_nodup_append hnd1) (he ▸ ha) (by simp)
        · intro he
          exact hBnS a (List.mem_append.2 (Or.inl ha)) (he ▸ hvS)
        · intro he
          exact hBnS a (List.mem_append.2 (Or.inl ha)) (he ▸ hnrS)
      · exact ⟨rfl, hom, by rw [cellF_o]; rfl⟩
    · show o = (body ++ [o]).getLast?.getD s.reg.meta
      rw [List.getLast?_append_of_ne_nil body (by simp)]
      rfl
    · intro x hx
      rw [trivF x, trivF z1, hSnotriv z1 hnrS]
      rcases List.mem_append.1 hx with h1 | h1
      · exact hSnotriv x (hmemSpost x h1)
      · exact hSnotriv x (hmemSpre x h1)
    · intro x hx
      rw [trivF x, trivF z1, hSnotriv z1 hnrS, hbodytriv x hx]
      cases (s.heap o).trivial <;> simp

/-- C5: the dual-ring triviality partition (`RingInv`: primary ring
members share the iso's triviality, secondary ring members have the
opposite) is preserved by `alloc`, by `merge_internal` (donor rings are
spliced into the recipient rings of matching triviality), and by
`swap_root_internal` in both its cases (same triviality: the new root
becomes the primary terminal; opposite triviality: the rings swap
roles). -/
theorem ring_partition_preserved :
    (∀ (s : RState) (o : Nat) (body S : List Nat) (oId : Nat) (desc : Descriptor),
       RingInv s o body S → oId ∉ body → oId ≠ o → oId ∉ S → oId ≠ s.reg.meta →
       RingInv (allocObj s oId desc) o
         (if desc.trivial = (s.heap o).trivial then oId :: body else body)
         (if desc.trivial = (s.heap o).trivial then S else oId :: S)) ∧
    (∀ (s : RState) (oR : Nat) (bodyR SR : List Nat) (oD : Nat) (other : Region)
       (bodyD SD : List Nat),
       RingInv s oR bodyR SR →
       chainTo s.heap other.meta ((s.heap other.meta).next) (bodyD ++ [oD]) →
       chainTo s.heap other.meta other.next_not_root SD →
       other.last_not_root = SD.getLast?.getD other.meta →
       (∀ x ∈ bodyD, (s.heap x).trivial = (s.heap oD).trivial) →
       (∀ x ∈ SD, (s.heap x).trivial ≠ (s.heap oD).trivial) →
       ((bodyD ++ [oD]) ++ SD).Nodup →
       (∀ a ∈ (bodyD ++ [oD]) ++ SD, a ∉ bodyR ++ oR :: SR) →
       (∀ a ∈ (bodyD ++ [oD]) ++ SD, a ≠ s.reg.meta) →
       RingInv (merge_internal s oD other) oR
         (if (s.heap oD).trivial = (s.heap oR).trivial
          then (bodyD ++ [oD]) ++ bodyR else SD ++ bodyR)
         (if (s.heap oD).trivial = (s.heap oR).trivial
          then SD ++ SR else (bodyD ++ [oD]) ++ SR)) ∧
    (∀ (s : RState) (o nroot : Nat) (body S pre post : List Nat),
       RingInv s o body S → ((body ++ [o]) ++ S).Nodup →
       body = pre ++ nroot :: post →
       (s.heap nroot).trivial = (s.heap o).trivial →
       RingInv (swap_root_internal s o nroot) nroot ((post ++ [o]) ++ pre) S) ∧
    (∀ (s : RState) (o nroot : Nat) (body S pre post : List Nat),
       RingInv s o body S → ((body ++ [o]) ++ S).Nodup →
       S = pre ++ nroot :: post →
       ¬ (s.heap nroot).trivial = (s.heap o).trivial →
       RingInv (swap_root_internal s o nroot) nroot (post ++ pre) (body ++ [o])) := by
  refine ⟨?_, ?_, ?_, ?_⟩
  · intro s o body S oId desc inv h1 h2 h3 h4
    by_cases hc : desc.trivial = (s.heap o).trivial
    · rw [if_pos hc, if_pos hc]
      exact (allocObj_partition s o body S oId desc inv h1 h2 h3 h4).1 hc
    · rw [if_neg hc, if_neg hc]
      exact (allocObj_partition s o body S oId desc inv h1 h2 h3 h4).2 hc
  · intro s oR bodyR SR oD other bodyD SD inv h1 h2 h3 h4 h5 h6 h7 h8
    by_cases hc : (s.heap oD).trivial = (s.heap oR).trivial
    · rw [if_pos hc, if_pos hc]
      exact (merge_internal_partition s oR bodyR SR oD other bodyD SD inv
        h1 h2 h3 h4 h5 h6 h7 h8).1 hc
    · rw [if_neg hc, if_neg hc]
      exact (merge_internal_partition s oR bodyR SR oD other bodyD SD inv
        h1 h2 h3 h4 h5 h6 h7 h8).2 hc
  · intro s o nroot body S pre post inv hnd hsplit htq
    exact swap_root_same_partition s o nroot body S pre post inv hnd hsplit htq
  · intro s o nroot body S pre post inv hnd hsplit htq
    exact swap_root_diff_partition s o nroot body S pre post inv hnd hsplit htq

/-- Witness for C5 at a concrete input: allocating a same-triviality
object into the one-object witness region puts it at the head of the
primary ring. -/
theorem ring_partition_preserved_witness :
    RingInv sW 1 ([] : List Nat) ([] : List Nat) ∧
    RingInv (allocObj sW 2 { size := 8, trivial := true }) 1
      (if ({ size := 8, trivial := true } : Descriptor).trivial = (sW.heap 1).trivial
       then [2] else ([] : List Nat))
      (if ({ size := 8, trivial := true } : Descriptor).trivial = (sW.heap 1).trivial
       then ([] : List Nat) else [2]) :=
  have hinv : RingInv sW 1 ([] : List Nat) ([] : List Nat) :=
    ⟨by decide, by decide, by decide, by decide, by decide⟩
  ⟨hinv, ring_partition_preserved.1 sW 1 [] [] 2 { size := 8, trivial := true } hinv
    (by decide) (by decide) (by decide) (by decide)⟩

/-- The last step of `sweep` re-encodes `previous_memory_used` from the
just-recomputed `current_memory_used`. -/
theorem sweep_prev_encoded (sweepAll : Bool) (fuel : Nat) (s : RState) (o marked : Nat)
    (out : SweepCtx) (h : sweep sweepAll fuel s o marked = some out) :
    out.s.reg.previous_memory_used = size_to_sizeclass out.s.reg.current_memory_used := by
  unfold sweep at h
  split at h
  · exact absurd h (by simp)
  · split at h
    · exact absurd h (by simp)
    · cases h
      rfl

/-- Two heaps that thread the same chain list from the same metadata agree
on the `next` slot of every chain member (the list determines the links). -/
theorem chainTo_same_next (h h' : Heap) (m : Nat) :
    ∀ (l : List Nat) (x x' : Nat), chainTo h m x l → chainTo h' m x' l →
      ∀ y ∈ l, (h' y).next = (h y).next := by
  intro l
  induction l with
  | nil => intro x x' _ _ y hy; cases hy
  | cons a t ih =>
    intro x x' hc hc' y hy
    obtain ⟨hx, ham, hr⟩ := hc
    obtain ⟨hx', _, hr'⟩ := hc'
    rcases List.mem_cons.1 hy with rfl | hyt
    · cases t with
      | nil =>
        have h1 : (h y).next = m := hr
        have h2 : (h' y).next = m := hr'
        rw [h1, h2]
      | cons b t' =>
        have h1 : (h y).next = b := hr.1
        have h2 : (h' y).next = b := hr'.1
        rw [h1, h2]
    · exact ih _ _ hr hr' y hyt

/-- Reachability only reads the `fields` and `cls` slots, so it transfers
between heaps that agree on them. -/
theorem Reach_congr (h h' : Heap) (o : Nat)
    (hf : ∀ x, (h' x).fields = (h x).fields)
    (hc : ∀ x, (h' x).cls = (h x).cls) :
    ∀ x, Reach h o x → Reach h' o x := by
  intro x hx
  induction hx with
  | root hg => exact Reach.root (by rw [hf]; exact hg)
  | step hp hcls hg ihp =>
    exact Reach.step ihp (by rw [hc]; exact hcls) (by rw [hf]; exact hg)

/-- Exactness of the mark phase: a completed `mark` marks precisely the
reachable UNMARKED cells and leaves every other cell (and the region
fields) untouched. -/
theorem markFn_exact (fuel : Nat) (s : RState) (o : Nat) (out : RState × Nat)
    (h : markFn fuel s o = some out) :
    out.1.reg = s.reg ∧
    (∀ x, Reach s.heap o x → (s.heap x).cls = RegionMD.UNMARKED →
      out.1.heap x = { s.heap x with cls := RegionMD.MARKED }) ∧
    (∀ x, ¬ (Reach s.heap o x ∧ (s.heap x).cls = RegionMD.UNMARKED) →
      out.1.heap x = s.heap x) := by
  obtain ⟨hreg, hK1, hK2, hK3, hK4⟩ :=
    markLoop_spec s o fuel s ((s.heap o).fields) 0 out h
      (fun x => Or.inl rfl) (fun g hg => Reach.root hg) (fun x hx => Or.inl hx)
  have hnonU : ∀ x, Reach s.heap o x → (out.1.heap x).cls ≠ RegionMD.UNMARKED := by
    intro x hx
    induction hx with
    | root hg => exact hK3 _ hg
    | step hp hcls hg ihp =>
      rename_i p q
      have hpm : (out.1.heap p).cls = RegionMD.MARKED := by
        rcases hK1 p with he | ⟨hm, _, _⟩
        · exact absurd (by rw [he, hcls]) ihp
        · rw [hm]
      rcases hK4 p hpm with hsm | hall
      · rw [hcls] at hsm
        simp at hsm
      · exact hall _ hg
  refine ⟨hreg, ?_, ?_⟩
  · intro x hx hcls
    rcases hK1 x with he | ⟨hm, _, _⟩
    · exact absurd (by rw [he, hcls]) (hnonU x hx)
    · exact hm
  · intro x hnx
    rcases hK1 x with he | ⟨_, hu, hr⟩
    · exact he
    · exact absurd ⟨hr, hu⟩ hnx

/-- `sweepNormalNTiso` and `sweepNormalTiso` merged: the normal-mode sweep
postcondition for either iso triviality. -/
theorem sweepNormalAny (fuel : Nat) (s : RState) (o marked : Nat)
    (body S : List Nat) (out : SweepCtx)
    (hsw : sweep false fuel s o marked = some out)
    (hP : chainTo s.heap s.reg.meta (get_next s) (body ++ [o]))
    (hS : chainTo s.heap s.reg.meta s.reg.next_not_root S)
    (hnd : ((body ++ [o]) ++ S).Nodup)
    (hiso : (s.heap o).cls = RegionMD.ISO)
    (hbody : ∀ x ∈ body, (s.heap x).cls = RegionMD.MARKED ∨ (s.heap x).cls = RegionMD.UNMARKED)
    (hSc : ∀ x ∈ S, (s.heap x).cls = RegionMD.MARKED ∨ (s.heap x).cls = RegionMD.UNMARKED)
    (hlnr : s.reg.last_not_root = S.getLast?.getD s.reg.meta) :
    (∀ x ∈ body ++ S, (s.heap x).cls = RegionMD.UNMARKED →
       Ev.dealloc x ∈ out.events ∧
       x ∉ body.filter (keepB s.heap) ∧ x ∉ S.filter (keepB s.heap)) ∧
    (chainTo out.s.heap s.reg.meta (get_next out.s)
       (body.filter (keepB s.heap) ++ [o]) ∧
     chainTo out.s.heap s.reg.meta out.s.reg.next_not_root
       (S.filter (keepB s.heap)) ∧
     out.s.reg.last_not_root =
       (S.filter (keepB s.heap)).getLast?.getD s.reg.meta) ∧
    (∀ x ∈ body ++ S, (s.heap x).cls = RegionMD.MARKED →
       (out.s.heap x).cls = RegionMD.UNMARKED) ∧
    out.s.reg.current_memory_used =
      sizesum s.heap (body.filter (keepB s.heap)) + (s.heap o).size +
        sizesum s.heap (S.filter (keepB s.heap)) ∧
    ((∀ y, y ∉ body ++ S → y ≠ o → y ≠ s.reg.meta → out.s.heap y = s.heap y) ∧
     out.s.heap o = s.heap o ∧
     (∃ nx, out.s.heap s.reg.meta = { s.heap s.reg.meta with next := nx }) ∧
     (∀ y ∈ body ++ S, ∃ nx,
       out.s.heap y = { s.heap y with cls := RegionMD.UNMARKED, next := nx }) ∧
     (body.filter (deadB s.heap) = [] → S.filter (deadB s.heap) = [] →
       out.events = [Ev.sweepSetEv marked] ∧ out.collect = [])) := by
  cases hot : (s.heap o).trivial with
  | false =>
    exact sweepNormalNTiso fuel s o marked body S out hot hsw hP hS hnd hiso hbody hSc hlnr
  | true =>
    exact sweepNormalTiso fuel s o marked body S out hot hsw hP hS hnd hiso hbody hSc hlnr

/-- C7: on a well-formed quiescent trace region (dual rings `body`/`S`
with pairwise-distinct nodes, every member UNMARKED, and intra-region
reachability from the iso staying inside the member set), running `gc`
twice in succession yields the same region state as running it once: the
second collection deallocates no object (its `collect` stack is empty and
its trace is just the remembered-set sweep) and the surviving members,
ring structure and class tags after the second gc equal those after the
first. -/
theorem gc_idempotent (fuel : Nat) (s : RState) (o : Nat) (body S : List Nat)
    (out1 out2 : SweepCtx)
    (hgc1 : gcStep fuel s o = some out1)
    (hgc2 : gcStep fuel out1.s o = some out2)
    (hP : chainTo s.heap s.reg.meta (get_next s) (body ++ [o]))
    (hS : chainTo s.heap s.reg.meta s.reg.next_not_root S)
    (hnd : ((body ++ [o]) ++ S).Nodup)
    (hiso : (s.heap o).cls = RegionMD.ISO)
    (hmem : ∀ x ∈ body ++ S, (s.heap x).cls = RegionMD.UNMARKED)
    (hlnr : s.reg.last_not_root = S.getLast?.getD s.reg.meta)
    (hclosed : ∀ x, Reach s.heap o x → x ≠ o → x ∈ body ++ S) :
    out2.s = out1.s ∧ out2.collect = [] ∧ ∃ k, out2.events = [Ev.sweepSetEv k] := by
  have hdisj := (List.nodup_append.1 hnd).2.2
  have hometa : o ≠ s.reg.meta :=
    chainTo_ne_meta s.heap s.reg.meta (get_next s) (body ++ [o]) hP o
      (List.mem_append.2 (Or.inr (by simp)))
  have hmetamem : s.reg.meta ∉ body ++ S := by
    intro hin
    rcases List.mem_append.1 hin with hb | hs
    · exact chainTo_ne_meta s.heap s.reg.meta (get_next s) (body ++ [o]) hP _
        (List.mem_append.2 (Or.inl hb)) rfl
    · exact chainTo_ne_meta s.heap s.reg.meta s.reg.next_not_root S hS _ hs rfl
  have hoB : o ∉ body := by
    intro hb
    exact (List.nodup_append.1 (List.nodup_append.1 hnd).1).2.2 hb (by simp)
  have hoS : o ∉ S := fun hs => hdisj (List.mem_append.2 (Or.inr (by simp))) hs
  unfold gcStep at hgc1
  cases hm1 : markFn fuel s o with
  | none => rw [hm1] at hgc1; exact absurd hgc1 (by simp)
  | some sm1 =>
  rw [hm1] at hgc1
  obtain ⟨hreg1, hE1, hE2⟩ := markFn_exact fuel s o sm1 hm1
  have hsmcell : ∀ x, sm1.1.heap x = s.heap x ∨
      (sm1.1.heap x = { s.heap x with cls := RegionMD.MARKED } ∧
        Reach s.heap o x ∧ (s.heap x).cls = RegionMD.UNMARKED) := by
    intro x
    by_cases hr : Reach s.heap o x ∧ (s.heap x).cls = RegionMD.UNMARKED
    · exact Or.inr ⟨hE1 x hr.1 hr.2, hr.1, hr.2⟩
    · exact Or.inl (hE2 x hr)
  have hsmnext : ∀ x, (sm1.1.heap x).next = (s.heap x).next := by
    intro x
    rcases hsmcell x with he | ⟨he, _, _⟩ <;> rw [he]
  have hsmsize : ∀ x, (sm1.1.heap x).size = (s.heap x).size := by
    intro x
    rcases hsmcell x with he | ⟨he, _, _⟩ <;> rw [he]
  have hsmo : sm1.1.heap o = s.heap o := by
    rcases hsmcell o with he | ⟨_, _, hu⟩
    · exact he
    · rw [hiso] at hu
      simp at hu
  have hsmmeta : sm1.1.heap s.reg.meta = s.heap s.reg.meta := by
    rcases hsmcell s.reg.meta with he | ⟨_, hrm, _⟩
    · exact he
    · exact absurd (hclosed s.reg.meta hrm (fun he2 => hometa he2.symm)) hmetamem
  have hgn1 : get_next sm1.1 = get_next s := by
    show (sm1.1.heap sm1.1.reg.meta).next = (s.heap s.reg.meta).next
    rw [hreg1, hsmnext]
  have hP1 : chainTo sm1.1.heap sm1.1.reg.meta (get_next sm1.1) (body ++ [o]) := by
    have h1 : chainTo sm1.1.heap s.reg.meta (get_next s) (body ++ [o]) :=
      chainTo_congr_next s.heap sm1.1.heap s.reg.meta (body ++ [o]) (get_next s) hP
        (fun y _ => hsmnext y)
    rw [hgn1, hreg1]
    exact h1
  have hS1 : chainTo sm1.1.heap sm1.1.reg.meta sm1.1.reg.next_not_root S := by
    have h1 : chainTo sm1.1.heap s.reg.meta s.reg.next_not_root S :=
      chainTo_congr_next s.heap sm1.1.heap s.reg.meta S s.reg.next_not_root hS
        (fun y _ => hsmnext y)
    rw [hreg1]
    exact h1
  have hiso1' : (sm1.1.heap o).cls = RegionMD.ISO := by
    rw [hsmo]
    exact hiso
  have hbody1 : ∀ x ∈ body, (sm1.1.heap x).cls = RegionMD.MARKED ∨
      (sm1.1.heap x).cls = RegionMD.UNMARKED := by
    intro x hx
    rcases hsmcell x with he | ⟨he, _, _⟩
    · rw [he]
      exact Or.inr (hmem x (List.mem_append.2 (Or.inl hx)))
    · rw [he]
      exact Or.inl rfl
  have hSc1 : ∀ x ∈ S, (sm1.1.heap x).cls = RegionMD.MARKED ∨
      (sm1.1.heap x).cls = RegionMD.UNMARKED := by
    intro x hx
    rcases hsmcell x with he | ⟨he, _, _⟩
    · rw [he]
      exact Or.inr (hmem x (List.mem_append.2 (Or.inr hx)))
    · rw [he]
      exact Or.inl rfl
  have hlnr1 : sm1.1.reg.last_not_root = S.getLast?.getD sm1.1.reg.meta := by
    rw [hreg1]
    exact hlnr
  obtain ⟨hdead1, ⟨hch1P, hch1S, hlnrS1⟩, hunm1, hcur1,
      hX1out, hX1o, hX1meta, hX1mem, hX1ev⟩ :=
    sweepNormalAny fuel sm1.1 o sm1.2 body S out1 hgc1 hP1 hS1 hnd hiso1' hbody1 hSc1 hlnr1
  rw [hreg1] at hch1P hch1S hlnrS1 hX1out hX1meta
  have hcell1 : ∀ x, ∃ nx, out1.s.heap x = { s.heap x with next := nx } := by
    intro x
    by_cases hxm : x ∈ body ++ S
    · obtain ⟨nx, hc⟩ := hX1mem x hxm
      have hcls := hmem x hxm
      refine ⟨nx, ?_⟩
      rcases hsmcell x with he | ⟨he, _, _⟩
      · rw [hc, he, ← hcls]
      · rw [hc, he, ← hcls]
    · by_cases hxo : x = o
      · subst hxo
        refine ⟨(s.heap x).next, ?_⟩
        rw [hX1o, hsmo]
      · by_cases hxmeta : x = s.reg.meta
        · subst hxmeta
          obtain ⟨nx, hc⟩ := hX1meta
          refine ⟨nx, ?_⟩
          rw [hc, hsmmeta]
        · refine ⟨(s.heap x).next, ?_⟩
          have h2 : sm1.1.heap x = s.heap x := by
            rcases hsmcell x with he | ⟨_, hrx, _⟩
            · exact he
            · exact absurd (hclosed x hrx hxo) hxm
          rw [hX1out x hxm hxo hxmeta, h2]
  have hcls1 : ∀ x, (out1.s.heap x).cls = (s.heap x).cls := by
    intro x
    obtain ⟨nx, hcx⟩ := hcell1 x
    rw [hcx]
  have hfield1 : ∀ x, (out1.s.heap x).fields = (s.heap x).fields := by
    intro x
    obtain ⟨nx, hcx⟩ := hcell1 x
    rw [hcx]
  have hsize1 : ∀ x, (out1.s.heap x).size = (s.heap x).size := by
    intro x
    obtain ⟨nx, hcx⟩ := hcell1 x
    rw [hcx]
  have hReach1f : ∀ x, Reach s.heap o x → Reach out1.s.heap o x :=
    Reach_congr s.heap out1.s.heap o hfield1 hcls1
  have hReach1b : ∀ x, Reach out1.s.heap o x → Reach s.heap o x :=
    Reach_congr out1.s.heap s.heap o (fun x => (hfield1 x).symm) (fun x => (hcls1 x).symm)
  have hmeta1out : out1.s.reg.meta = s.reg.meta := by
    have h1 := sweep_meta false fuel sm1.1 o sm1.2 out1 hgc1
    rw [h1, hreg1]
  have hprevenc1 := sweep_prev_encoded false fuel sm1.1 o sm1.2 out1 hgc1
  have hBk : ∀ y, y ∈ body.filter (keepB sm1.1.heap) ↔ (y ∈ body ∧ Reach s.heap o y) := by
    intro y
    constructor
    · intro hy
      have hyb := List.mem_of_mem_filter hy
      have hk := (List.mem_filter.1 hy).2
      refine ⟨hyb, ?_⟩
      rcases hsmcell y with he | ⟨_, hr, _⟩
      · exfalso
        simp [keepB, he, hmem y (List.mem_append.2 (Or.inl hyb))] at hk
      · exact hr
    · rintro ⟨hyb, hr⟩
      refine List.mem_filter.2 ⟨hyb, ?_⟩
      have hcy := hE1 y hr (hmem y (List.mem_append.2 (Or.inl hyb)))
      simp [keepB, hcy]
  have hSk : ∀ y, y ∈ S.filter (keepB sm1.1.heap) ↔ (y ∈ S ∧ Reach s.heap o y) := by
    intro y
    constructor
    · intro hy
      have hyb := List.mem_of_mem_filter hy
      have hk := (List.mem_filter.1 hy).2
      refine ⟨hyb, ?_⟩
      rcases hsmcell y with he | ⟨_, hr, _⟩
      · exfalso
        simp [keepB, he, hmem y (List.mem_append.2 (Or.inr hyb))] at hk
      · exact hr
    · rintro ⟨hyb, hr⟩
      refine List.mem_filter.2 ⟨hyb, ?_⟩
      have hcy := hE1 y hr (hmem y (List.mem_append.2 (Or.inr hyb)))
      simp [keepB, hcy]
  unfold gcStep at hgc2
  cases hm2 : markFn fuel out1.s o with
  | none => rw [hm2] at hgc2; exact absurd hgc2 (by simp)
  | some sm2 =>
  rw [hm2] at hgc2
  obtain ⟨hreg2, hF1, hF2⟩ := markFn_exact fuel out1.s o sm2 hm2
  have hmark2 : ∀ y ∈ body.filter (keepB sm1.1.heap) ++ S.filter (keepB sm1.1.heap),
      sm2.1.heap y = { out1.s.heap y with cls := RegionMD.MARKED } := by
    intro y hy
    have hyR : Reach s.heap o y := by
      rcases List.mem_append.1 hy with hb | hs
      · exact ((hBk y).1 hb).2
      · exact ((hSk y).1 hs).2
    have hymem : y ∈ body ++ S := by
      rcases List.mem_append.1 hy with hb | hs
      · exact List.mem_append.2 (Or.inl ((hBk y).1 hb).1)
      · exact List.mem_append.2 (Or.inr ((hSk y).1 hs).1)
    have hyU : (out1.s.heap y).cls = RegionMD.UNMARKED := by
      rw [hcls1 y]
      exact hmem y hymem
    exact hF1 y (hReach1f y hyR) hyU
  have hsm2other : ∀ x, x ∉ body.filter (keepB sm1.1.heap) ++ S.filter (keepB sm1.1.heap) →
      sm2.1.heap x = out1.s.heap x := by
    intro x hx
    refine hF2 x ?_
    rintro ⟨hr, hu⟩
    have hrs : Reach s.heap o x := hReach1b x hr
    have hxo : x ≠ o := by
      intro he
      rw [he] at hu
      rw [hcls1 o, hiso] at hu
      simp at hu
    have hxm := hclosed x hrs hxo
    rcases List.mem_append.1 hxm with hb | hs
    · exact hx (List.mem_append.2 (Or.inl ((hBk x).2 ⟨hb, hrs⟩)))
    · exact hx (List.mem_append.2 (Or.inr ((hSk x).2 ⟨hs, hrs⟩)))
  have hsm2next : ∀ x, (sm2.1.heap x).next = (out1.s.heap x).next := by
    intro x
    by_cases hx : x ∈ body.filter (keepB sm1.1.heap) ++ S.filter (keepB sm1.1.heap)
    · rw [hmark2 x hx]
    · rw [hsm2other x hx]
  have hsm2size : ∀ x, (sm2.1.heap x).size = (out1.s.heap x).size := by
    intro x
    by_cases hx : x ∈ body.filter (keepB sm1.1.heap) ++ S.filter (keepB sm1.1.heap)
    · rw [hmark2 x hx]
    · rw [hsm2other x hx]
  have hmeta2 : sm2.1.reg.meta = s.reg.meta := by
    rw [hreg2, hmeta1out]
  have hgn2 : get_next sm2.1 = get_next out1.s := by
    show (sm2.1.heap sm2.1.reg.meta).next = (out1.s.heap out1.s.reg.meta).next
    rw [hreg2, hsm2next]
  have hP2 : chainTo sm2.1.heap sm2.1.reg.meta (get_next sm2.1)
      (body.filter (keepB sm1.1.heap) ++ [o]) := by
    have h1 : chainTo sm2.1.heap s.reg.meta (get_next out1.s)
        (body.filter (keepB sm1.1.heap) ++ [o]) :=
      chainTo_congr_next out1.s.heap sm2.1.heap s.reg.meta _ _ hch1P
        (fun y _ => hsm2next y)
    rw [hgn2, hreg2, hmeta1out]
    exact h1
  have hS2 : chainTo sm2.1.heap sm2.1.reg.meta sm2.1.reg.next_not_root
      (S.filter (keepB sm1.1.heap)) := by
    have h1 : chainTo sm2.1.heap s.reg.meta out1.s.reg.next_not_root
        (S.filter (keepB sm1.1.heap)) :=
      chainTo_congr_next out1.s.heap sm2.1.heap s.reg.meta _ _ hch1S
        (fun y _ => hsm2next y)
    rw [hreg2, hmeta1out]
    exact h1
  have hsub : ((body.filter (keepB sm1.1.heap) ++ [o]) ++
      S.filter (keepB sm1.1.heap)).Sublist ((body ++ [o]) ++ S) :=
    List.Sublist.append
      (List.Sublist.append (List.filter_sublist body) (List.Sublist.refl [o]))
      (List.filter_sublist S)
  have hnd2 := List.Nodup.sublist hsub hnd
  have honotk : o ∉ body.filter (keepB sm1.1.heap) ++ S.filter (keepB sm1.1.heap) := by
    intro hin
    rcases List.mem_append.1 hin with hb | hs
    · exact hoB (List.mem_of_mem_filter hb)
    · exact hoS (List.mem_of_mem_filter hs)
  have hiso2' : (sm2.1.heap o).cls = RegionMD.ISO := by
    rw [hsm2other o honotk, hcls1 o]
    exact hiso
  have hbody2 : ∀ x ∈ body.filter (keepB sm1.1.heap),
      (sm2.1.heap x).cls = RegionMD.MARKED ∨ (sm2.1.heap x).cls = RegionMD.UNMARKED := by
    intro x hx
    rw [hmark2 x (List.mem_append.2 (Or.inl hx))]
    exact Or.inl rfl
  have hSc2 : ∀ x ∈ S.filter (keepB sm1.1.heap),
      (sm2.1.heap x).cls = RegionMD.MARKED ∨ (sm2.1.heap x).cls = RegionMD.UNMARKED := by
    intro x hx
    rw [hmark2 x (List.mem_append.2 (Or.inr hx))]
    exact Or.inl rfl
  have hlnr2 : sm2.1.reg.last_not_root =
      (S.filter (keepB sm1.1.heap)).getLast?.getD sm2.1.reg.meta := by
    rw [hreg2, hmeta1out]
    exact hlnrS1
  obtain ⟨hdead2, ⟨hch2P, hch2S, hlnrS2⟩, hunm2, hcur2,
      hX2out, hX2o, hX2meta, hX2mem, hX2ev⟩ :=
    sweepNormalAny fuel sm2.1 o sm2.2 (body.filter (keepB sm1.1.heap))
      (S.filter (keepB sm1.1.heap)) out2 hgc2 hP2 hS2 hnd2 hiso2' hbody2 hSc2 hlnr2
  rw [hreg2, hmeta1out] at hch2P hch2S hlnrS2 hX2out hX2meta
  have hkeep2b : (body.filter (keepB sm1.1.heap)).filter (keepB sm2.1.heap) =
      body.filter (keepB sm1.1.heap) :=
    List.filter_eq_self.2 (fun y hy => by
      simp [keepB, hmark2 y (List.mem_append.2 (Or.inl hy))])
  have hkeep2s : (S.filter (keepB sm1.1.heap)).filter (keepB sm2.1.heap) =
      S.filter (keepB sm1.1.heap) :=
    List.filter_eq_self.2 (fun y hy => by
      simp [keepB, hmark2 y (List.mem_append.2 (Or.inr hy))])
  have hdead2b : (body.filter (keepB sm1.1.heap)).filter (deadB sm2.1.heap) = [] :=
    List.filter_eq_nil_iff.2 (fun y hy => by
      simp [deadB, hmark2 y (List.mem_append.2 (Or.inl hy))])
  have hdead2s : (S.filter (keepB sm1.1.heap)).filter (deadB sm2.1.heap) = [] :=
    List.filter_eq_nil_iff.2 (fun y hy => by
      simp [deadB, hmark2 y (List.mem_append.2 (Or.inr hy))])
  obtain ⟨hevents2, hcollect2⟩ := hX2ev hdead2b hdead2s
  rw [hkeep2b] at hch2P
  rw [hkeep2s] at hch2S hlnrS2
  have hnextP : ∀ y ∈ body.filter (keepB sm1.1.heap) ++ [o],
      (out2.s.heap y).next = (out1.s.heap y).next :=
    chainTo_same_next out1.s.heap out2.s.heap s.reg.meta
      (body.filter (keepB sm1.1.heap) ++ [o]) (get_next out1.s) (get_next out2.s)
      hch1P hch2P
  have hnextS : ∀ y ∈ S.filter (keepB sm1.1.heap),
      (out2.s.heap y).next = (out1.s.heap y).next :=
    chainTo_same_next out1.s.heap out2.s.heap s.reg.meta
      (S.filter (keepB sm1.1.heap)) out1.s.reg.next_not_root out2.s.reg.next_not_root
      hch1S hch2S
  have hmeta2out : out2.s.reg.meta = s.reg.meta := by
    have hq := sweep_meta false fuel sm2.1 o sm2.2 out2 hgc2
    rw [hq, hmeta2]
  have hheap : out2.s.heap = out1.s.heap := by
    funext x
    by_cases hxk : x ∈ body.filter (keepB sm1.1.heap) ++ S.filter (keepB sm1.1.heap)
    · obtain ⟨nx, hc⟩ := hX2mem x hxk
      have hm2x := hmark2 x hxk
      have hxU : (out1.s.heap x).cls = RegionMD.UNMARKED := by
        rw [hcls1 x]
        refine hmem x ?_
        rcases List.mem_append.1 hxk with hb | hs
        · exact List.mem_append.2 (Or.inl (List.mem_of_mem_filter hb))
        · exact List.mem_append.2 (Or.inr (List.mem_of_mem_filter hs))
      have hnxeq : (out2.s.heap x).next = (out1.s.heap x).next := by
        rcases List.mem_append.1 hxk with hb | hs
        · exact hnextP x (List.mem_append.2 (Or.inl hb))
        · exact hnextS x hs
      have hnx : nx = (out1.s.heap x).next := by
        rw [hc] at hnxeq
        exact hnxeq
      rw [hc, hm2x, hnx, ← hxU]
    · by_cases hxo : x = o
      · subst hxo
        rw [hX2o]
        exact hsm2other x hxk
      · by_cases hxmeta : x = s.reg.meta
        · subst hxmeta
          obtain ⟨nx, hc⟩ := hX2meta
          have hsm2m : sm2.1.heap s.reg.meta = out1.s.heap s.reg.meta :=
            hsm2other s.reg.meta hxk
          have hstart : get_next out2.s = get_next out1.s := by
            cases hbc : body.filter (keepB sm1.1.heap) with
            | nil =>
              rw [hbc] at hch1P hch2P
              have h1 : get_next out1.s = o := hch1P.1
              have h2 : get_next out2.s = o := hch2P.1
              rw [h1, h2]
            | cons a t =>
              rw [hbc] at hch1P hch2P
              have h1 : get_next out1.s = a := hch1P.1
              have h2 : get_next out2.s = a := hch2P.1
              rw [h1, h2]
          have hh2 : (out2.s.heap s.reg.meta).next = (out1.s.heap s.reg.meta).next := by
            have e2 : get_next out2.s = (out2.s.heap s.reg.meta).next := by
              show (out2.s.heap out2.s.reg.meta).next = (out2.s.heap s.reg.meta).next
              rw [hmeta2out]
            have e1 : get_next out1.s = (out1.s.heap s.reg.meta).next := by
              show (out1.s.heap out1.s.reg.meta).next = (out1.s.heap s.reg.meta).next
              rw [hmeta1out]
            rw [← e2, ← e1]
            exact hstart
          have hnx : nx = (out1.s.heap s.reg.meta).next := by
            rw [hc] at hh2
            exact hh2
          rw [hc, hsm2m, hnx]
        · rw [hX2out x hxk hxo hxmeta]
          exact hsm2other x hxk
  have hregeq : out2.s.reg = out1.s.reg := by
    have hnnr : out2.s.reg.next_not_root = out1.s.reg.next_not_root := by
      cases hsc : S.filter (keepB sm1.1.heap) with
      | nil =>
        rw [hsc] at hch1S hch2S
        have h1 : out1.s.reg.next_not_root = s.reg.meta := hch1S
        have h2 : out2.s.reg.next_not_root = s.reg.meta := hch2S
        rw [h1, h2]
      | cons a t =>
        rw [hsc] at hch1S hch2S
        have h1 : out1.s.reg.next_not_root = a := hch1S.1
        have h2 : out2.s.reg.next_not_root = a := hch2S.1
        rw [h1, h2]
    have hlnre : out2.s.reg.last_not_root = out1.s.reg.last_not_root := by
      rw [hlnrS2, hlnrS1]
    have he2b : sizesum sm2.1.heap (body.filter (keepB sm1.1.heap)) =
        sizesum s.heap (body.filter (keepB sm1.1.heap)) :=
      sizesum_congr_size s.heap sm2.1.heap _ (fun y _ => by rw [hsm2size y, hsize1 y])
    have he2s : sizesum sm2.1.heap (S.filter (keepB sm1.1.heap)) =
        sizesum s.heap (S.filter (keepB sm1.1.heap)) :=
      sizesum_congr_size s.heap sm2.1.heap _ (fun y _ => by rw [hsm2size y, hsize1 y])
    have he1b : sizesum sm1.1.heap (body.filter (keepB sm1.1.heap)) =
        sizesum s.heap (body.filter (keepB sm1.1.heap)) :=
      sizesum_congr_size s.heap sm1.1.heap _ (fun y _ => hsmsize y)
    have he1s : sizesum sm1.1.heap (S.filter (keepB sm1.1.heap)) =
        sizesum s.heap (S.filter (keepB sm1.1.heap)) :=
      sizesum_congr_size s.heap sm1.1.heap _ (fun y _ => hsmsize y)
    have heo2 : (sm2.1.heap o).size = (s.heap o).size := by
      rw [hsm2size o, hsize1 o]
    have heo1 : (sm1.1.heap o).size = (s.heap o).size := hsmsize o
    have hcure : out2.s.reg.current_memory_used = out1.s.reg.current_memory_used := by
      rw [hkeep2b, hkeep2s] at hcur2
      rw [hcur2, hcur1, he2b, he2s, he1b, he1s, heo2, heo1]
    have hprevE : out2.s.reg.previous_memory_used = out1.s.reg.previous_memory_used := by
      have p2 := sweep_prev_encoded false fuel sm2.1 o sm2.2 out2 hgc2
      rw [p2, hcure, ← hprevenc1]
    have hmetae : out2.s.reg.meta = out1.s.reg.meta := by
      rw [hmeta2out, hmeta1out]
    exact Region.ext hmetae hnnr hlnre hcure hprevE
  exact ⟨RState.ext hheap hregeq, hcollect2, ⟨sm2.2, hevents2⟩⟩

/-- The result of one full `gc` pass over the two-object non-trivial
witness region. -/
def cG1 : SweepCtx :=
  match gcStep 10 sNT 1 with
  | some c => c
  | none => { s := sNT, events := [], collect := [] }

/-- The result of a second `gc` pass over the same region. -/
def cG2 : SweepCtx :=
  match gcStep 10 cG1.s 1 with
  | some c => c
  | none => { s := cG1.s, events := [], collect := [] }

/-- In the witness region the iso traces no fields, so nothing is
reachable from it. -/
theorem sNT_no_reach : ∀ x, ¬ Reach sNT.heap 1 x := by
  intro x hx
  induction hx with
  | root hg =>
    have hf : (sNT.heap 1).fields = [] := by decide
    rw [hf] at hg
    exact absurd hg (List.not_mem_nil _)
  | step hp hcls hg ihp => exact ihp

/-- Witness for C7 at a concrete input: two successive collections of the
two-object non-trivial region produce identical states, and the second
one collects nothing. -/
theorem gc_idempotent_witness :
    cG2.s = cG1.s ∧ cG2.collect = [] ∧ ∃ k, cG2.events = [Ev.sweepSetEv k] :=
  gc_idempotent 10 sNT 1 [2] [] cG1 cG2 rfl rfl (by decide) (by decide) (by decide)
    (by decide) (by decide) (by decide) (fun x hx _ => absurd hx (sNT_no_reach x))

end VeronaRT
